import Mathlib

/-!
# LimboAI behaviour-tree core: task state machine, Repeat decorator, cancel, clone,
binding, tree assembly, agent-property condition, parameter resolution, debugger view

A shallow embedding of `limboai/bt/bt_task.{h,cpp}`, `limboai/bt/bt_repeat.cpp`,
`bt/conditions/bt_check_agent_property.{h,cpp}` and
`editor/debugger/behavior_tree_view.cpp` (`update_tree`).

* A task object is a record of the private fields of `BTTask` plus the fields of its
  dynamic class; the children it owns (`Vector<Ref<BTTask>> _children`) are nested in it,
  so a task value is the whole subtree it owns.
* The methods are state-passing functions: they return the updated task together with the
  list of lifecycle hooks that were invoked, in call order.  A hook invocation is recorded
  with the position (path of child indices) of the receiving task below the task on which
  the entry point was called.
* `int` values (`_status`, `times`, `_cur_iteration`) are integers.  The only arithmetic
  is `_cur_iteration += 1`, reached only when `_cur_iteration < times`, so it cannot leave
  the range of `int`.  The value that a script's `_tick` returns is a `Variant`; where
  `execute` assigns it to `int _status` it is converted, keeping the low 32 bits
  (`int32`).
* `p_delta` is only handed on to `_tick`; no hook embedded here reads it, so it is omitted.
* Dereferencing a null `Ref` (the result of `get_child` on a bad index) is a fault: the
  functions that can reach one return `Option`, with `none` for the fault.
* Where it matters which object a reference names (`add_child`, `remove_child`,
  `get_root`, the parent references that `clone` writes) the objects live in a table
  indexed by identity (`Forest`), and the methods are functions on the table; walks that the
  code does not bound take a fuel argument.  `clone` is embedded both ways and the two are
  proved to agree.
* The blackboard, `BBParam::get_value` and `BBNode::get_value` are not among the sources
  (only their test is): they are modelled from the specification, and marked so.
* `update_tree` is a fold of its loop body over the records; the engine `Tree` is the
  list of the items created, an item being named by its position in that list.
-/

namespace LimboAI

/-! ## Data model -/

/-- Status enum of `BTTask` (bt_task.h): `FRESH`. -/
abbrev FRESH : Int := 0
/-- Status enum of `BTTask`: `RUNNING`. -/
abbrev RUNNING : Int := 1
/-- Status enum of `BTTask`: `FAILURE`. -/
abbrev FAILURE : Int := 2
/-- Status enum of `BTTask`: `SUCCESS`. -/
abbrev SUCCESS : Int := 3

/-- Dynamically typed engine value, as far as the tree core stores one.  A `real` is kept
as its bit pattern: the core never computes with it.  A `node_path` is a `NodePath`, kept
as its text. -/
inductive Variant where
  | nil
  | bool (b : Bool)
  | int (i : Int)
  | real (bits : Nat)
  | str (s : String)
  | object (ref : Nat)
  | node_path (path : String)
  deriving DecidableEq, Repr

/-- Engine `Dictionary`, as used for the blackboard: an association list. -/
abbrev Dictionary := List (String × Variant)

/-- The lifecycle hooks of a task: `_setup`, `_enter`, `_tick`, `_exit`. -/
inductive Hook where
  | setup
  | enter
  | tick
  | exit
  deriving DecidableEq, Repr

/-- One hook invocation: `path` locates the receiving task below the task on which the
entry point was called (`[]` is that task, `i :: p` is position `p` below child `i`);
`scripted` tells whether the call went to the attached script (`true`) or to the built-in
virtual method (`false`). -/
structure Event where
  path : List Nat
  hook : Hook
  scripted : Bool
  deriving DecidableEq, Repr

/-- Relocate an event of child `i` to the parent's frame. -/
def Event.under (i : Nat) (e : Event) : Event :=
  { e with path := i :: e.path }

/-- The script instance attached to a task (`get_script_instance()`): which hooks the
script defines, and what its `_tick` returns.  The script is outside the repository; its
`_tick` is an oracle giving the value of the n-th call (the integer that the returned
`Variant` holds, before any conversion to `int`), `ticks` counts the calls made.
The script hooks are taken not to write the task's private fields (none has a setter
except `custom_name` and `children`). -/
structure ScriptInstance where
  has_setup : Bool
  has_enter : Bool
  has_exit : Bool
  tick : Option (Nat → Int)
  ticks : Nat

/-- Embeds `get_script_instance()->has_method(name)` for the four hook names. -/
def ScriptInstance.has_method (s : ScriptInstance) : Hook → Bool
  | .setup => s.has_setup
  | .enter => s.has_enter
  | .tick => s.tick.isSome
  | .exit => s.has_exit

/-- The guard `get_script_instance() && get_script_instance()->has_method(name)`. -/
def script_has (s : Option ScriptInstance) (h : Hook) : Bool :=
  match s with
  | none => false
  | some si => si.has_method h

/-- Fields that `BTRepeat` adds to `BTTask` (named in bt_repeat.cpp). -/
structure BTRepeat where
  times : Int
  abort_on_failure : Bool
  _cur_iteration : Int
  deriving DecidableEq, Repr

/-- Dynamic class of a task, with the fields the class adds: plain `BTTask`, or
`BTRepeat`. -/
inductive TaskClass where
  | base
  | btRepeat (r : BTRepeat)
  deriving DecidableEq, Repr

/-- The private fields of `BTTask` (bt_task.h) other than `_children`, plus `self`, the
identity of the object (what `Ref<BTTask>(this)` denotes), the attached script instance
and the dynamic class. -/
structure TaskData where
  self : Nat
  _custom_name : String
  _agent : Option Nat
  _blackboard : Dictionary
  _parent : Option Nat
  _status : Int
  script : Option ScriptInstance
  cls : TaskClass

/-- A task together with the children it owns, in order. -/
inductive BTTask where
  | mk (d : TaskData) (_children : List BTTask)

namespace BTTask

/-- Fields of the task itself. -/
def data : BTTask → TaskData
  | .mk d _ => d

/-- Field `_children`. -/
def children : BTTask → List BTTask
  | .mk _ cs => cs

/-- Embeds `get_status`. -/
def get_status (t : BTTask) : Int := t.data._status

/-- Embeds `get_custom_name`. -/
def get_custom_name (t : BTTask) : String := t.data._custom_name

/-- Embeds `get_agent`. -/
def get_agent (t : BTTask) : Option Nat := t.data._agent

/-- Embeds `get_blackboard`. -/
def get_blackboard (t : BTTask) : Dictionary := t.data._blackboard

/-- Embeds `get_parent`. -/
def get_parent (t : BTTask) : Option Nat := t.data._parent

/-- Embeds `is_root`: `_parent.is_null()`. -/
def is_root (t : BTTask) : Bool := t.data._parent.isNone

/-- Embeds `get_child_count`. -/
def get_child_count (t : BTTask) : Nat := t.children.length

/-- Embeds `get_child`: `ERR_FAIL_INDEX_V(p_idx, _children.size(), nullptr)`, then the
element; `none` is the null reference. -/
def get_child (t : BTTask) (p_idx : Int) : Option BTTask :=
  if p_idx < 0 ∨ (t.children.length : Int) ≤ p_idx then none
  else t.children[p_idx.toNat]?

end BTTask

/-! ## Hooks of the classes -/

/-- Embeds `BTRepeat::_enter`: `_cur_iteration = 1`. -/
def BTRepeat._enter (r : BTRepeat) : BTRepeat :=
  { r with _cur_iteration := 1 }

/-- Virtual `_enter`: `BTTask::_enter(){}` or `BTRepeat::_enter`. -/
def TaskClass._enter : TaskClass → TaskClass
  | .base => .base
  | .btRepeat r => .btRepeat r._enter

/-- The part of `BTRepeat::_tick` after the child has been executed: the chain of tests
on the child's status `status`; gives the returned status and the updated fields. -/
def BTRepeat.after_child (r : BTRepeat) (status : Int) : Int × BTRepeat :=
  if status = RUNNING then (RUNNING, r)
  else if status = FAILURE ∧ r.abort_on_failure = true then (FAILURE, r)
  else if r._cur_iteration ≥ r.times then (SUCCESS, r)
  else (RUNNING, { r with _cur_iteration := r._cur_iteration + 1 })

/-- Value of the script's `_tick` at this call, and the script after the call. -/
def ScriptInstance.call_tick (s : ScriptInstance) : Option (Int × ScriptInstance) :=
  match s.tick with
  | none => none
  | some f => some (f s.ticks, { s with ticks := s.ticks + 1 })

/-- The scripted `_tick`, when there is a script instance that has the method. -/
def script_tick (s : Option ScriptInstance) : Option (Int × ScriptInstance) :=
  match s with
  | none => none
  | some si => si.call_tick

/-- The conversion of an integer `Variant` to `int` where `execute` assigns the result of
the script's `_tick` to `int _status` (bt_task.h): the low 32 bits, read as a signed
number.  A value in the range of `int` is kept. -/
def int32 (v : Int) : Int :=
  (v + 2147483648) % 4294967296 - 2147483648

/-- Events of the `_enter` step of `execute`, for status `status` at call time. -/
def enter_events (status : Int) (s : Option ScriptInstance) : List Event :=
  if status = RUNNING then [⟨[], .enter, script_has s .enter⟩] else []

/-- Class fields after the `_enter` step of `execute`: the built-in `_enter` runs when the
guard `_status == RUNNING` holds and the script does not define `_enter`. -/
def enter_cls (status : Int) (s : Option ScriptInstance) (c : TaskClass) : TaskClass :=
  if status = RUNNING then (if script_has s .enter then c else c._enter) else c

/-- Events of the `_exit` step of `execute`, for the status `status` produced by tick. -/
def exit_events (status : Int) (s : Option ScriptInstance) : List Event :=
  if status ≠ RUNNING then [⟨[], .exit, script_has s .exit⟩] else []

mutual
/-- Embeds `BTTask::execute`: the `_enter` step under the guard `_status == RUNNING`, the
`_tick` step (script override, else the virtual `_tick` of the class:
`BTTask::_tick` returns `FAILURE`), the `_exit` step under `_status != RUNNING`; returns
the task after the call, the returned status and the hooks invoked.  The value of the
script's `_tick` is a `Variant`; the assignment to `int _status` converts it (`int32`),
and it is `_status` that the `_exit` guard tests and that is returned. -/
def BTTask.execute : BTTask → Option (BTTask × Int × List Event)
  | .mk d cs =>
    let ev1 := enter_events d._status d.script
    let cls1 := enter_cls d._status d.script d.cls
    match script_tick d.script with
    | some (v, s) =>
      some (.mk { d with _status := int32 v, script := some s, cls := cls1 } cs, int32 v,
        ev1 ++ [⟨[], .tick, true⟩] ++ exit_events (int32 v) d.script)
    | none =>
      match cls1 with
      | .base =>
        some (.mk { d with _status := FAILURE, cls := cls1 } cs, FAILURE,
          ev1 ++ [⟨[], .tick, false⟩] ++ exit_events FAILURE d.script)
      | .btRepeat r =>
        match BTRepeat._tick r cs with
        | none => none
        | some (r2, cs2, v, evs) =>
          some (.mk { d with _status := v, cls := .btRepeat r2 } cs2, v,
            ev1 ++ [⟨[], .tick, false⟩] ++ evs ++ exit_events v d.script)
/-- Embeds `BTRepeat::_tick` on the fields `r` and the children of the decorator:
`get_child(0)->execute(p_delta)`, then the chain of tests.  With no child, `get_child(0)`
is null and the call through it faults. -/
def BTRepeat._tick (r : BTRepeat) : List BTTask →
    Option (BTRepeat × List BTTask × Int × List Event)
  | [] => none
  | c :: rest =>
    match BTTask.execute c with
    | none => none
    | some (c2, status, evs) =>
      some ((r.after_child status).2, c2 :: rest, (r.after_child status).1,
        evs.map (Event.under 0))
end

/-- The value that the `_tick` step of `execute` produces on `t`: the value of the hook
the dispatch selects (script override, else the virtual method of the class, run on the
class fields as the `_enter` step left them), as the hook returns it: for the script, the
value before `execute` converts it to `int`. -/
def BTTask.tick_value (t : BTTask) : Option Int :=
  match script_tick t.data.script with
  | some (v, _) => some v
  | none =>
    match enter_cls t.data._status t.data.script t.data.cls with
    | .base => some FAILURE
    | .btRepeat r => (BTRepeat._tick r t.children).map (fun x => x.2.2.1)

mutual
/-- Embeds `BTTask::cancel`: cancel every child in index order, then invoke `_exit`
(script override, else built-in) if `_status == RUNNING`, then `_status = FRESH`.  The
built-in `_exit` is `BTTask::_exit(){}` for both classes. -/
def BTTask.cancel : BTTask → BTTask × List Event
  | .mk d cs =>
    let r := cancel_children 0 cs
    (.mk { d with _status := FRESH } r.1,
      r.2 ++ (if d._status = RUNNING then [⟨[], .exit, script_has d.script .exit⟩] else []))
/-- The loop `for (i...) get_child(i)->cancel()` of `BTTask::cancel`, from index `i` on. -/
def cancel_children (i : Nat) : List BTTask → List BTTask × List Event
  | [] => ([], [])
  | c :: cs =>
    let r1 := BTTask.cancel c
    let r2 := cancel_children (i + 1) cs
    (r1.1 :: r2.1, r1.2.map (Event.under i) ++ r2.2)
end

/-- Engine `Resource::duplicate` on the class fields: the registered properties (`times`,
`abort_on_failure`) are copied; `_cur_iteration` is not a property and keeps the value the
constructor gives it.  That initial value is declared in bt_repeat.h, which is not among
the sources: it is the parameter `k0`. -/
def TaskClass.duplicate (k0 : Int) : TaskClass → TaskClass
  | .base => .base
  | .btRepeat r =>
    .btRepeat { times := r.times, abort_on_failure := r.abort_on_failure, _cur_iteration := k0 }

/-- Engine `Resource::duplicate(true)` on a task: a new object (identity `addr`) built by
the constructor `BTTask::BTTask()` (status `FRESH`, no agent, empty blackboard, no
parent), on which the stored properties that have a setter are then set: `custom_name`,
`children` (the same references, through `_set_children`), `script` (a new instance of
the same script) and the properties of the class.  `agent`, `blackboard`, `parent` and
`status` are registered without a setter. -/
def BTTask.duplicate (k0 : Int) (addr : Nat) : BTTask → BTTask
  | .mk d cs =>
    .mk { self := addr, _custom_name := d._custom_name, _agent := none, _blackboard := [],
          _parent := none, _status := FRESH,
          script := d.script.map (fun s => { s with ticks := 0 }),
          cls := d.cls.duplicate k0 } cs

/-- Assignment to the field `_parent`. -/
def BTTask.set_parent (p : Option Nat) : BTTask → BTTask
  | .mk d cs => .mk { d with _parent := p } cs

mutual
/-- Embeds `BTTask::clone`: `inst = duplicate(true)`, `inst->_parent.unref()`, then for
each index `i` the clone of child `i` gets `_parent = inst` and is stored at index `i` of
`inst->_children`.  `addr` is the first unused object identity; the result carries the
next one. -/
def BTTask.clone (k0 : Int) : BTTask → Nat → BTTask × Nat
  | .mk d cs, addr =>
    let inst := (BTTask.mk d cs).duplicate k0 addr
    let r := clone_children k0 addr cs (addr + 1)
    (.mk { inst.data with _parent := none } r.1, r.2)
/-- The loop of `BTTask::clone` over the children, `inst` being the identity of the new
parent. -/
def clone_children (k0 : Int) (inst : Nat) : List BTTask → Nat → List BTTask × Nat
  | [], addr => ([], addr)
  | c :: cs, addr =>
    let r1 := BTTask.clone k0 c addr
    let r2 := clone_children k0 inst cs r1.2
    (r1.1.set_parent (some inst) :: r2.1, r2.2)
end

/-! ## Reading a tree -/

/-- The task reached from `t` by following child indices (`get_child` at each step). -/
def BTTask.node_at (t : BTTask) : List Nat → Option BTTask
  | [] => some t
  | i :: p =>
    match t.children[i]? with
    | none => none
    | some c => c.node_at p

mutual
/-- Depth-first listing of the tasks of a subtree with their positions, children (in
index order) before their parent. -/
def BTTask.postorder : BTTask → List (List Nat × BTTask)
  | .mk d cs => postorder_children 0 cs ++ [([], .mk d cs)]
/-- Post-order listing of a list of siblings, the first having index `i`. -/
def postorder_children (i : Nat) : List BTTask → List (List Nat × BTTask)
  | [] => []
  | c :: cs =>
    (BTTask.postorder c).map (fun pn => (i :: pn.1, pn.2)) ++ postorder_children (i + 1) cs
end

/-- Number of invocations of hook `h` on the task at position `p`. -/
def calls_at (p : List Nat) (h : Hook) (tr : List Event) : Nat :=
  tr.countP (fun e => decide (e.path = p ∧ e.hook = h))

/-- Number of invocations of hook `h` on the task on which the entry point was called. -/
def own_calls (h : Hook) (tr : List Event) : Nat := calls_at [] h tr

/-- The host calling `execute` on `n` consecutive ticks: the task after the last call, the
statuses returned, the hooks invoked. -/
def execute_n : Nat → BTTask → Option (BTTask × List Int × List Event)
  | 0, t => some (t, [], [])
  | n + 1, t =>
    match t.execute with
    | none => none
    | some (t1, s, ev) =>
      match execute_n n t1 with
      | none => none
      | some (t2, ss, evs) => some (t2, s :: ss, ev ++ evs)

mutual
/-- Whether `execute` on the task reaches no null reference: a task whose `_tick` is the
built-in `BTRepeat::_tick` needs a first child, on which `execute` in turn reaches no
null reference. -/
def BTTask.executable : BTTask → Bool
  | .mk d cs =>
    (script_tick d.script).isSome ||
      (match d.cls with
        | .base => true
        | .btRepeat _ => first_executable cs)
/-- Whether the list has a first task and that task is `executable`. -/
def first_executable : List BTTask → Bool
  | [] => false
  | c :: _ => BTTask.executable c
end

/-- A built-in Repeat: class `BTRepeat` with the given `times` and `abort_on_failure`, no
script attached. -/
def is_repeat (N : Int) (a : Bool) (t : BTTask) : Prop :=
  t.data.script = none ∧ ∃ k, t.data.cls = .btRepeat ⟨N, a, k⟩

/-- The `_exit` invocation that `cancel` records for the task `pn.2` at position `pn.1`. -/
def exit_event (pn : List Nat × BTTask) : Event :=
  ⟨pn.1, .exit, script_has pn.2.data.script .exit⟩

/-- Whether the task `pn.2` is `RUNNING`. -/
def is_running (pn : List Nat × BTTask) : Bool := decide (pn.2.get_status = RUNNING)

/-- Number of `_exit` calls that `cancel` owes the position `p` of `t`: one if a `RUNNING`
task sits there, none otherwise. -/
def exits_due (t : BTTask) (p : List Nat) : Nat :=
  match t.node_at p with
  | some n => if n.get_status = RUNNING then 1 else 0
  | none => 0

/-- What `clone` must preserve at a position: the number of children and the
`custom_name`. -/
def label (n : BTTask) : Nat × String := (n.get_child_count, n.get_custom_name)

/-- A call the host makes on the root of a tree. -/
inductive HostCall where
  | execute
  | cancel
  deriving DecidableEq, Repr

/-- The task after a sequence of host calls (`none` if an `execute` faults). -/
def host_calls : List HostCall → BTTask → Option BTTask
  | [], t => some t
  | .execute :: cs, t =>
    match t.execute with
    | none => none
    | some r => host_calls cs r.1
  | .cancel :: cs, t => host_calls cs t.cancel.1

/-! ## Concrete tasks -/

/-- A plain `BTTask` with the given identity, parent, name, status and children. -/
def plain (self : Nat) (parent : Option Nat) (name : String) (status : Int)
    (cs : List BTTask) : BTTask :=
  .mk { self := self, _custom_name := name, _agent := none, _blackboard := [],
        _parent := parent, _status := status, script := none, cls := .base } cs

/-- A leaf with status `status` whose script defines only `_tick`, returning `f n` at its
n-th call (counted from 0), after `ticks` calls. -/
def scripted_leaf (self : Nat) (parent : Option Nat) (f : Nat → Int) (ticks : Nat)
    (status : Int) : BTTask :=
  .mk { self := self, _custom_name := "", _agent := none, _blackboard := [],
        _parent := parent, _status := status,
        script := some ⟨false, false, false, some f, ticks⟩, cls := .base } []

/-- A `BTRepeat` with status `status` and counter `k`, decorating `child`. -/
def repeat_task (times : Int) (abort_on_failure : Bool) (k : Int) (status : Int)
    (child : BTTask) : BTTask :=
  .mk { self := 0, _custom_name := "", _agent := none, _blackboard := [], _parent := none,
        _status := status, script := none, cls := .btRepeat ⟨times, abort_on_failure, k⟩ }
    [child]

/-! ## The definitions on a concrete tree -/

/-- A `RUNNING` root "seq" over a `RUNNING` leaf "a" and a `SUCCESS` node "b" that has a
`RUNNING` leaf "c" below it. -/
def sample_tree : BTTask :=
  plain 10 none "seq" RUNNING
    [plain 11 (some 10) "a" RUNNING [],
     plain 12 (some 10) "b" SUCCESS [plain 13 (some 12) "c" RUNNING []]]

/-! ## Construction and binding -/

/-- Embeds the constructor `BTTask::BTTask()` for an object with identity `self` and
dynamic class `cls`: empty `_custom_name`, null `_agent`, empty `_blackboard`, no
children, `_status = FRESH`; `_parent` is a default (null) reference and no script is
attached. -/
def BTTask.new (self : Nat) (cls : TaskClass) : BTTask :=
  .mk { self := self, _custom_name := "", _agent := none, _blackboard := [], _parent := none,
        _status := FRESH, script := none, cls := cls } []

/-- One invocation of `_setup`: the hook event, and what `get_agent()` and
`get_blackboard()` give on the receiving task at the moment of the call. -/
structure SetupCall where
  event : Event
  agent : Option Nat
  blackboard : Dictionary

/-- Relocate a `_setup` call of child `i` to the parent's frame. -/
def SetupCall.under (i : Nat) (s : SetupCall) : SetupCall :=
  { s with event := s.event.under i }

mutual
/-- Embeds `BTTask::initialize`: `_agent = p_agent`, `_blackboard = p_blackboard`, then
the same call on every child in index order, then `_setup` (script override, else the
built-in `BTTask::_setup(){}`, which no class embedded here overrides). -/
def BTTask.initialize (p_agent : Option Nat) (p_blackboard : Dictionary) :
    BTTask → BTTask × List SetupCall
  | .mk d cs =>
    let d1 : TaskData := { d with _agent := p_agent, _blackboard := p_blackboard }
    let r := initialize_children p_agent p_blackboard 0 cs
    (.mk d1 r.1,
      r.2 ++ [⟨⟨[], .setup, script_has d1.script .setup⟩, d1._agent, d1._blackboard⟩])
/-- The loop of `BTTask::initialize` over the children, from index `i` on. -/
def initialize_children (p_agent : Option Nat) (p_blackboard : Dictionary) (i : Nat) :
    List BTTask → List BTTask × List SetupCall
  | [] => ([], [])
  | c :: cs =>
    let r1 := BTTask.initialize p_agent p_blackboard c
    let r2 := initialize_children p_agent p_blackboard (i + 1) cs
    (r1.1 :: r2.1, r1.2.map (SetupCall.under i) ++ r2.2)
end

/-- The `_setup` call that binding `agent` and `blackboard` owes the task `pn.2` at
position `pn.1`. -/
def setup_call (agent : Option Nat) (blackboard : Dictionary) (pn : List Nat × BTTask) :
    SetupCall :=
  ⟨⟨pn.1, .setup, script_has pn.2.data.script .setup⟩, agent, blackboard⟩

/-! ## The condition `BTCheckAgentProperty` -/

/-- The agent as `BTCheckAgentProperty::_tick` uses it: the object behind `get_agent()`,
given by its properties (engine `Object::get(name, &r_valid)` is a lookup, `r_valid` being
whether the name is found). -/
abbrev AgentObject := List (String × Variant)

/-- Fields of `BTCheckAgentProperty` (bt_check_agent_property.h).  `property_name` is a
`StringName`, unset when empty; `value` is a `Ref<BBVariant>`, `none` when not valid.  The
enum `LimboUtility::CheckType` and the class `BBVariant` are declared outside the
sources: they are the type parameters `κ` and `β`. -/
structure BTCheckAgentProperty (κ β : Type) where
  property_name : String
  check_type : κ
  value : Option β

/-- Embeds `BTCheckAgentProperty::_tick`.  `LimboUtility::perform_check` and
`BBVariant::get_value` are defined outside the sources and are parameters; `agent` is
`get_agent()` (`none` when null: the call `get_agent()->get` then faults, result `none`),
`blackboard` is `get_blackboard()`. -/
def BTCheckAgentProperty._tick {κ β : Type} (perform_check : κ → Variant → Variant → Bool)
    (get_value : β → Option AgentObject → Dictionary → Variant)
    (self : BTCheckAgentProperty κ β) (agent : Option AgentObject)
    (blackboard : Dictionary) : Option Int :=
  if self.property_name = "" then some FAILURE
  else
    match self.value with
    | none => some FAILURE
    | some value =>
      match agent with
      | none => none
      | some a =>
        match a.lookup self.property_name with
        | none => some FAILURE
        | some left_value =>
          let right_value := get_value value agent blackboard
          some (if perform_check self.check_type left_value right_value then SUCCESS
            else FAILURE)

/-! ## The object table

Tree assembly and the pointer side of `clone` depend on which object a reference names,
so they are embedded on a table of task objects: a reference (`Ref<BTTask>`, `this`) is
an index into the table, the null reference is `none`, and an object holds its children
as references. -/

/-- A task object: the fields of the task and `_children` as references. -/
structure TaskObj where
  d : TaskData
  _children : List Nat

/-- The task objects that exist, by identity. -/
abbrev Forest := List TaskObj

/-- The field values that `Resource::duplicate(true)` gives the new object `addr` made
from an object with fields `d` (see `BTTask.duplicate`). -/
def TaskData.duplicate (k0 : Int) (addr : Nat) (d : TaskData) : TaskData :=
  { self := addr, _custom_name := d._custom_name, _agent := none, _blackboard := [],
    _parent := none, _status := FRESH,
    script := d.script.map (fun s => { s with ticks := 0 }),
    cls := d.cls.duplicate k0 }

/-- First index of `x` in a `Vector` (`Vector::find`), `none` standing for `-1`. -/
def vector_find (x : Nat) : List Nat → Option Nat
  | [] => none
  | y :: ys => if y = x then some 0 else (vector_find x ys).map (fun i => i + 1)

namespace Forest

/-- Write to the object `a`: `f` gives its new state; no object `a`, no change. -/
def update (h : Forest) (a : Nat) (f : TaskObj → TaskObj) : Forest :=
  match h[a]? with
  | none => h
  | some o => h.set a (f o)

/-- Assignment `a->_parent = p`. -/
def set_parent (h : Forest) (a : Nat) (p : Option Nat) : Forest :=
  h.update a (fun o => { o with d := { o.d with _parent := p } })

/-- Embeds `BTTask::get_root` on the object `task`: follow `get_parent()` while the task
is not a root.  `fuel` bounds the number of turns of the `while` loop; `none` when the
bound is hit or a reference names no object. -/
def get_root (h : Forest) : Nat → Nat → Option Nat
  | 0, task =>
    match h[task]? with
    | none => none
    | some o => if o.d._parent.isNone then some task else none
  | fuel + 1, task =>
    match h[task]? with
    | none => none
    | some o =>
      match o.d._parent with
      | none => some task
      | some q => get_root h fuel q

/-- No task is its own ancestor: from every object, following parent references reaches
an object without parent in finitely many steps. -/
def acyclic (h : Forest) : Prop :=
  ∀ a, a < h.length → ∃ fuel r, h.get_root fuel a = some r

/-- Embeds `BTTask::add_child` called on `this`: if `p_child` has a parent, report the
error and return; else `p_child->_parent = this` and `_children.push_back(p_child)`.
The result is the table after the call and whether the error was reported; `none` when
`this` or `p_child` names no object. -/
def add_child (h : Forest) (this p_child : Nat) : Option (Forest × Bool) :=
  match h[this]?, h[p_child]? with
  | some _, some c =>
    if c.d._parent.isSome then some (h, true)
    else
      let h1 := h.set_parent p_child (some this)
      some (h1.update this (fun o => { o with _children := o._children ++ [p_child] }), false)
  | _, _ => none

/-- Embeds `BTTask::add_child_at_index` called on `this`: the same guard; then an index
`p_idx < 0` or `p_idx > _children.size()` becomes `_children.size()`,
`_children.insert(p_idx, p_child)` and `p_child->_parent = this`. -/
def add_child_at_index (h : Forest) (this p_child : Nat) (p_idx : Int) :
    Option (Forest × Bool) :=
  match h[this]?, h[p_child]? with
  | some t, some c =>
    if c.d._parent.isSome then some (h, true)
    else
      let idx : Nat :=
        if p_idx < 0 ∨ p_idx > (t._children.length : Int) then t._children.length
        else p_idx.toNat
      let h1 := h.update this
        (fun o => { o with _children := o._children.take idx ++ p_child :: o._children.drop idx })
      some (h1.set_parent p_child (some this), false)
  | _, _ => none

/-- Embeds `BTTask::remove_child` called on `this`: `idx = _children.find(p_child)`; if
`idx == -1` report the error; else `_children.remove(idx)` and
`p_child->_parent.unref()`. -/
def remove_child (h : Forest) (this p_child : Nat) : Option (Forest × Bool) :=
  match h[this]? with
  | none => none
  | some t =>
    match vector_find p_child t._children with
    | none => some (h, true)
    | some idx =>
      let h1 := h.update this (fun o => { o with _children := o._children.eraseIdx idx })
      some (h1.set_parent p_child none, false)

/-- Engine `Resource::duplicate(true)` called on the object `a`: a new object, at the
first unused identity, with the fields of `TaskData.duplicate` and the same children
references. -/
def duplicate (k0 : Int) (h : Forest) (a : Nat) : Option (Forest × Nat) :=
  match h[a]? with
  | none => none
  | some o => some (h ++ [⟨o.d.duplicate k0 h.length, o._children⟩], h.length)

mutual
/-- Embeds `BTTask::clone` called on the object `this`: `inst = duplicate(true)`,
`inst->_parent.unref()`, the loop over the children, `return inst`.  `fuel` bounds the
depth of calls and the turns of the loops; `none` when it is used up or a reference
names no object. -/
def clone (k0 : Int) : Nat → Forest → Nat → Option (Forest × Nat)
  | 0, _, _ => none
  | fuel + 1, h, this =>
    match h.duplicate k0 this with
    | none => none
    | some (h1, inst) =>
      match clone_loop k0 fuel (h1.set_parent inst none) this inst 0 with
      | none => none
      | some h2 => some (h2, inst)
/-- The loop of `BTTask::clone` from index `i` on: while `i < _children.size()`,
`c = get_child(i)->clone()`, `c->_parent = inst`, `inst->_children.set(i, c)`. -/
def clone_loop (k0 : Int) : Nat → Forest → Nat → Nat → Nat → Option Forest
  | 0, _, _, _, _ => none
  | fuel + 1, h, this, inst, i =>
    match h[this]? with
    | none => none
    | some o =>
      if i < o._children.length then
        match o._children[i]? with
        | none => none
        | some child =>
          match clone k0 fuel h child with
          | none => none
          | some (h1, c) =>
            let h2 := h1.set_parent c (some inst)
            let h3 := h2.update inst (fun x => { x with _children := x._children.set i c })
            clone_loop k0 fuel h3 this inst (i + 1)
      else some h
end

end Forest

/-- The identities of a list of tasks. -/
def refs_of (cs : List BTTask) : List Nat := cs.map (fun c => c.data.self)

mutual
/-- The table holds the tree `t`: the object named by the identity of each task of `t`
has the fields of that task and, as children, the identities of its children. -/
def BTTask.stored_in (h : Forest) : BTTask → Prop
  | .mk d cs => h[d.self]? = some ⟨d, refs_of cs⟩ ∧ all_stored_in h cs
/-- The table holds every tree of the list. -/
def all_stored_in (h : Forest) : List BTTask → Prop
  | [] => True
  | c :: cs => BTTask.stored_in h c ∧ all_stored_in h cs
end

/-- Every task of `t` has its identity in the range from `lo` to below `hi`. -/
def BTTask.within (lo hi : Nat) (t : BTTask) : Prop :=
  ∀ p n, t.node_at p = some n → lo ≤ n.data.self ∧ n.data.self < hi

/-- The sample tree as a table: object 0 is an unrelated parentless task, objects 1 to 4
are "seq", "a", "b", "c". -/
def sample_forest : Forest :=
  [⟨(plain 0 none "other" FRESH []).data, []⟩,
   ⟨(plain 1 none "seq" RUNNING []).data, [2, 3]⟩,
   ⟨(plain 2 (some 1) "a" RUNNING []).data, []⟩,
   ⟨(plain 3 (some 1) "b" SUCCESS []).data, [4]⟩,
   ⟨(plain 4 (some 3) "c" RUNNING []).data, []⟩]

/-- The parent reference stored at `a`, if there is an object `a`. -/
def parent_at (h : Forest) (a : Nat) : Option (Option Nat) :=
  (h[a]?).map (fun o => o.d._parent)

/-- Every task below the top of `t` has as parent the identity of the task that holds it
in its children. -/
def BTTask.parents_ok (t : BTTask) : Prop :=
  ∀ (p : List Nat) (n : BTTask) (i : Nat) (c : BTTask),
    t.node_at p = some n → n.children[i]? = some c → c.get_parent = some n.data.self

/-- What `clone` on the table achieves when called on the object that holds the top of
`c`: with enough fuel it returns, the new top being the first unused identity; no object
that existed is changed; the table then holds the tree that `BTTask.clone` computes from
`c` with the supply starting at that identity, and nothing more. -/
def clone_refines (k0 : Int) (c : BTTask) : Prop :=
  ∀ h : Forest, c.stored_in h →
    ∃ fuel h2, Forest.clone k0 fuel h c.data.self = some (h2, h.length)
      ∧ (∀ a, a < h.length → h2[a]? = h[a]?)
      ∧ (c.clone k0 h.length).1.stored_in h2
      ∧ h2.length = (c.clone k0 h.length).2

/-- The tree that `sample_forest` holds at object 1: the sample tree with the identities 1
to 4. -/
def sample_forest_tree : BTTask :=
  plain 1 none "seq" RUNNING
    [plain 2 (some 1) "a" RUNNING [],
     plain 3 (some 1) "b" SUCCESS [plain 4 (some 3) "c" RUNNING []]]

/-- The object `o` read at identity `a` after the parent of `c` has been set to `q` and
the children of `p` rewritten by `f` (in either order). -/
def rewired (p c : Nat) (q : Option Nat) (f : List Nat → List Nat) (a : Nat) (o : TaskObj) :
    TaskObj :=
  ⟨{ o.d with _parent := if a = c then q else o.d._parent },
    if a = p then f o._children else o._children⟩

/-- The parent-pointer invariant of a table: a reference `c` occurs in the children of the
object `p` exactly when `c` names an object whose parent is `p`, and no children list
holds a reference twice (so no task occurs more than once across the children lists). -/
def Forest.parent_invariant (h : Forest) : Prop :=
  (∀ p c, (∃ op : TaskObj, h[p]? = some op ∧ c ∈ op._children) ↔ parent_at h c = some (some p))
  ∧ (∀ (p : Nat) (op : TaskObj), h[p]? = some op → op._children.Nodup)

/-- A check of `Forest.parent_invariant` that can be run: every reference in a children
list names an object whose parent is the holder, no children list repeats a reference,
and every object with a parent is among the children of that parent. -/
def Forest.check_parent_invariant (h : Forest) : Bool :=
  (List.range h.length).all (fun p =>
    match h[p]? with
    | none => true
    | some op =>
      op._children.all (fun c => decide (parent_at h c = some (some p)))
        && decide op._children.Nodup)
  && (List.range h.length).all (fun c =>
    match parent_at h c with
    | some (some p) =>
      (match h[p]? with
      | some op => decide (c ∈ op._children)
      | none => false)
    | _ => true)

/-- A `RUNNING` `BTRepeat` (counter 5) over a `RUNNING` plain leaf, with a script that
defines `_enter`, `_exit` and `_tick` (always `SUCCESS`) but not `_setup`. -/
def override_sample : BTTask :=
  .mk { self := 0, _custom_name := "", _agent := none, _blackboard := [], _parent := none,
        _status := RUNNING,
        script := some ⟨false, true, true, some (fun _ => SUCCESS), 0⟩,
        cls := .btRepeat ⟨3, false, 5⟩ }
    [plain 1 (some 0) "leaf" RUNNING []]

/-- A `RUNNING` `BTRepeat` (times 3, counter 5) over a `FRESH` plain leaf, with a script
that defines `_enter` and nothing else. -/
def enter_override_sample : BTTask :=
  .mk { self := 0, _custom_name := "", _agent := none, _blackboard := [], _parent := none,
        _status := RUNNING,
        script := some ⟨false, true, false, none, 0⟩,
        cls := .btRepeat ⟨3, false, 5⟩ }
    [plain 1 (some 0) "leaf" FRESH []]

/-! ## Blackboard and parameter resolution -/

/-- Modelled from the spec: the type tags of the engine type `Variant` (`Variant::Type`,
of which the test reads `OBJECT`); the engine headers are not among the sources. `NIL`
is the tag of the null value. -/
inductive VariantType where
  | NIL
  | BOOL
  | INT
  | FLOAT
  | STRING
  | OBJECT
  | NODE_PATH
  deriving DecidableEq, Repr

/-- Modelled from the spec: `Variant::get_type()`, the dynamic type of a value; the
engine headers are not among the sources. -/
def Variant.get_type : Variant → VariantType
  | .nil => .NIL
  | .bool _ => .BOOL
  | .int _ => .INT
  | .real _ => .FLOAT
  | .str _ => .STRING
  | .object _ => .OBJECT
  | .node_path _ => .NODE_PATH

/-- Modelled from the spec: the `Blackboard` of blackboard/blackboard.h, which is not
among the sources: a mapping from variable names to values (`data`, one entry per name)
that may chain to an outer scope (`parent`). -/
inductive Blackboard where
  | mk (data : List (String × Variant)) (parent : Option Blackboard)

namespace Blackboard

/-- The variables of the scope itself. -/
def data : Blackboard → List (String × Variant)
  | .mk d _ => d

/-- The outer scope, if chained. -/
def parent : Blackboard → Option Blackboard
  | .mk _ p => p

/-- Modelled from the spec: `Blackboard.get(name) -> value | miss` (blackboard.cpp is not
among the sources): the value in the scope itself; on a miss the lookup falls through to
the outer scope if chained, otherwise it reports the miss (`none`). -/
def get_var : Blackboard → String → Option Variant
  | .mk d none, name => (d.lookup name)
  | .mk d (some p), name =>
    match d.lookup name with
    | some v => some v
    | none => get_var p name

/-- Modelled from the spec: `Blackboard.set(name, value)` (blackboard.cpp is not among the
sources) overwrites or creates the variable in the scope itself; the outer scope is
read-through only. -/
def set_var : Blackboard → String → Variant → Blackboard
  | .mk d p, name, value => .mk ((name, value) :: d.filter (fun kv => kv.1 != name)) p

/-- Modelled from the spec: whether the variable is set in the blackboard, that is
whether `Blackboard.get(name)` gives a value rather than a miss (blackboard.cpp is not
among the sources). -/
def has_var (bb : Blackboard) (name : String) : Bool :=
  (bb.get_var name).isSome

end Blackboard

/-- Modelled from the spec: the discriminant of a parameter (`BBParam::SAVED_VALUE`,
`BBParam::BLACKBOARD_VAR`; bb_param.h is not among the sources). -/
inductive ValueSource where
  | SAVED_VALUE
  | BLACKBOARD_VAR
  deriving DecidableEq, Repr

/-- Modelled from the spec: the parameter `BBParam` of blackboard/bb_param/bb_param.h,
which is not among the sources: the discriminant with the literal and the variable name
(the setters `set_value_source`, `set_saved_value`, `set_variable` of the test write
these; `variable_name` is the field `variable`), and the type the parameter expects of a
blackboard value, `NIL` standing for no expectation (the generic parameter of the test
case `BBParam`).  A value of this type is an object whose class is `BBParam` itself; the
variant `BBNode`, which resolves differently, is the type `BBNode`. -/
structure BBParam where
  value_source : ValueSource
  saved_value : Variant
  variable_name : String
  expected_type : VariantType
  deriving DecidableEq, Repr

/-- Modelled from the spec: whether a stored value is compatible with the expected type
of a parameter (the test that bb_param.cpp, not among the sources, applies): no
expectation accepts every value, otherwise the dynamic type must be the expected one. -/
def type_compatible (expected : VariantType) (v : Variant) : Bool :=
  decide (expected = .NIL) || decide (v.get_type = expected)

/-- Modelled from the spec: `Parameter.resolve(agent, blackboard, default)` for the
generic parameter, the method `BBParam::get_value` of bb_param.cpp, which is not among
the sources.  `SAVED_VALUE`: the embedded literal, unconditionally.  `BLACKBOARD_VAR`: the
value of the variable in the blackboard; on a miss, or on a value whose type is
incompatible with the expected type, `p_default` with a recoverable diagnostic.  The
result is the value and whether the diagnostic was raised; there is no fatal failure, the
function is total.  What the variant `BBNode` does in addition is `BBNode.get_value`. -/
def BBParam.get_value (p : BBParam) (_agent : Option Nat) (blackboard : Blackboard)
    (p_default : Variant) : Variant × Bool :=
  match p.value_source with
  | .SAVED_VALUE => (p.saved_value, false)
  | .BLACKBOARD_VAR =>
    match blackboard.get_var p.variable_name with
    | none => (p_default, true)
    | some v => if type_compatible p.expected_type v then (v, false) else (p_default, true)

/-- The parameter of the test case `BBParam`: generic, no literal, no variable yet. -/
def BBParam.new : BBParam :=
  ⟨.SAVED_VALUE, .nil, "", .NIL⟩

/-- Modelled from the spec: the parameter `BBNode` of blackboard/bb_param/bb_node.h, which
is not among the sources: the variant of `BBParam` for references to nodes, with the
same fields. -/
structure BBNode extends BBParam
  deriving DecidableEq, Repr

/-- Modelled from the spec: `BBNode` resolution, the method `BBNode::get_value` of
bb_node.cpp, which is not among the sources: what `BBParam.get_value` does, and in
addition: a saved value that is a path is resolved against the agent, the result being
the node found, or `p_default` with a recoverable diagnostic when the path is unknown; a
value from the blackboard is accepted only if its dynamic type is an object reference,
and is treated as a miss otherwise.  `get_node` stands for the navigation of the agent
(engine `Node::get_node_or_null`, not part of the repository): the node that the path
names from the agent, if any. -/
def BBNode.get_value (get_node : Option Nat → String → Option Nat) (p : BBNode)
    (agent : Option Nat) (blackboard : Blackboard) (p_default : Variant) : Variant × Bool :=
  match p.value_source with
  | .SAVED_VALUE =>
    match p.saved_value with
    | .node_path path =>
      match get_node agent path with
      | some node => (.object node, false)
      | none => (p_default, true)
    | _ => p.toBBParam.get_value agent blackboard p_default
  | .BLACKBOARD_VAR =>
    match blackboard.get_var p.variable_name with
    | none => (p_default, true)
    | some v =>
      if v.get_type = .OBJECT then p.toBBParam.get_value agent blackboard p_default
      else (p_default, true)

/-- The scene of the test case `BBNode`: the agent `dummy` (object 1) has one child, the
node `other` (object 2), named "Other". -/
def test_scene (agent : Option Nat) (path : String) : Option Nat :=
  if agent = some 1 ∧ path = "./Other" then some 2 else none

/-- The bit pattern of the double `3.14`. -/
def real_3_14 : Variant := .real 0x40091EB851EB851F

/-! ## The debugger view of a tree -/

/-- One record of `BehaviorTreeData::tasks`, with the fields that `update_tree` reads.
The header that declares the record (behavior_tree_data.h) is not among the sources; the
field names are those used in behavior_tree_view.cpp.  `elapsed_time` is kept as a bit
pattern. -/
structure BehaviorTreeData.TaskData where
  id : Int
  name : String
  is_custom_name : Bool
  num_children : Int
  status : Int
  elapsed_time : Nat
  type_name : String
  script_path : String
  deriving DecidableEq, Repr

/-- An item of the engine `Tree` as `update_tree` leaves it: the item it is attached to
(`none` for the root of the `Tree`), the metadata and text of column 0, whether the custom
font was set, and which status icon was set in column 1.  The other cosmetic settings
(cell modes, elapsed time text, task icon, selection, collapsing) are left out: they do
not enter the shape of the tree.  An item is named by its position in the order of
creation. -/
structure TreeItem where
  parent : Option Nat
  metadata : Int
  text : String
  custom_font : Bool
  status_icon : Option Int
  deriving DecidableEq, Repr

/-- The engine `Tree::create_item(p_parent)` as to where the new item is attached: under
`p_parent`, as its last child; with a null `p_parent`, the new item is the root when the
`Tree` is empty, and the last child of the root (the first item created) otherwise.  The
engine is not part of the repository: `update_tree` takes this function as a parameter,
and this is the instance on which it is evaluated. -/
def Tree.create_item (items : List TreeItem) (p_parent : Option Nat) : Option Nat :=
  match p_parent with
  | some p => some p
  | none => if items.isEmpty then none else some 0

/-- The `Tree` of the view and the local `parents` of `update_tree`: the items created
so far, and the stack of items that still expect children, with the number expected. -/
structure BehaviorTreeView where
  items : List TreeItem
  parents : List (Nat × Int)
  deriving DecidableEq, Repr

/-- The chain of tests on `task_data.status` in `update_tree`: which icon is set. -/
def status_icon (status : Int) : Option Int :=
  if status = SUCCESS then some SUCCESS
  else if status = FAILURE then some FAILURE
  else if status = RUNNING then some RUNNING
  else none

/-- One turn of the loop of `BehaviorTreeView::update_tree` on the record `task_data`:
the parent is the front of `parents` if there is one, whose count is decremented and
which is popped when the count reaches zero; the item is created under it and filled in;
if the record has children the item is pushed in front of `parents` with their number.
`create_item` stands for the engine `Tree::create_item`, which is not part of the
repository: from the items so far and the parent passed, where the new item is
attached. -/
def BehaviorTreeView.update_tree_step
    (create_item : List TreeItem → Option Nat → Option Nat) (view : BehaviorTreeView)
    (task_data : BehaviorTreeData.TaskData) : BehaviorTreeView :=
  let figured : Option Nat × List (Nat × Int) :=
    match view.parents with
    | [] => (none, [])
    | (first, second) :: rest =>
      (some first, if second - 1 = 0 then rest else (first, second - 1) :: rest)
  let item : Nat := view.items.length
  let created : TreeItem :=
    ⟨create_item view.items figured.1, task_data.id, task_data.name,
      task_data.is_custom_name, status_icon task_data.status⟩
  ⟨view.items ++ [created],
    if task_data.num_children ≠ 0 then (item, task_data.num_children) :: figured.2
    else figured.2⟩

/-- Embeds `BehaviorTreeView::update_tree` on the records `tasks` of `p_data`, as far as
the `Tree` is concerned: `tree->clear()`, an empty `parents`, then the loop over the
records in list order. -/
def BehaviorTreeView.update_tree (create_item : List TreeItem → Option Nat → Option Nat)
    (tasks : List BehaviorTreeData.TaskData) : BehaviorTreeView :=
  tasks.foldl (BehaviorTreeView.update_tree_step create_item) ⟨[], []⟩

/-- A tree of task records, as the debugger serialises it: a record and the subtrees of
its children, in order.  The field `num_children` of the records is not read: `flatten`
writes it. -/
inductive RecordTree where
  | node (r : BehaviorTreeData.TaskData) (children : List RecordTree)

mutual
/-- Number of records of a tree. -/
def RecordTree.size : RecordTree → Nat
  | .node _ cs => 1 + RecordTree.size_children cs
/-- Number of records of a list of trees. -/
def RecordTree.size_children : List RecordTree → Nat
  | [] => 0
  | c :: cs => c.size + RecordTree.size_children cs
end

mutual
/-- The pre-order (depth-first, left-to-right) flattening of a tree, each record carrying
the number of its direct children. -/
def RecordTree.flatten : RecordTree → List BehaviorTreeData.TaskData
  | .node r cs => { r with num_children := (cs.length : Int) } :: RecordTree.flatten_children cs
/-- The flattenings of a list of trees, one after the other. -/
def RecordTree.flatten_children : List RecordTree → List BehaviorTreeData.TaskData
  | [] => []
  | c :: cs => c.flatten ++ RecordTree.flatten_children cs
end

/-- The item that shows the record `r`, attached to `parent`. -/
def item_of (parent : Option Nat) (r : BehaviorTreeData.TaskData) : TreeItem :=
  ⟨parent, r.id, r.name, r.is_custom_name, status_icon r.status⟩

mutual
/-- The items that show a tree whose first record is the item number `base`: one per
record in pre-order, the item of the top attached to `parent`, the item of every other
record attached to the item of the record that holds it as a child. -/
def RecordTree.items (parent : Option Nat) (base : Nat) : RecordTree → List TreeItem
  | .node r cs => item_of parent r :: RecordTree.items_children base (base + 1) cs
/-- The items that show the children `cs` of the item `holder`, the first of them being
the item number `base`. -/
def RecordTree.items_children (holder : Nat) (base : Nat) : List RecordTree → List TreeItem
  | [] => []
  | c :: cs => c.items (some holder) base ++ RecordTree.items_children holder (base + c.size) cs
end

/-- A record with the given id and name. -/
def record (id : Int) (name : String) (status : Int) : BehaviorTreeData.TaskData :=
  ⟨id, name, false, 0, status, 0, "BTAction", ""⟩

/-- A tree of records: "root" over "a" (with one child "a1") and "b". -/
def sample_records : RecordTree :=
  .node (record 100 "root" RUNNING)
    [.node (record 101 "a" SUCCESS) [.node (record 102 "a1" SUCCESS) []],
     .node (record 103 "b" RUNNING) []]

/-- The entry of the stack `parents` for the item `holder` that still expects `n`
children: none when `n` is zero. -/
def pending (holder n : Nat) : List (Nat × Int) :=
  if n = 0 then [] else [(holder, (n : Int))]

/-- What the `Tree` shows: an item by the metadata and text of its column 0, over what
it shows for its children, in order. -/
inductive ShownTree where
  | node (metadata : Int) (text : String) (children : List ShownTree)

/-- Engine `Tree`: the children of the item `k`, in order.  As `create_item` appends
the new item as last child, these are the items attached to `k` in the order of
creation. -/
def Tree.children_of (items : List TreeItem) (k : Nat) : List Nat :=
  (List.range items.length).filter
    (fun j => decide ((items[j]?).map (fun it => it.parent) = some (some k)))

/-- What the `Tree` shows from the item `k` down; `fuel` bounds the depth. -/
def Tree.shown (items : List TreeItem) : Nat → Nat → ShownTree
  | 0, k =>
    match items[k]? with
    | none => .node 0 "" []
    | some it => .node it.metadata it.text []
  | fuel + 1, k =>
    match items[k]? with
    | none => .node 0 "" []
    | some it =>
      .node it.metadata it.text ((Tree.children_of items k).map (Tree.shown items fuel))

mutual
/-- A tree of records as it is to be shown: id and name of each record, over the same
for its children, in order. -/
def RecordTree.shape : RecordTree → ShownTree
  | .node r cs => .node r.id r.name (RecordTree.shape_children cs)
/-- The shapes of a list of trees. -/
def RecordTree.shape_children : List RecordTree → List ShownTree
  | [] => []
  | c :: cs => c.shape :: RecordTree.shape_children cs
end

/-- The item numbers of the tops of the trees `cs` when the first record of the first
tree is the item number `base`. -/
def RecordTree.roots (base : Nat) : List RecordTree → List Nat
  | [] => []
  | c :: cs => base :: RecordTree.roots (base + c.size) cs

/-! # Theorems -/

/-! ## Induction over a task and the tasks below it -/

/-- Induction on a task: a property holds of every task if it holds of a task whenever it
holds of all its children. -/
theorem BTTask.induct {P : BTTask → Prop}
    (h : ∀ d cs, (∀ c ∈ cs, P c) → P (.mk d cs)) : ∀ t, P t := by
  intro t
  refine @BTTask.rec P (fun cs => ∀ c ∈ cs, P c) ?_ ?_ ?_ t
  · intro d cs ih; exact h d cs ih
  · intro c hc; cases hc
  · intro c cs ih1 ih2 x hx
    rcases List.mem_cons.mp hx with rfl | hx
    · exact ih1
    · exact ih2 x hx

/-- Following a child index in `node_at` is `get_child` at that index. -/
theorem get_child_natCast (t : BTTask) (i : Nat) : t.get_child (i : Int) = t.children[i]? := by
  unfold BTTask.get_child
  by_cases h : i < t.children.length
  · have h2 : ¬ (((i : Nat) : Int) < 0 ∨ (t.children.length : Int) ≤ (i : Int)) := by omega
    rw [if_neg h2, Int.toNat_ofNat]
  · have h2 : ((i : Nat) : Int) < 0 ∨ (t.children.length : Int) ≤ (i : Int) := by omega
    have h3 : t.children.length ≤ i := by omega
    rw [if_pos h2, List.getElem?_eq_none h3]

/-! ## The shape of what `execute` does -/

theorem script_has_tick_eq (s : Option ScriptInstance) :
    script_has s .tick = (script_tick s).isSome := by
  cases s with
  | none => rfl
  | some si =>
    simp only [script_has, ScriptInstance.has_method, script_tick, ScriptInstance.call_tick]
    cases si.tick <;> rfl

theorem under_path_ne_nil (i : Nat) (evs : List Event) :
    ∀ e ∈ evs.map (Event.under i), e.path ≠ [] := by
  intro e he
  obtain ⟨e0, _, rfl⟩ := List.mem_map.mp he
  simp [Event.under]

theorem int32_of_range (v : Int) (h1 : -2147483648 ≤ v) (h2 : v < 2147483648) :
    int32 v = v := by
  unfold int32
  omega

theorem int32_status :
    int32 RUNNING = RUNNING ∧ int32 FAILURE = FAILURE ∧ int32 SUCCESS = SUCCESS
      ∧ int32 FRESH = FRESH := by
  decide

theorem int32_RUNNING : int32 RUNNING = RUNNING := by decide

theorem int32_FAILURE : int32 FAILURE = FAILURE := by decide

theorem int32_SUCCESS : int32 SUCCESS = SUCCESS := by decide

theorem after_child_range (r : BTRepeat) (status : Int) :
    (r.after_child status).1 = RUNNING ∨ (r.after_child status).1 = FAILURE
      ∨ (r.after_child status).1 = SUCCESS := by
  unfold BTRepeat.after_child
  split_ifs <;> simp

/-- The built-in `_tick` of the decorator returns one of the status constants, which
the conversion to `int` keeps. -/
theorem repeat_tick_range (r r2 : BTRepeat) (cs cs2 : List BTTask) (w : Int)
    (evs : List Event) (h : BTRepeat._tick r cs = some (r2, cs2, w, evs)) :
    int32 w = w := by
  cases cs with
  | nil => simp [BTRepeat._tick] at h
  | cons c rest =>
    unfold BTRepeat._tick at h
    cases hx : c.execute with
    | none => simp [hx] at h
    | some y =>
      obtain ⟨c2, st, ev⟩ := y
      simp only [hx, Option.some.injEq, Prod.mk.injEq] at h
      obtain ⟨_, _, hw, _⟩ := h
      rw [← hw]
      rcases after_child_range r st with e | e | e <;> rw [e] <;> decide

/-- Everything `execute` does on a task, in one statement: the trace is the `_enter` step,
the own `_tick` call, the hooks of the tasks below (inside `_tick`), the `_exit` step; the
stored status is the returned one, which is the value `_tick` produced, converted to
`int`; the conversion changes nothing for the built-in `_tick`. -/
theorem execute_spec (t t2 : BTTask) (v : Int) (tr : List Event)
    (h : t.execute = some (t2, v, tr)) :
    ∃ nested : List Event,
      tr = enter_events t.data._status t.data.script
            ++ [⟨[], .tick, script_has t.data.script .tick⟩] ++ nested
            ++ exit_events v t.data.script
      ∧ (∀ e ∈ nested, e.path ≠ [])
      ∧ t2.get_status = v
      ∧ ∃ raw, t.tick_value = some raw ∧ v = int32 raw
          ∧ (script_has t.data.script .tick = false → v = raw) := by
  cases t with
  | mk d cs =>
    unfold BTTask.execute at h
    simp only [BTTask.data, BTTask.tick_value, BTTask.children, script_has_tick_eq]
    cases hs : script_tick d.script with
    | some p =>
      obtain ⟨x, s⟩ := p
      simp only [hs] at h
      cases h
      exact ⟨[], by simp, by simp, rfl, x, rfl, rfl, by simp⟩
    | none =>
      simp only [hs] at h
      cases hc : enter_cls d._status d.script d.cls with
      | base =>
        simp only [hc] at h
        cases h
        exact ⟨[], by simp, by simp, rfl, FAILURE, rfl, by decide, fun _ => rfl⟩
      | btRepeat r =>
        simp only [hc] at h
        cases hr : BTRepeat._tick r cs with
        | none => simp [hr] at h
        | some q =>
          obtain ⟨r2, cs2, w, evs⟩ := q
          simp only [hr] at h
          cases h
          refine ⟨evs, by simp, ?_, rfl, v, by simp [hr],
            (repeat_tick_range r r2 cs cs2 v evs hr).symm, fun _ => rfl⟩
          cases cs with
          | nil => simp [BTRepeat._tick] at hr
          | cons c rest =>
            unfold BTRepeat._tick at hr
            cases hx : c.execute with
            | none => simp [hx] at hr
            | some y =>
              obtain ⟨c2, st, ev⟩ := y
              simp only [hx] at hr
              cases hr
              exact under_path_ne_nil 0 ev

theorem calls_at_append (p : List Nat) (h : Hook) (l1 l2 : List Event) :
    calls_at p h (l1 ++ l2) = calls_at p h l1 + calls_at p h l2 := by
  simp [calls_at, List.countP_append]

theorem own_calls_nested (h : Hook) (nested : List Event)
    (hn : ∀ e ∈ nested, e.path ≠ []) : calls_at [] h nested = 0 := by
  unfold calls_at
  rw [List.countP_eq_zero]
  intro e he
  simp [hn e he]

/-- Own hook invocations in a trace of `execute`, hook by hook. -/
theorem own_calls_execute (hk : Hook) (st v : Int) (s : Option ScriptInstance)
    (nested : List Event) (hn : ∀ e ∈ nested, e.path ≠ []) :
    own_calls hk (enter_events st s ++ [⟨[], .tick, script_has s .tick⟩] ++ nested
        ++ exit_events v s)
      = (if hk = .enter ∧ st = RUNNING then 1 else 0) + (if hk = .tick then 1 else 0)
        + (if hk = .exit ∧ v ≠ RUNNING then 1 else 0) := by
  unfold own_calls
  rw [calls_at_append, calls_at_append, calls_at_append, own_calls_nested hk nested hn]
  have h1 : calls_at [] hk (enter_events st s) = if hk = .enter ∧ st = RUNNING then 1 else 0 := by
    unfold enter_events calls_at
    by_cases hst : st = RUNNING <;> cases hk <;> simp [hst]
  have h2 : calls_at [] hk (exit_events v s) = if hk = .exit ∧ v ≠ RUNNING then 1 else 0 := by
    unfold exit_events calls_at
    by_cases hv : v = RUNNING <;> cases hk <;> simp [hv]
  have h3 : calls_at [] hk [(⟨[], .tick, script_has s .tick⟩ : Event)]
      = if hk = .tick then 1 else 0 := by
    unfold calls_at
    cases hk <;> simp
  rw [h1, h2, h3]
  omega

theorem calls_at_under (i j : Nat) (p : List Nat) (h : Hook) (evs : List Event) :
    calls_at (j :: p) h (evs.map (Event.under i)) = if j = i then calls_at p h evs else 0 := by
  unfold calls_at
  rw [List.countP_map]
  by_cases hji : j = i
  · subst hji
    simp only [if_true]
    congr 1
    funext e
    simp [Event.under]
  · simp only [hji, if_false]
    rw [List.countP_eq_zero]
    intro e _
    simp [Event.under]
    intro h1
    exact absurd h1.symm hji

theorem enter_cls_kind (st : Int) (s : Option ScriptInstance) (c : TaskClass) :
    (c = .base → enter_cls st s c = .base)
    ∧ (∀ r, c = .btRepeat r → ∃ r2, enter_cls st s c = .btRepeat r2) := by
  refine ⟨?_, ?_⟩
  · rintro rfl
    unfold enter_cls
    split_ifs <;> rfl
  · rintro r rfl
    unfold enter_cls
    split_ifs
    · exact ⟨r, rfl⟩
    · exact ⟨r._enter, rfl⟩
    · exact ⟨r, rfl⟩

/-- On an `executable` task `execute` returns. -/
theorem execute_returns (t : BTTask) : t.executable = true → ∃ r, t.execute = some r := by
  induction t using BTTask.induct with
  | h d cs ih =>
    intro hex
    unfold BTTask.executable at hex
    unfold BTTask.execute
    cases hs : script_tick d.script with
    | some p => exact ⟨_, rfl⟩
    | none =>
      simp only [hs, Option.isSome_none, Bool.false_or] at hex
      cases hcl : enter_cls d._status d.script d.cls with
      | base => exact ⟨_, rfl⟩
      | btRepeat r2 =>
        have hfirst : first_executable cs = true := by
          cases hc : d.cls with
          | base =>
            rw [(enter_cls_kind d._status d.script d.cls).1 hc] at hcl
            cases hcl
          | btRepeat r => simpa [hc] using hex
        cases cs with
        | nil => simp [first_executable] at hfirst
        | cons c rest =>
          simp only [first_executable] at hfirst
          obtain ⟨⟨c2, s, ev⟩, hr⟩ := ih c (List.mem_cons_self _ _) hfirst
          simp only [BTRepeat._tick, hr]
          exact ⟨_, rfl⟩

/-! ## The steps of `execute` (C2, C3, C4) -/

/-- C2 (what the code does): `execute` invokes the enter hook on the task exactly once
when the status at call time is `RUNNING`, then as the first hook of the call, and not at
all when the status at call time is anything else (`FRESH`, `SUCCESS`, `FAILURE`; the
first hook is then `_tick`): the guard in the code is `_status == RUNNING`, the converse
of the entry condition of the claim. -/
theorem execute_enters_only_when_running (t : BTTask) (hex : t.executable = true) :
    ∃ t2 v tr, t.execute = some (t2, v, tr)
      ∧ own_calls .enter tr = (if t.get_status = RUNNING then 1 else 0)
      ∧ (t.get_status = RUNNING →
          tr.head? = some ⟨[], .enter, script_has t.data.script .enter⟩)
      ∧ (t.get_status ≠ RUNNING →
          tr.head? = some ⟨[], .tick, script_has t.data.script .tick⟩) := by
  obtain ⟨⟨t2, v, tr⟩, h⟩ := execute_returns t hex
  obtain ⟨nested, htr, hn, _, _⟩ := execute_spec t t2 v tr h
  refine ⟨t2, v, tr, h, ?_, ?_, ?_⟩
  · rw [htr, own_calls_execute .enter _ _ _ nested hn]
    simp [BTTask.get_status]
  · intro hs
    simp only [BTTask.get_status] at hs
    simp [htr, enter_events, hs]
  · intro hs
    simp only [BTTask.get_status] at hs
    simp [htr, enter_events, hs]

/-- C2 on a plain task whose status is `FRESH`: `execute` calls `_tick` and `_exit` and
never `_enter`. -/
theorem execute_enters_only_when_running_witness :
    (plain 0 none "" FRESH []).execute.map (fun r => (r.2.1, r.2.2))
      = some (FAILURE, [⟨[], .tick, false⟩, ⟨[], .exit, false⟩])
    ∧ ∃ t2 v tr, (plain 0 none "" FRESH []).execute = some (t2, v, tr)
      ∧ own_calls .enter tr = (if (plain 0 none "" FRESH []).get_status = RUNNING then 1 else 0)
      ∧ ((plain 0 none "" FRESH []).get_status = RUNNING →
          tr.head? = some ⟨[], .enter, script_has (plain 0 none "" FRESH []).data.script .enter⟩)
      ∧ ((plain 0 none "" FRESH []).get_status ≠ RUNNING →
          tr.head? = some ⟨[], .tick, script_has (plain 0 none "" FRESH []).data.script .tick⟩) :=
  ⟨by decide, execute_enters_only_when_running (plain 0 none "" FRESH []) rfl⟩

/-- C3 as stated fails when the script's `_tick` returns a value outside the range of
`int`: a leaf whose script returns 4294967297, which is not `RUNNING`, is left `RUNNING`
by `execute` (the assignment to `int _status` keeps the low 32 bits, that is 1), and no
exit hook is invoked. -/
theorem wide_tick_skips_exit :
    (scripted_leaf 0 none (fun _ => 4294967297) 0 FRESH).tick_value = some 4294967297
    ∧ (4294967297 : Int) ≠ RUNNING
    ∧ (scripted_leaf 0 none (fun _ => 4294967297) 0 FRESH).execute.map
        (fun r => (r.1.get_status, r.2.1, r.2.2))
      = some (RUNNING, RUNNING, [⟨[], .tick, true⟩]) := by
  decide

/-- C3 (amended): `execute` invokes the exit hook on the task exactly once when the status
that the call stores from `_tick` is not `RUNNING`, as the last hook of the call (after
the own `_tick` call and everything inside it), and not at all when that status is
`RUNNING`.  The stored status is the value `_tick` produced converted to `int`: the value
itself for the built-in `_tick` and for every script value in the range of `int`. -/
theorem execute_exits_iff_tick_not_running (t : BTTask) (hex : t.executable = true) :
    ∃ t2 v tr raw, t.execute = some (t2, v, tr)
      ∧ t.tick_value = some raw ∧ v = int32 raw ∧ t2.get_status = v
      ∧ (script_has t.data.script .tick = false → v = raw)
      ∧ (-2147483648 ≤ raw → raw < 2147483648 → v = raw)
      ∧ own_calls .exit tr = (if v ≠ RUNNING then 1 else 0)
      ∧ (v ≠ RUNNING → ∃ before : List Event,
          tr = before ++ [⟨[], .exit, script_has t.data.script .exit⟩]
          ∧ own_calls .tick before = 1 ∧ own_calls .exit before = 0) := by
  obtain ⟨⟨t2, v, tr⟩, h⟩ := execute_returns t hex
  obtain ⟨nested, htr, hn, hst, raw, htv, hv32, hbuiltin⟩ := execute_spec t t2 v tr h
  refine ⟨t2, v, tr, raw, h, htv, hv32, hst, hbuiltin,
    fun h1 h2 => hv32.trans (int32_of_range raw h1 h2), ?_, ?_⟩
  · rw [htr, own_calls_execute .exit _ _ _ nested hn]
    simp
  · intro hv
    refine ⟨enter_events t.data._status t.data.script
        ++ [⟨[], .tick, script_has t.data.script .tick⟩] ++ nested
        ++ exit_events RUNNING t.data.script,
      by simp [htr, exit_events, hv], ?_, ?_⟩
    · rw [own_calls_execute .tick _ _ _ nested hn]; simp
    · rw [own_calls_execute .exit _ _ _ nested hn]; simp

/-- C3 (amended) on a `RUNNING` Repeat(3, abort) whose child fails: `_enter`, `_tick`, the
child's `_tick` and `_exit`, and last the `_exit` of the decorator. -/
theorem execute_exits_iff_tick_not_running_witness :
    (repeat_task 3 true 0 RUNNING
        (scripted_leaf 1 (some 0) (fun _ => FAILURE) 0 FRESH)).execute.map (fun r => (r.2.1, r.2.2))
      = some (FAILURE, [⟨[], .enter, false⟩, ⟨[], .tick, false⟩, ⟨[0], .tick, true⟩,
          ⟨[0], .exit, false⟩, ⟨[], .exit, false⟩])
    ∧ ∃ t2 v tr raw, (repeat_task 3 true 0 RUNNING
          (scripted_leaf 1 (some 0) (fun _ => FAILURE) 0 FRESH)).execute = some (t2, v, tr)
      ∧ (repeat_task 3 true 0 RUNNING
          (scripted_leaf 1 (some 0) (fun _ => FAILURE) 0 FRESH)).tick_value = some raw
      ∧ v = int32 raw ∧ t2.get_status = v
      ∧ (script_has (repeat_task 3 true 0 RUNNING
          (scripted_leaf 1 (some 0) (fun _ => FAILURE) 0 FRESH)).data.script .tick = false →
            v = raw)
      ∧ (-2147483648 ≤ raw → raw < 2147483648 → v = raw)
      ∧ own_calls .exit tr = (if v ≠ RUNNING then 1 else 0)
      ∧ (v ≠ RUNNING → ∃ before : List Event,
          tr = before ++ [⟨[], .exit, script_has (repeat_task 3 true 0 RUNNING
              (scripted_leaf 1 (some 0) (fun _ => FAILURE) 0 FRESH)).data.script .exit⟩]
          ∧ own_calls .tick before = 1 ∧ own_calls .exit before = 0) :=
  ⟨by decide, execute_exits_iff_tick_not_running
    (repeat_task 3 true 0 RUNNING (scripted_leaf 1 (some 0) (fun _ => FAILURE) 0 FRESH)) rfl⟩

/-- C4 as stated fails when the script's `_tick` returns a value outside the range of
`int`: on a leaf whose script returns 4294967299, `execute` returns 3 (`SUCCESS`) and
stores 3, not the value that `_tick` produced. -/
theorem wide_tick_is_narrowed :
    (scripted_leaf 0 none (fun _ => 4294967299) 0 SUCCESS).tick_value = some 4294967299
    ∧ (scripted_leaf 0 none (fun _ => 4294967299) 0 SUCCESS).execute.map
        (fun r => (r.1.get_status, r.2.1, r.2.2))
      = some (SUCCESS, SUCCESS, [⟨[], .tick, true⟩, ⟨[], .exit, false⟩])
    ∧ (SUCCESS : Int) ≠ 4294967299 := by
  decide

/-- C4 (amended): `execute` invokes `_tick` on the task exactly once, whatever the status
at call time; the value it returns is the status stored in the task (`get_status`) after
the call, and is the value `_tick` produced converted to `int`: the value itself for the
built-in `_tick` and for every script value in the range of `int`. -/
theorem execute_ticks_once_stores_and_returns (t : BTTask) (hex : t.executable = true) :
    ∃ t2 v tr raw, t.execute = some (t2, v, tr)
      ∧ own_calls .tick tr = 1 ∧ t.tick_value = some raw ∧ v = int32 raw
      ∧ t2.get_status = v
      ∧ (script_has t.data.script .tick = false → v = raw)
      ∧ (-2147483648 ≤ raw → raw < 2147483648 → v = raw) := by
  obtain ⟨⟨t2, v, tr⟩, h⟩ := execute_returns t hex
  obtain ⟨nested, htr, hn, hst, raw, htv, hv32, hbuiltin⟩ := execute_spec t t2 v tr h
  refine ⟨t2, v, tr, raw, h, ?_, htv, hv32, hst, hbuiltin,
    fun h1 h2 => hv32.trans (int32_of_range raw h1 h2)⟩
  rw [htr, own_calls_execute .tick _ _ _ nested hn]
  simp

/-- C4 (amended) on a scripted leaf with status `SUCCESS` whose `_tick` returns 7: that
value, which is in the range of `int`, is returned and stored. -/
theorem execute_ticks_once_stores_and_returns_witness :
    (scripted_leaf 0 none (fun _ => 7) 0 SUCCESS).execute.map
        (fun r => (r.1.get_status, r.2.1, r.2.2))
      = some (7, 7, [⟨[], .tick, true⟩, ⟨[], .exit, false⟩])
    ∧ ∃ t2 v tr raw, (scripted_leaf 0 none (fun _ => 7) 0 SUCCESS).execute = some (t2, v, tr)
      ∧ own_calls .tick tr = 1
      ∧ (scripted_leaf 0 none (fun _ => 7) 0 SUCCESS).tick_value = some raw
      ∧ v = int32 raw
      ∧ t2.get_status = v
      ∧ (script_has (scripted_leaf 0 none (fun _ => 7) 0 SUCCESS).data.script .tick = false →
          v = raw)
      ∧ (-2147483648 ≤ raw → raw < 2147483648 → v = raw) :=
  ⟨by decide, execute_ticks_once_stores_and_returns
    (scripted_leaf 0 none (fun _ => 7) 0 SUCCESS) rfl⟩

/-! ## One tick of Repeat (C9) -/

/-- C9: one `_tick` of Repeat(times = N, abort_on_failure = a) with counter `k` runs
`execute` once on its first child (the child afterwards is the result of that one call,
whose single `_tick` shows in the trace at position `[0]`), keeps `times` and
`abort_on_failure`, and: child `RUNNING` gives `RUNNING`, counter unchanged; else child
`FAILURE` with `a` gives `FAILURE`, counter unchanged; else `k ≥ N` gives `SUCCESS`,
counter unchanged; else `RUNNING` with counter `k + 1`.  With `a = false` the outcome for
a child `FAILURE` is the outcome for a child `SUCCESS`. -/
theorem repeat_tick_rule (N k : Int) (a : Bool) (c : BTTask) (rest : List BTTask)
    (hc : c.executable = true) :
    ∃ (c2 : BTTask) (s : Int) (ev : List Event) (v k2 : Int),
      c.execute = some (c2, s, ev)
      ∧ BTRepeat._tick ⟨N, a, k⟩ (c :: rest)
          = some (⟨N, a, k2⟩, c2 :: rest, v, ev.map (Event.under 0))
      ∧ calls_at [0] .tick (ev.map (Event.under 0)) = 1
      ∧ (s = RUNNING → v = RUNNING ∧ k2 = k)
      ∧ (s ≠ RUNNING → (s = FAILURE ∧ a = true) → v = FAILURE ∧ k2 = k)
      ∧ (s ≠ RUNNING → ¬ (s = FAILURE ∧ a = true) → k ≥ N → v = SUCCESS ∧ k2 = k)
      ∧ (s ≠ RUNNING → ¬ (s = FAILURE ∧ a = true) → k < N → v = RUNNING ∧ k2 = k + 1)
      ∧ (a = false →
          BTRepeat.after_child ⟨N, a, k⟩ FAILURE = BTRepeat.after_child ⟨N, a, k⟩ SUCCESS) := by
  obtain ⟨⟨c2, s, ev⟩, h⟩ := execute_returns c hc
  have hcount : calls_at [0] .tick (ev.map (Event.under 0)) = 1 := by
    obtain ⟨nested, htr, hn, _, _⟩ := execute_spec c c2 s ev h
    rw [calls_at_under, if_pos rfl]
    have h1 := own_calls_execute .tick c.data._status s c.data.script nested hn
    rw [← htr] at h1
    simpa [own_calls] using h1
  have htick : BTRepeat._tick ⟨N, a, k⟩ (c :: rest)
      = some ((BTRepeat.after_child ⟨N, a, k⟩ s).2, c2 :: rest,
          (BTRepeat.after_child ⟨N, a, k⟩ s).1, ev.map (Event.under 0)) := by
    rw [BTRepeat._tick, h]
  refine ⟨c2, s, ev, (BTRepeat.after_child ⟨N, a, k⟩ s).1,
    (BTRepeat.after_child ⟨N, a, k⟩ s).2._cur_iteration, h, ?_, hcount, ?_, ?_, ?_, ?_, ?_⟩
  · rw [htick]
    unfold BTRepeat.after_child
    by_cases h1 : s = RUNNING
    · simp [h1]
    · by_cases h2 : s = FAILURE ∧ a = true
      · simp [h1, h2]
      · by_cases h3 : k ≥ N
        · simp only [h1, h2, h3, if_false, if_true]
        · simp only [h1, h2, h3, if_false]
  · intro h1; simp [BTRepeat.after_child, h1]
  · intro h1 h2; simp [BTRepeat.after_child, h1, h2]
  · intro h1 h2 h3; simp only [BTRepeat.after_child, h1, h2, h3, if_false, if_true, and_self]
  · intro h1 h2 h3
    have h3n : ¬ k ≥ N := not_le.mpr h3
    simp only [BTRepeat.after_child, h1, h2, h3n, if_false, and_self]
  · intro ha
    subst ha
    simp [BTRepeat.after_child]

/-- C9 on Repeat(3, no abort) with counter 1 whose child returns `FAILURE`: the tick
returns `RUNNING` and the counter becomes 2. -/
theorem repeat_tick_rule_witness :
    (BTRepeat._tick ⟨3, false, 1⟩ [scripted_leaf 1 (some 0) (fun _ => FAILURE) 0 FRESH]).map
        (fun r => (r.1, r.2.2.1))
      = some (⟨3, false, 2⟩, RUNNING)
    ∧ ∃ (c2 : BTTask) (s : Int) (ev : List Event) (v k2 : Int),
      (scripted_leaf 1 (some 0) (fun _ => FAILURE) 0 FRESH).execute = some (c2, s, ev)
      ∧ BTRepeat._tick ⟨3, false, 1⟩ (scripted_leaf 1 (some 0) (fun _ => FAILURE) 0 FRESH :: [])
          = some (⟨3, false, k2⟩, c2 :: [], v, ev.map (Event.under 0))
      ∧ calls_at [0] .tick (ev.map (Event.under 0)) = 1
      ∧ (s = RUNNING → v = RUNNING ∧ k2 = 1)
      ∧ (s ≠ RUNNING → (s = FAILURE ∧ false = true) → v = FAILURE ∧ k2 = 1)
      ∧ (s ≠ RUNNING → ¬ (s = FAILURE ∧ false = true) → (1 : Int) ≥ 3 → v = SUCCESS ∧ k2 = 1)
      ∧ (s ≠ RUNNING → ¬ (s = FAILURE ∧ false = true) → (1 : Int) < 3 →
          v = RUNNING ∧ k2 = 1 + 1)
      ∧ (false = false →
          BTRepeat.after_child ⟨3, false, 1⟩ FAILURE = BTRepeat.after_child ⟨3, false, 1⟩ SUCCESS) :=
  ⟨by decide, repeat_tick_rule 3 1 false (scripted_leaf 1 (some 0) (fun _ => FAILURE) 0 FRESH)
    [] rfl⟩

/-! ## Repeat over consecutive `execute` calls (C1, C8) -/

theorem after_child_config (N k : Int) (a : Bool) (s : Int) :
    ∃ k2, (BTRepeat.after_child ⟨N, a, k⟩ s).2 = ⟨N, a, k2⟩ := by
  unfold BTRepeat.after_child
  by_cases h1 : s = RUNNING
  · exact ⟨k, by simp [h1]⟩
  · by_cases h2 : s = FAILURE ∧ a = true
    · exact ⟨k, by simp [h1, h2]⟩
    · by_cases h3 : k ≥ N
      · exact ⟨k, by simp only [h1, h2, h3, if_false, if_true]⟩
      · exact ⟨k + 1, by simp only [h1, h2, h3, if_false]⟩

/-- One `execute` on a built-in Repeat: it stays a built-in Repeat with the same
configuration, the status stored is the status returned, and when the status at call
time was `RUNNING` the value returned is the outcome of the chain of tests at counter 1
(the `_enter` step has just reset the counter). -/
theorem execute_repeat (N : Int) (a : Bool) (t t2 : BTTask) (v : Int) (tr : List Event)
    (ht : is_repeat N a t) (h : t.execute = some (t2, v, tr)) :
    is_repeat N a t2 ∧ t2.get_status = v
    ∧ (t.get_status = RUNNING → ∃ s, v = (BTRepeat.after_child ⟨N, a, 1⟩ s).1) := by
  cases t with
  | mk d cs =>
    obtain ⟨hscript, k, hcls⟩ := ht
    simp only [BTTask.data] at hscript hcls
    unfold BTTask.execute at h
    have hst : script_tick d.script = none := by rw [hscript]; rfl
    simp only [hst] at h
    by_cases hrun : d._status = RUNNING
    · have hc : enter_cls d._status d.script d.cls = .btRepeat ⟨N, a, 1⟩ := by
        simp [enter_cls, hrun, hscript, script_has, hcls, TaskClass._enter, BTRepeat._enter]
      simp only [hc] at h
      cases cs with
      | nil => simp [BTRepeat._tick] at h
      | cons c rest =>
        unfold BTRepeat._tick at h
        cases hx : c.execute with
        | none => simp [hx] at h
        | some y =>
          obtain ⟨c2, s, ev⟩ := y
          simp only [hx] at h
          cases h
          obtain ⟨k2, hk2⟩ := after_child_config N 1 a s
          exact ⟨⟨hscript, k2, by simp [BTTask.data, hk2]⟩, rfl, fun _ => ⟨s, rfl⟩⟩
    · have hc : enter_cls d._status d.script d.cls = .btRepeat ⟨N, a, k⟩ := by
        simp [enter_cls, hrun, hcls]
      simp only [hc] at h
      cases cs with
      | nil => simp [BTRepeat._tick] at h
      | cons c rest =>
        unfold BTRepeat._tick at h
        cases hx : c.execute with
        | none => simp [hx] at h
        | some y =>
          obtain ⟨c2, s, ev⟩ := y
          simp only [hx] at h
          cases h
          obtain ⟨k2, hk2⟩ := after_child_config N k a s
          exact ⟨⟨hscript, k2, by simp [BTTask.data, hk2]⟩, rfl,
            fun hr => absurd hr (by simpa [BTTask.get_status, BTTask.data] using hrun)⟩

/-- At counter 1 with `times ≥ 2` the chain of tests never yields `SUCCESS`. -/
theorem after_child_one_ne_success (N : Int) (a : Bool) (s : Int) (hN : 2 ≤ N) :
    (BTRepeat.after_child ⟨N, a, 1⟩ s).1 ≠ SUCCESS := by
  unfold BTRepeat.after_child
  by_cases h1 : s = RUNNING
  · simp [h1]
  · by_cases h2 : s = FAILURE ∧ a = true
    · simp [h1, h2]
    · have h3 : ¬ ((1 : Int) ≥ N) := by omega
      simp only [h1, h2, h3, if_false]
      decide

/-- A built-in Repeat with `times ≥ 2` that is `RUNNING` does not complete: over any
number `n + 1` of further `execute` calls the statuses returned are never `n` times
`RUNNING` followed by `SUCCESS`. -/
theorem running_repeat_never_completes (N : Int) (a : Bool) (hN : 2 ≤ N) (n : Nat) :
    ∀ t : BTTask, is_repeat N a t → t.get_status = RUNNING →
      (execute_n (n + 1) t).map (fun r => r.2.1)
        ≠ some (List.replicate n RUNNING ++ [SUCCESS]) := by
  induction n with
  | zero =>
    intro t ht hrun heq
    unfold execute_n at heq
    cases hx : t.execute with
    | none => simp [hx] at heq
    | some y =>
      obtain ⟨t1, v, ev⟩ := y
      obtain ⟨_, _, hv⟩ := execute_repeat N a t t1 v ev ht hx
      obtain ⟨s, hs⟩ := hv hrun
      simp [hx, execute_n] at heq
      exact after_child_one_ne_success N a s hN (hs ▸ heq)
  | succ n ih =>
    intro t ht hrun heq
    rw [execute_n] at heq
    cases hx : t.execute with
    | none => simp [hx] at heq
    | some y =>
      obtain ⟨t1, v, ev⟩ := y
      obtain ⟨ht1, hst1, _⟩ := execute_repeat N a t t1 v ev ht hx
      simp only [hx] at heq
      cases hy : execute_n (n + 1) t1 with
      | none => simp [hy] at heq
      | some z =>
        obtain ⟨t2, ss, evs⟩ := z
        simp only [hy, Option.map_some', List.replicate_succ, List.cons_append,
          Option.some.injEq, List.cons.injEq] at heq
        apply ih t1 ht1 (by rw [hst1]; exact heq.1)
        simp [hy, heq.2]

/-- C1 (what the code does): a Repeat with `times = N ≥ 2` and `abort_on_failure = false`
that starts `FRESH`, whatever its counter and whatever its child does, never yields
`RUNNING` on each of the first `N - 1` calls and `SUCCESS` on the N-th: once it is
`RUNNING`, every `execute` resets the counter to 1 in the `_enter` step before `_tick`
compares it with `times`. -/
theorem repeat_times_never_completes (N : Nat) (hN : 2 ≤ N) (k : Int) (child : BTTask) :
    (execute_n N (repeat_task N false k FRESH child)).map (fun r => r.2.1)
      ≠ some (List.replicate (N - 1) RUNNING ++ [SUCCESS]) := by
  obtain ⟨n, rfl⟩ : ∃ n, N = n + 2 := ⟨N - 2, by omega⟩
  intro heq
  rw [execute_n] at heq
  have ht : is_repeat ((n + 2 : Nat) : Int) false
      (repeat_task ((n + 2 : Nat) : Int) false k FRESH child) := ⟨rfl, k, rfl⟩
  cases hx : (repeat_task ((n + 2 : Nat) : Int) false k FRESH child).execute with
  | none => rw [hx] at heq; simp at heq
  | some y =>
    obtain ⟨t1, v, ev⟩ := y
    obtain ⟨ht1, hst1, _⟩ := execute_repeat _ false _ t1 v ev ht hx
    simp only [hx] at heq
    cases hy : execute_n (n + 1) t1 with
    | none => simp [hy] at heq
    | some z =>
      obtain ⟨t2, ss, evs⟩ := z
      have hrep : List.replicate (n + 2 - 1) RUNNING ++ [SUCCESS]
          = RUNNING :: (List.replicate n RUNNING ++ [SUCCESS]) := by
        have : n + 2 - 1 = n + 1 := by omega
        rw [this, List.replicate_succ, List.cons_append]
      simp only [hy, Option.map_some', hrep, Option.some.injEq, List.cons.injEq] at heq
      refine running_repeat_never_completes _ false (by push_cast; omega) n t1 ht1
        (by rw [hst1]; exact heq.1) ?_
      simp [hy, heq.2]

/-- C1 at `times = 3`, counter 0, a child whose `_tick` always returns `SUCCESS`: three
consecutive `execute` calls return `RUNNING`, `RUNNING`, `RUNNING`, not `RUNNING`,
`RUNNING`, `SUCCESS`; the child has been ticked three times. -/
theorem repeat_times_never_completes_witness :
    (execute_n 3 (repeat_task (3 : Nat) false 0 FRESH
        (scripted_leaf 1 (some 0) (fun _ => SUCCESS) 0 FRESH))).map (fun r => r.2.1)
      ≠ some (List.replicate (3 - 1) RUNNING ++ [SUCCESS])
    ∧ (execute_n 3 (repeat_task (3 : Nat) false 0 FRESH
        (scripted_leaf 1 (some 0) (fun _ => SUCCESS) 0 FRESH))).map
          (fun r => (r.2.1, calls_at [0] .tick r.2.2))
      = some ([RUNNING, RUNNING, RUNNING], 3) :=
  ⟨repeat_times_never_completes 3 (by decide) 0
      (scripted_leaf 1 (some 0) (fun _ => SUCCESS) 0 FRESH), by decide⟩

/-- C8 at a Repeat(3, abort) that is `FRESH` with counter 3: the first `execute` returns
`SUCCESS` (the `_enter` step is skipped, so the stale counter meets `times`), the second
`FAILURE`; the child has been ticked twice. -/
theorem repeat_abort_stale_counter :
    (execute_n 2 (repeat_task 3 true 3 FRESH
        (scripted_leaf 1 (some 0) (fun n => if n = 0 then SUCCESS else FAILURE) 0 FRESH))).map
          (fun r => (r.2.1, calls_at [0] .tick r.2.2))
      = some ([SUCCESS, FAILURE], 2) := by
  decide

/-- The state of `repeat_abort_stale_counter` arises from host calls alone, whatever value
the constructor gives the counter: a Repeat(3, abort) built `FRESH` with counter `k0` over
a succeeding child reaches, by `execute` and `cancel` calls, status `FRESH` with a counter
of at least 3 (exactly 3 when `k0 < 3`). -/
theorem stale_counter_reachable (k0 : Int) :
    ∃ (calls : List HostCall) (k : Int),
      (host_calls calls (repeat_task 3 true k0 FRESH
        (scripted_leaf 1 (some 0) (fun _ => SUCCESS) 0 FRESH))).map
          (fun t => (t.get_status, t.data.cls))
        = some (FRESH, .btRepeat ⟨3, true, k⟩)
      ∧ 3 ≤ k ∧ (k0 < 3 → k = 3) := by
  by_cases hk : k0 < 3
  · have h3 : ¬ (k0 ≥ 3) := by omega
    refine ⟨[.execute, .execute, .cancel, .execute, .cancel], 3, ?_, le_refl _, fun _ => rfl⟩
    simp [host_calls, repeat_task, scripted_leaf, BTTask.execute, BTRepeat._tick,
      script_tick, ScriptInstance.call_tick, enter_cls, enter_events, exit_events,
      BTRepeat.after_child, script_has, TaskClass._enter, BTRepeat._enter, h3,
      BTTask.cancel, cancel_children, BTTask.get_status, BTTask.data, int32_SUCCESS,
      int32_FAILURE, int32_RUNNING]
  · have h3 : k0 ≥ 3 := by omega
    refine ⟨[.execute, .cancel], k0, ?_, h3, fun h => absurd h hk⟩
    simp [host_calls, repeat_task, scripted_leaf, BTTask.execute, BTRepeat._tick,
      script_tick, ScriptInstance.call_tick, enter_cls, enter_events, exit_events,
      BTRepeat.after_child, script_has, TaskClass._enter, BTRepeat._enter, h3,
      BTTask.cancel, cancel_children, BTTask.get_status, BTTask.data, int32_SUCCESS,
      int32_FAILURE, int32_RUNNING]

/-- On a Repeat(3, abort) that is `FRESH` with any counter `k ≥ 3`, the first `execute`
over a succeeding child returns `SUCCESS`. -/
theorem repeat_stale_counter_first_call (k : Int) (hk : 3 ≤ k) (f : Nat → Int)
    (hf : f 0 = SUCCESS) :
    (repeat_task 3 true k FRESH (scripted_leaf 1 (some 0) f 0 FRESH)).execute.map
        (fun r => r.2.1) = some SUCCESS := by
  have h3 : k ≥ 3 := hk
  simp [repeat_task, scripted_leaf, BTTask.execute, BTRepeat._tick, script_tick,
    ScriptInstance.call_tick, enter_cls, BTRepeat.after_child, hf, h3, int32_SUCCESS]

/-- The abort rule over a whole `execute`: on a built-in Repeat with
`abort_on_failure = true`, an
`execute` in which the child returns `FAILURE` returns `FAILURE`, whatever the counter,
`times` and the status at call time. -/
theorem repeat_abort_child_failure (N : Int) (d : TaskData) (c c2 : BTTask)
    (rest : List BTTask) (ev : List Event) (ht : is_repeat N true (.mk d (c :: rest)))
    (hc : c.execute = some (c2, FAILURE, ev)) :
    ((BTTask.mk d (c :: rest)).execute).map (fun r => r.2.1) = some FAILURE := by
  obtain ⟨hscript, k, hcls⟩ := ht
  simp only [BTTask.data] at hscript hcls
  unfold BTTask.execute
  have hst : script_tick d.script = none := by rw [hscript]; rfl
  simp only [hst]
  have hcl : ∃ k2, enter_cls d._status d.script d.cls = .btRepeat ⟨N, true, k2⟩ := by
    unfold enter_cls
    by_cases hrun : d._status = RUNNING
    · exact ⟨1, by simp [hrun, hscript, script_has, hcls, TaskClass._enter, BTRepeat._enter]⟩
    · exact ⟨k, by simp [hrun, hcls]⟩
  obtain ⟨k2, hk2⟩ := hcl
  simp only [hk2]
  rw [BTRepeat._tick, hc]
  simp [BTRepeat.after_child]

/-- When the counter at the start is below `times`: Repeat(3, abort)
that is `FRESH` with counter `k < 3` over a child returning `SUCCESS` then `FAILURE`
returns `RUNNING` then `FAILURE`, the child being ticked twice. -/
theorem repeat_abort_second_call_fails (k : Int) (hk : k < 3) :
    (execute_n 2 (repeat_task 3 true k FRESH
        (scripted_leaf 1 (some 0) (fun n => if n = 0 then SUCCESS else FAILURE) 0 FRESH))).map
          (fun r => (r.2.1, calls_at [0] .tick r.2.2))
      = some ([RUNNING, FAILURE], 2) := by
  have h3 : ¬ (k ≥ 3) := by omega
  simp [execute_n, repeat_task, scripted_leaf, BTTask.execute, BTRepeat._tick, script_tick,
    ScriptInstance.call_tick, enter_cls, enter_events, exit_events, BTRepeat.after_child,
    script_has, TaskClass._enter, BTRepeat._enter, h3, calls_at, Event.under,
    ScriptInstance.has_method, int32_SUCCESS, int32_FAILURE, int32_RUNNING]

/-! ## `cancel` (C5, C6, C7) -/

/-- The children after the loop of `cancel`: each child cancelled, in place. -/
theorem cancel_children_fst (i : Nat) (cs : List BTTask) :
    (cancel_children i cs).1 = cs.map (fun c => c.cancel.1) := by
  induction cs generalizing i with
  | nil => simp [cancel_children]
  | cons c cs ih => simp [cancel_children, ih]

theorem cancel_mk_fst (d : TaskData) (cs : List BTTask) :
    (BTTask.mk d cs).cancel.1
      = .mk { d with _status := FRESH } (cs.map (fun c => c.cancel.1)) := by
  simp [BTTask.cancel, cancel_children_fst]

/-- C5: after `cancel` on a task, at every position of its subtree (the task itself and
every descendant, whatever the statuses before) there is a task with status `FRESH`, and
the subtree has no other positions. -/
theorem cancel_leaves_subtree_fresh (t : BTTask) :
    ∀ p : List Nat,
      (t.cancel.1.node_at p).map BTTask.get_status = (t.node_at p).map (fun _ => FRESH) := by
  induction t using BTTask.induct with
  | h d cs ih =>
    intro p
    cases p with
    | nil => simp [BTTask.node_at, cancel_mk_fst, BTTask.get_status, BTTask.data]
    | cons i p =>
      rw [cancel_mk_fst]
      simp only [BTTask.node_at, BTTask.children, List.getElem?_map]
      cases hi : cs[i]? with
      | none => simp
      | some c =>
        simp only [Option.map_some']
        exact ih c (List.getElem?_mem hi) p

/-- The loop of `cancel` over children that are already cancelled changes nothing and
invokes nothing. -/
theorem cancel_children_idem (cs : List BTTask)
    (ih : ∀ c ∈ cs, (c.cancel.1).cancel = (c.cancel.1, [])) (i : Nat) :
    cancel_children i (cs.map (fun c => c.cancel.1)) = (cs.map (fun c => c.cancel.1), []) := by
  induction cs generalizing i with
  | nil => simp [cancel_children]
  | cons c cs ihcs =>
    simp only [List.map_cons, cancel_children]
    rw [ih c (List.mem_cons_self _ _),
      ihcs (fun x hx => ih x (List.mem_cons_of_mem _ hx)) (i + 1)]
    simp

/-- C7: `cancel` is idempotent: a second `cancel` right after a first one invokes no hook
at all and returns the tree exactly as the first call left it (every field of every
task: status, children, parent, agent, blackboard, custom_name, and the rest). -/
theorem cancel_idempotent (t : BTTask) : (t.cancel.1).cancel = (t.cancel.1, []) := by
  induction t using BTTask.induct with
  | h d cs ih =>
    rw [cancel_mk_fst]
    rw [BTTask.cancel, cancel_children_idem cs ih 0]
    simp

theorem cancel_children_trace (cs : List BTTask)
    (ih : ∀ c ∈ cs, c.cancel.2 = ((c.postorder.filter is_running).map exit_event)) (i : Nat) :
    (cancel_children i cs).2 = ((postorder_children i cs).filter is_running).map exit_event := by
  induction cs generalizing i with
  | nil => simp [cancel_children, postorder_children]
  | cons c cs ihcs =>
    simp only [cancel_children, postorder_children, List.filter_append, List.map_append]
    rw [ih c (List.mem_cons_self _ _),
      ihcs (fun x hx => ih x (List.mem_cons_of_mem _ hx)) (i + 1)]
    congr 1
    simp only [List.filter_map, List.map_map]
    rfl

/-- The hooks `cancel` invokes: `_exit` on the `RUNNING` tasks of the subtree, in
post-order. -/
theorem cancel_trace (t : BTTask) :
    t.cancel.2 = (t.postorder.filter is_running).map exit_event := by
  induction t using BTTask.induct with
  | h d cs ih =>
    simp only [BTTask.cancel, BTTask.postorder, List.filter_append, List.map_append]
    rw [cancel_children_trace cs ih 0]
    congr 1
    by_cases hr : d._status = RUNNING
    · simp [hr, is_running, exit_event, BTTask.get_status, BTTask.data, List.filter]
    · simp [hr, is_running, BTTask.get_status, BTTask.data, List.filter]

theorem cancel_children_calls (cs : List BTTask)
    (ih : ∀ c ∈ cs, ∀ p, calls_at p .exit c.cancel.2 = exits_due c p) (i : Nat) :
    calls_at [] .exit (cancel_children i cs).2 = 0
    ∧ ∀ j p, calls_at (j :: p) .exit (cancel_children i cs).2
        = if j < i then 0 else
            match cs[j - i]? with
            | some c => exits_due c p
            | none => 0 := by
  induction cs generalizing i with
  | nil =>
    refine ⟨by simp [cancel_children, calls_at], ?_⟩
    intro j p
    simp [cancel_children, calls_at]
  | cons c cs ihcs =>
    obtain ⟨h0, hj⟩ := ihcs (fun x hx => ih x (List.mem_cons_of_mem _ hx)) (i + 1)
    refine ⟨?_, ?_⟩
    · simp only [cancel_children, calls_at_append, h0, add_zero]
      exact own_calls_nested .exit _ (under_path_ne_nil i _)
    · intro j p
      simp only [cancel_children, calls_at_append, hj, calls_at_under,
        ih c (List.mem_cons_self _ _)]
      by_cases h1 : j < i
      · have h2 : j ≠ i := by omega
        have h3 : j < i + 1 := by omega
        simp [h1, h2, h3]
      · by_cases h2 : j = i
        · subst h2
          simp
        · have h3 : ¬ j < i + 1 := by omega
          obtain ⟨m, hm⟩ : ∃ m, j - i = m + 1 := ⟨j - i - 1, by omega⟩
          have h4 : j - (i + 1) = m := by omega
          simp [h1, h2, h3, hm, h4]

/-- Per position: `cancel` invokes `_exit` exactly once at every position that held a
`RUNNING` task and never anywhere else. -/
theorem cancel_calls (t : BTTask) : ∀ p, calls_at p .exit t.cancel.2 = exits_due t p := by
  induction t using BTTask.induct with
  | h d cs ih =>
    obtain ⟨h0, hj⟩ := cancel_children_calls cs ih 0
    intro p
    cases p with
    | nil =>
      simp only [BTTask.cancel, calls_at_append, h0, zero_add, exits_due, BTTask.node_at,
        BTTask.get_status, BTTask.data]
      by_cases hr : d._status = RUNNING <;> simp [hr, calls_at]
    | cons j p =>
      simp only [BTTask.cancel, calls_at_append, hj]
      have hown : calls_at (j :: p) .exit
          (if d._status = RUNNING then [(⟨[], .exit, script_has d.script .exit⟩ : Event)] else [])
          = 0 := by
        by_cases hr : d._status = RUNNING <;> simp [hr, calls_at]
      rw [hown]
      simp only [exits_due, BTTask.node_at, BTTask.children, Nat.not_lt_zero, if_false,
        Nat.sub_zero, add_zero]
      cases cs[j]? <;> rfl

theorem postorder_children_mem (cs : List BTTask)
    (ih : ∀ c ∈ cs, ∀ p n, (p, n) ∈ c.postorder ↔ c.node_at p = some n) (i : Nat) :
    ∀ q n, (q, n) ∈ postorder_children i cs ↔
      ∃ j p c, q = (i + j) :: p ∧ cs[j]? = some c ∧ c.node_at p = some n := by
  induction cs generalizing i with
  | nil => intro q n; simp [postorder_children]
  | cons c cs ihcs =>
    intro q n
    simp only [postorder_children, List.mem_append, List.mem_map, Prod.mk.injEq,
      ihcs (fun x hx => ih x (List.mem_cons_of_mem _ hx)) (i + 1)]
    constructor
    · rintro (⟨⟨p, m⟩, hpm, rfl, rfl⟩ | ⟨j, p, c2, rfl, hc2, hn⟩)
      · exact ⟨0, p, c, by simp, by simp, (ih c (List.mem_cons_self _ _) p m).mp hpm⟩
      · exact ⟨j + 1, p, c2, by simp; omega, by simpa using hc2, hn⟩
    · rintro ⟨j, p, c2, rfl, hc2, hn⟩
      cases j with
      | zero =>
        simp at hc2
        subst hc2
        exact Or.inl ⟨(p, n), (ih _ (List.mem_cons_self _ _) p n).mpr hn, by simp, rfl⟩
      | succ j =>
        exact Or.inr ⟨j, p, c2, by simp; omega, by simpa using hc2, hn⟩

/-- The post-order listing holds exactly the tasks of the subtree, each at its position. -/
theorem postorder_mem (t : BTTask) :
    ∀ p n, (p, n) ∈ t.postorder ↔ t.node_at p = some n := by
  induction t using BTTask.induct with
  | h d cs ih =>
    intro p n
    simp only [BTTask.postorder, List.mem_append, List.mem_singleton, Prod.mk.injEq,
      postorder_children_mem cs ih 0]
    cases p with
    | nil =>
      simp only [BTTask.node_at, Option.some.injEq]
      constructor
      · rintro (⟨j, p, c, h, _⟩ | ⟨_, rfl⟩)
        · cases h
        · rfl
      · intro h; exact Or.inr ⟨trivial, h.symm⟩
    | cons j p =>
      simp only [BTTask.node_at, BTTask.children]
      constructor
      · rintro (⟨j2, p2, c, h, hc, hn⟩ | ⟨h, _⟩)
        · simp at h
          obtain ⟨rfl, rfl⟩ := h
          simp [hc, hn]
        · cases h
      · intro h
        cases hc : cs[j]? with
        | none => simp [hc] at h
        | some c =>
          simp only [hc] at h
          exact Or.inl ⟨j, p, c, by simp, hc, h⟩

/-- C6: `cancel` invokes `_exit` exactly once on every task of the subtree that was
`RUNNING` when `cancel` was called and on no other task, and invokes no other hook; the
invocations come in post-order (children in index order, each child's subtree completely
before the next child, the parent after all its children). -/
theorem cancel_exits_running_in_postorder (t : BTTask) :
    t.cancel.2 = (t.postorder.filter is_running).map exit_event
    ∧ (∀ p n, (p, n) ∈ t.postorder ↔ t.node_at p = some n)
    ∧ (∀ p, calls_at p .exit t.cancel.2 = exits_due t p)
    ∧ (∀ e ∈ t.cancel.2, e.hook = .exit) := by
  refine ⟨cancel_trace t, postorder_mem t, cancel_calls t, ?_⟩
  intro e he
  rw [cancel_trace] at he
  obtain ⟨pn, _, rfl⟩ := List.mem_map.mp he
  rfl

/-! ## `clone` (C10) -/

theorem set_parent_label (q : Option Nat) (t : BTTask) (p : List Nat) :
    ((t.set_parent q).node_at p).map label = (t.node_at p).map label := by
  cases t with
  | mk d cs =>
    cases p with
    | nil => rfl
    | cons i p => rfl

theorem clone_children_label (k0 : Int) (cs : List BTTask)
    (ih : ∀ c ∈ cs, ∀ (addr : Nat) (p : List Nat),
      (((c.clone k0 addr).1).node_at p).map label = (c.node_at p).map label)
    (inst addr : Nat) :
    (clone_children k0 inst cs addr).1.length = cs.length
    ∧ ∀ (j : Nat) (p : List Nat),
        (match (clone_children k0 inst cs addr).1[j]? with
          | none => none
          | some c => c.node_at p).map label
        = (match cs[j]? with
          | none => none
          | some c => c.node_at p).map label := by
  induction cs generalizing addr with
  | nil => exact ⟨rfl, fun j p => by simp [clone_children]⟩
  | cons c cs ihcs =>
    obtain ⟨hlen, hj⟩ := ihcs (fun x hx => ih x (List.mem_cons_of_mem _ hx))
      (c.clone k0 addr).2
    refine ⟨by simp [clone_children, hlen], ?_⟩
    intro j p
    cases j with
    | zero =>
      simp only [clone_children, List.getElem?_cons_zero]
      rw [set_parent_label]
      exact ih c (List.mem_cons_self _ _) addr p
    | succ j =>
      simp only [clone_children, List.getElem?_cons_succ]
      exact hj j p

/-- C10: the tree `clone` returns has the shape of the source: at every position the
clone has a task exactly when the source has one, with the same number of children and
the same `custom_name` (so siblings keep their order). -/
theorem clone_same_shape (k0 : Int) (t : BTTask) :
    ∀ (addr : Nat) (p : List Nat),
      (((t.clone k0 addr).1).node_at p).map
          (fun n => (n.get_child_count, n.get_custom_name))
        = (t.node_at p).map (fun n => (n.get_child_count, n.get_custom_name)) := by
  induction t using BTTask.induct with
  | h d cs ih =>
    intro addr p
    obtain ⟨hlen, hj⟩ := clone_children_label k0 cs ih addr (addr + 1)
    cases p with
    | nil =>
      simp [BTTask.clone, BTTask.node_at, BTTask.get_child_count, BTTask.children,
        BTTask.get_custom_name, BTTask.data, BTTask.duplicate, hlen]
    | cons j p =>
      simp only [BTTask.clone, BTTask.node_at, BTTask.children]
      exact hj j p

/-! ## Evaluation on the sample tree -/

/-- On the sample tree `cancel` invokes `_exit` on "a", then on "c", then on the root, and
on nothing else; afterwards every status is `FRESH`. -/
theorem cancel_sample_tree :
    sample_tree.cancel.2 = [⟨[0], .exit, false⟩, ⟨[1, 0], .exit, false⟩, ⟨[], .exit, false⟩]
    ∧ sample_tree.cancel.1.postorder.map (fun pn => (pn.1, pn.2.get_custom_name, pn.2.get_status))
      = [([0], "a", FRESH), ([1, 0], "c", FRESH), ([1], "b", FRESH), ([], "seq", FRESH)] := by
  decide

/-- On the sample tree `clone` (new identities from 100 on) keeps names and child
order, makes every status `FRESH`, leaves the root without parent and gives every other
task the new identity of its new parent. -/
theorem clone_sample_tree :
    (sample_tree.clone 0 100).1.postorder.map
        (fun pn => (pn.1, pn.2.get_custom_name, pn.2.get_status, pn.2.data.self, pn.2.get_parent))
      = [([0], "a", FRESH, 101, some 100), ([1, 0], "c", FRESH, 103, some 102),
         ([1], "b", FRESH, 102, some 100), ([], "seq", FRESH, 100, none)] := by
  decide


/-! ## Construction and `clone`: status, bindings (C11, C12) -/

theorem set_parent_status (q : Option Nat) (t : BTTask) (p : List Nat) :
    ((t.set_parent q).node_at p).map BTTask.get_status = (t.node_at p).map BTTask.get_status := by
  cases t with
  | mk d cs =>
    cases p with
    | nil => rfl
    | cons i p => rfl

theorem clone_children_status (k0 : Int) (cs : List BTTask)
    (ih : ∀ c ∈ cs, ∀ (addr : Nat) (p : List Nat),
      (((c.clone k0 addr).1).node_at p).map BTTask.get_status
        = (c.node_at p).map (fun _ => FRESH))
    (inst addr : Nat) :
    ∀ (j : Nat) (p : List Nat),
      (match (clone_children k0 inst cs addr).1[j]? with
        | none => none
        | some c => c.node_at p).map BTTask.get_status
      = (match cs[j]? with
        | none => none
        | some c => c.node_at p).map (fun _ => FRESH) := by
  induction cs generalizing addr with
  | nil => intro j p; simp [clone_children]
  | cons c cs ihcs =>
    intro j p
    cases j with
    | zero =>
      simp only [clone_children, List.getElem?_cons_zero]
      rw [set_parent_status]
      exact ih c (List.mem_cons_self _ _) addr p
    | succ j =>
      simp only [clone_children, List.getElem?_cons_succ]
      exact ihcs (fun x hx => ih x (List.mem_cons_of_mem _ hx)) (c.clone k0 addr).2 j p

/-- C11: a task built by the constructor has status `FRESH`, and in the tree `clone`
returns every position holds a task with status `FRESH`, whatever the statuses in the
source tree. -/
theorem constructed_and_cloned_are_fresh (self : Nat) (cls : TaskClass) (k0 : Int)
    (t : BTTask) :
    (BTTask.new self cls).get_status = FRESH
    ∧ ∀ (addr : Nat) (p : List Nat),
        (((t.clone k0 addr).1).node_at p).map BTTask.get_status
          = (t.node_at p).map (fun _ => FRESH) := by
  refine ⟨rfl, ?_⟩
  induction t using BTTask.induct with
  | h d cs ih =>
    intro addr p
    cases p with
    | nil => rfl
    | cons j p =>
      simp only [BTTask.clone, BTTask.node_at, BTTask.children]
      exact clone_children_status k0 cs ih addr (addr + 1) j p

/-- C12: the root of the tree `clone` returns has no parent (`is_root`), no agent and an
empty blackboard, whatever parent, agent and blackboard the source task has. -/
theorem clone_root_unbound (k0 : Int) (t : BTTask) (addr : Nat) :
    (t.clone k0 addr).1.is_root = true
    ∧ (t.clone k0 addr).1.get_parent = none
    ∧ (t.clone k0 addr).1.get_agent = none
    ∧ (t.clone k0 addr).1.get_blackboard = [] := by
  cases t with
  | mk d cs => exact ⟨rfl, rfl, rfl, rfl⟩

/-! ## A Repeat without child (C18) -/

/-- C18 (what the code does): on a `BTRepeat` without child and without a scripted
`_tick`, `get_child(0)` is the null reference and `execute` faults on the call through
it: no status is returned, `FAILURE` or other, whatever the status and the counter. -/
theorem childless_repeat_faults (d : TaskData) (r : BTRepeat)
    (hs : script_tick d.script = none) (hc : d.cls = .btRepeat r) :
    (BTTask.mk d []).get_child 0 = none ∧ (BTTask.mk d []).execute = none := by
  refine ⟨rfl, ?_⟩
  unfold BTTask.execute
  obtain ⟨r2, hr2⟩ := (enter_cls_kind d._status d.script d.cls).2 r hc
  simp only [hs, hr2, BTRepeat._tick]

/-- C18 on a newly built Repeat(3, no abort) with counter 0 and no child. -/
theorem childless_repeat_faults_witness :
    (BTTask.new 0 (.btRepeat ⟨3, false, 0⟩)).get_child 0 = none
    ∧ (BTTask.new 0 (.btRepeat ⟨3, false, 0⟩)).execute = none :=
  childless_repeat_faults _ ⟨3, false, 0⟩ rfl rfl

/-! ## `BTCheckAgentProperty::_tick` (C19) -/

/-- C19: the tick of `BTCheckAgentProperty` returns `FAILURE` when `property_name` is
unset, `FAILURE` when `value` is unset, `FAILURE` when the agent has no property of that
name; when all three are in order it returns `SUCCESS` if `perform_check` holds of the
check type, the agent's property value and the resolved `value`, and `FAILURE` if not.
It never returns `RUNNING` or `FRESH`. -/
theorem check_agent_property_tick {κ β : Type} (perform_check : κ → Variant → Variant → Bool)
    (get_value : β → Option AgentObject → Dictionary → Variant)
    (self : BTCheckAgentProperty κ β) (agent : Option AgentObject) (bb : Dictionary) :
    (self.property_name = "" →
        BTCheckAgentProperty._tick perform_check get_value self agent bb = some FAILURE)
    ∧ (self.value = none →
        BTCheckAgentProperty._tick perform_check get_value self agent bb = some FAILURE)
    ∧ (∀ a, agent = some a → a.lookup self.property_name = none →
        BTCheckAgentProperty._tick perform_check get_value self agent bb = some FAILURE)
    ∧ (∀ a v left, self.property_name ≠ "" → self.value = some v → agent = some a →
        a.lookup self.property_name = some left →
        BTCheckAgentProperty._tick perform_check get_value self agent bb
          = some (if perform_check self.check_type left (get_value v agent bb) = true
              then SUCCESS else FAILURE))
    ∧ BTCheckAgentProperty._tick perform_check get_value self agent bb ≠ some RUNNING
    ∧ BTCheckAgentProperty._tick perform_check get_value self agent bb ≠ some FRESH := by
  refine ⟨?_, ?_, ?_, ?_, ?_, ?_⟩
  · intro hn
    simp [BTCheckAgentProperty._tick, hn]
  · intro hv
    simp [BTCheckAgentProperty._tick, hv]
  · intro a ha hl
    subst ha
    unfold BTCheckAgentProperty._tick
    by_cases hn : self.property_name = ""
    · simp [hn]
    · cases hv : self.value with
      | none => simp [hn]
      | some v => simp [hn, hl]
  · intro a v left hn hv ha hl
    subst ha
    simp [BTCheckAgentProperty._tick, hn, hv, hl]
  · unfold BTCheckAgentProperty._tick
    by_cases hn : self.property_name = ""
    · simp [hn]
    · cases hv : self.value with
      | none => simp [hn]
      | some v =>
        cases ha : agent with
        | none => simp [hn]
        | some a =>
          cases hl : a.lookup self.property_name with
          | none => simp [hn, hl]
          | some left =>
            simp only [hn, hl, if_false]
            split_ifs <;> decide
  · unfold BTCheckAgentProperty._tick
    by_cases hn : self.property_name = ""
    · simp [hn]
    · cases hv : self.value with
      | none => simp [hn]
      | some v =>
        cases ha : agent with
        | none => simp [hn]
        | some a =>
          cases hl : a.lookup self.property_name with
          | none => simp [hn, hl]
          | some left =>
            simp only [hn, hl, if_false]
            split_ifs <;> decide

/-- C19 on an agent with property "hp" = 5, checked for equality (`perform_check` taken
as equality of the two values) against the saved value 5, then 6, and on an agent without
the property. -/
theorem check_agent_property_tick_witness :
    BTCheckAgentProperty._tick (fun (_ : Unit) l r => decide (l = r)) (fun v _ _ => v)
        ⟨"hp", (), some (Variant.int 5)⟩ (some [("hp", Variant.int 5)]) [] = some SUCCESS
    ∧ BTCheckAgentProperty._tick (fun (_ : Unit) l r => decide (l = r)) (fun v _ _ => v)
        ⟨"hp", (), some (Variant.int 6)⟩ (some [("hp", Variant.int 5)]) [] = some FAILURE
    ∧ BTCheckAgentProperty._tick (fun (_ : Unit) l r => decide (l = r)) (fun v _ _ => v)
        ⟨"hp", (), some (Variant.int 5)⟩ (some [("mp", Variant.int 5)]) [] = some FAILURE
    ∧ BTCheckAgentProperty._tick (fun (_ : Unit) l r => decide (l = r)) (fun v _ _ => v)
        ⟨"", (), some (Variant.int 5)⟩ (some [("hp", Variant.int 5)]) [] = some FAILURE
    ∧ BTCheckAgentProperty._tick (fun (_ : Unit) l r => decide (l = r)) (fun v _ _ => v)
        ⟨"hp", (), (none : Option Variant)⟩ (some [("hp", Variant.int 5)]) [] = some FAILURE :=
  ⟨((check_agent_property_tick (fun (_ : Unit) l r => decide (l = r)) (fun v _ _ => v)
      ⟨"hp", (), some (Variant.int 5)⟩ (some [("hp", Variant.int 5)]) []).2.2.2.1
        [("hp", Variant.int 5)] (Variant.int 5) (Variant.int 5) (by decide) rfl rfl rfl).trans
      (by decide),
    by decide, by decide, by decide, by decide⟩


/-! ## Binding agent and blackboard (C14, C15) -/

theorem initialize_children_fst (a : Option Nat) (bb : Dictionary) (i : Nat)
    (cs : List BTTask) :
    (initialize_children a bb i cs).1 = cs.map (fun c => ( BTTask.initialize a bb c).1) := by
  induction cs generalizing i with
  | nil => simp [initialize_children]
  | cons c cs ih => simp [initialize_children, ih]

/-- C14: after binding `agent` and `blackboard` on a task, at every position of its
subtree sits the task that was there with `_agent` and `_blackboard` set to the two
values and every other field as before (status, parent, `custom_name`, and the rest),
with the same number of children; the subtree has no other positions. -/
theorem initialize_binds_subtree (a : Option Nat) (bb : Dictionary) (t : BTTask) :
    ∀ p : List Nat,
      (( BTTask.initialize a bb t).1.node_at p).map (fun n => (n.data, n.get_child_count))
        = (t.node_at p).map
            (fun n => ({ n.data with _agent := a, _blackboard := bb }, n.get_child_count)) := by
  induction t using BTTask.induct with
  | h d cs ih =>
    intro p
    cases p with
    | nil =>
      simp [ BTTask.initialize, initialize_children_fst, BTTask.node_at, BTTask.data,
        BTTask.get_child_count, BTTask.children]
    | cons i p =>
      simp only [ BTTask.initialize, initialize_children_fst, BTTask.node_at, BTTask.children,
        List.getElem?_map]
      cases hi : cs[i]? with
      | none => simp
      | some c =>
        simp only [Option.map_some']
        exact ih c (List.getElem?_mem hi) p

theorem initialize_children_trace (a : Option Nat) (bb : Dictionary) (cs : List BTTask)
    (ih : ∀ c ∈ cs, ( BTTask.initialize a bb c).2 = c.postorder.map (setup_call a bb))
    (i : Nat) :
    (initialize_children a bb i cs).2 = (postorder_children i cs).map (setup_call a bb) := by
  induction cs generalizing i with
  | nil => simp [initialize_children, postorder_children]
  | cons c cs ihcs =>
    simp only [initialize_children, postorder_children, List.map_append]
    rw [ih c (List.mem_cons_self _ _),
      ihcs (fun x hx => ih x (List.mem_cons_of_mem _ hx)) (i + 1)]
    congr 1
    simp only [List.map_map]
    rfl

/-- The `_setup` calls of a binding: one per task of the subtree, in post-order, each
seeing the agent and blackboard being bound. -/
theorem initialize_trace (a : Option Nat) (bb : Dictionary) (t : BTTask) :
    ( BTTask.initialize a bb t).2 = t.postorder.map (setup_call a bb) := by
  induction t using BTTask.induct with
  | h d cs ih =>
    simp only [ BTTask.initialize, BTTask.postorder, List.map_append]
    rw [initialize_children_trace a bb cs ih 0]
    rfl

theorem postorder_children_count (cs : List BTTask)
    (ih : ∀ c ∈ cs, ∀ p, c.postorder.countP (fun pn => decide (pn.1 = p))
      = if (c.node_at p).isSome then 1 else 0) (i : Nat) :
    (postorder_children i cs).countP (fun pn => decide (pn.1 = [])) = 0
    ∧ ∀ j p, (postorder_children i cs).countP (fun pn => decide (pn.1 = j :: p))
        = if j < i then 0 else
            match cs[j - i]? with
            | some c => if (c.node_at p).isSome then 1 else 0
            | none => 0 := by
  induction cs generalizing i with
  | nil => exact ⟨by simp [postorder_children], fun j p => by simp [postorder_children]⟩
  | cons c cs ihcs =>
    obtain ⟨h0, hj⟩ := ihcs (fun x hx => ih x (List.mem_cons_of_mem _ hx)) (i + 1)
    refine ⟨?_, ?_⟩
    · simp only [postorder_children, List.countP_append, h0, add_zero, List.countP_map]
      rw [List.countP_eq_zero]
      intro pn _
      simp
    · intro j p
      simp only [postorder_children, List.countP_append, hj, List.countP_map]
      have hfirst : List.countP ((fun pn : List Nat × BTTask => decide (pn.1 = j :: p))
            ∘ fun pn => (i :: pn.1, pn.2)) c.postorder
          = if j = i then (if (c.node_at p).isSome then 1 else 0) else 0 := by
        by_cases hji : j = i
        · subst hji
          rw [if_pos rfl, ← ih c (List.mem_cons_self _ _) p]
          congr 1
          funext pn
          simp
        · rw [if_neg hji, List.countP_eq_zero]
          intro pn _
          simp
          intro h1
          exact absurd h1.symm hji
      rw [hfirst]
      by_cases h1 : j < i
      · have h2 : j ≠ i := by omega
        have h3 : j < i + 1 := by omega
        simp [h1, h2, h3]
      · by_cases h2 : j = i
        · subst h2
          simp
        · have h3 : ¬ j < i + 1 := by omega
          obtain ⟨m, hm⟩ : ∃ m, j - i = m + 1 := ⟨j - i - 1, by omega⟩
          have h4 : j - (i + 1) = m := by omega
          simp [h1, h2, h3, hm, h4]

/-- The post-order listing has each position of the subtree once and no other. -/
theorem postorder_count (t : BTTask) :
    ∀ p, t.postorder.countP (fun pn => decide (pn.1 = p))
      = if (t.node_at p).isSome then 1 else 0 := by
  induction t using BTTask.induct with
  | h d cs ih =>
    obtain ⟨h0, hj⟩ := postorder_children_count cs ih 0
    intro p
    cases p with
    | nil => simp [BTTask.postorder, List.countP_append, h0, BTTask.node_at]
    | cons j p =>
      simp only [BTTask.postorder, List.countP_append, hj, BTTask.node_at, BTTask.children]
      simp only [Nat.not_lt_zero, if_false, Nat.sub_zero]
      have hown : List.countP (fun pn : List Nat × BTTask => decide (pn.1 = j :: p))
          [([], BTTask.mk d cs)] = 0 := by simp
      rw [hown, add_zero]
      rcases Option.eq_none_or_eq_some (cs[j]?) with hcj | ⟨c, hcj⟩
      · simp [hcj]
      · simp [hcj]

/-- C15: binding invokes `_setup` exactly once on every task of the subtree and on
nothing else, in post-order (children in index order, every descendant before its
ancestor), and each call finds the agent and the blackboard of the call already bound on
the task that receives it. -/
theorem initialize_setup_postorder (a : Option Nat) (bb : Dictionary) (t : BTTask) :
    ( BTTask.initialize a bb t).2
      = t.postorder.map (fun pn =>
          (⟨⟨pn.1, .setup, script_has pn.2.data.script .setup⟩, a, bb⟩ : SetupCall))
    ∧ (∀ p n, (p, n) ∈ t.postorder ↔ t.node_at p = some n)
    ∧ (∀ p, calls_at p .setup (( BTTask.initialize a bb t).2.map SetupCall.event)
        = if (t.node_at p).isSome then 1 else 0)
    ∧ (∀ s ∈ ( BTTask.initialize a bb t).2,
        s.event.hook = .setup ∧ s.agent = a ∧ s.blackboard = bb) := by
  refine ⟨initialize_trace a bb t, postorder_mem t, ?_, ?_⟩
  · intro p
    rw [initialize_trace, ← postorder_count t p]
    unfold calls_at
    rw [List.countP_map, List.countP_map]
    congr 1
    funext pn
    simp [setup_call]
  · intro s hs
    rw [initialize_trace] at hs
    obtain ⟨pn, _, rfl⟩ := List.mem_map.mp hs
    exact ⟨rfl, rfl, rfl⟩


/-! ## The object table: reading after a write -/

theorem Forest.length_update (h : Forest) (a : Nat) (f : TaskObj → TaskObj) :
    (h.update a f).length = h.length := by
  unfold Forest.update
  cases h[a]? <;> simp

theorem Forest.getElem?_update (h : Forest) (a j : Nat) (f : TaskObj → TaskObj) :
    (h.update a f)[j]? = if j = a then (h[a]?).map f else h[j]? := by
  unfold Forest.update
  cases ha : h[a]? with
  | none =>
    by_cases hja : j = a
    · subst hja; simp [ha]
    · simp [hja]
  | some o =>
    by_cases hja : j = a
    · subst hja
      have hlt : j < h.length := by
        rcases Nat.lt_or_ge j h.length with hlt | hge
        · exact hlt
        · rw [List.getElem?_eq_none hge] at ha; cases ha
      simp [List.getElem?_set, hlt]
    · have hne : a ≠ j := fun e => hja e.symm
      simp [hja, List.getElem?_set_ne hne]

theorem Forest.length_set_parent (h : Forest) (a : Nat) (p : Option Nat) :
    (h.set_parent a p).length = h.length :=
  Forest.length_update h a _

theorem Forest.getElem?_set_parent (h : Forest) (a j : Nat) (p : Option Nat) :
    (h.set_parent a p)[j]?
      = if j = a then (h[a]?).map (fun o => { o with d := { o.d with _parent := p } })
        else h[j]? :=
  Forest.getElem?_update h a j _

theorem lt_length_of_getElem? {h : Forest} {a : Nat} {o : TaskObj} (ha : h[a]? = some o) :
    a < h.length := by
  rcases Nat.lt_or_ge a h.length with hlt | hge
  · exact hlt
  · rw [List.getElem?_eq_none hge] at ha; cases ha

/-! ## Assembly errors (C16, C17) -/

/-- C16: when `c` already has a parent (the receiver `p` or any other task), both
`add_child(c)` and `add_child_at_index(c, i)` on `p` report the error and leave the whole
table as it was: the children of `p`, the parent of `c`, the children of that parent, and
everything else. -/
theorem add_child_of_parented_fails (h : Forest) (p c : Nat) (op oc : TaskObj) (i : Int)
    (hp : h[p]? = some op) (hc : h[c]? = some oc) (hpar : oc.d._parent.isSome = true) :
    h.add_child p c = some (h, true) ∧ h.add_child_at_index p c i = some (h, true) := by
  constructor
  · simp [Forest.add_child, hp, hc, hpar]
  · simp [Forest.add_child_at_index, hp, hc, hpar]

/-- C16 on the sample table: "a" (object 2, child of object 1) is refused by "c" (object
4) and by its own parent (object 1). -/
theorem add_child_of_parented_fails_witness :
    (sample_forest.add_child 4 2 = some (sample_forest, true)
      ∧ sample_forest.add_child_at_index 4 2 0 = some (sample_forest, true))
    ∧ (sample_forest.add_child 1 2 = some (sample_forest, true)
      ∧ sample_forest.add_child_at_index 1 2 (-1) = some (sample_forest, true)) :=
  ⟨add_child_of_parented_fails sample_forest 4 2 _ _ 0 rfl rfl rfl,
    add_child_of_parented_fails sample_forest 1 2 _ _ (-1) rfl rfl rfl⟩

theorem vector_find_eq_none (x : Nat) (l : List Nat) : vector_find x l = none ↔ x ∉ l := by
  induction l with
  | nil => simp [vector_find]
  | cons y ys ih =>
    unfold vector_find
    by_cases hy : y = x
    · simp [hy]
    · have hxy : ¬ x = y := fun e => hy e.symm
      simp [hy, hxy, ih]

theorem vector_find_eraseIdx (x : Nat) (l : List Nat) (i : Nat)
    (h : vector_find x l = some i) : l.eraseIdx i = l.erase x := by
  induction l generalizing i with
  | nil => simp [vector_find] at h
  | cons y ys ih =>
    unfold vector_find at h
    by_cases hy : y = x
    · simp only [hy, if_true, Option.some.injEq] at h
      subst h
      simp [hy]
    · simp only [hy, if_false] at h
      cases hf : vector_find x ys with
      | none => simp [hf] at h
      | some j =>
        simp only [hf, Option.map_some', Option.some.injEq] at h
        subst h
        have hbeq : (y == x) = false := by simpa using hy
        simp [List.erase_cons, hbeq, ih j hf]

/-- C17: `remove_child(c)` on `p` when `c` is not among the children of `p` reports the
error and leaves the whole table as it was (so `c` keeps its parent).  When `c` is among
them, no error is reported and the table changes in two places only: the first
occurrence of `c` is erased from the children of `p` (the others keep their relative
order, and `c` is gone if it occurred once), and the parent of `c` becomes absent. -/
theorem remove_child_spec (h : Forest) (p c : Nat) (op : TaskObj) (hp : h[p]? = some op) :
    (c ∉ op._children → h.remove_child p c = some (h, true))
    ∧ (c ∈ op._children → ∃ h2, h.remove_child p c = some (h2, false)
        ∧ h2.length = h.length
        ∧ (∀ a, h2[a]? = (h[a]?).map (fun o =>
            (⟨{ o.d with _parent := if a = c then none else o.d._parent },
              if a = p then o._children.erase c else o._children⟩ : TaskObj)))
        ∧ (op._children.erase c).Sublist op._children
        ∧ (op._children.erase c).length + 1 = op._children.length
        ∧ (op._children.count c = 1 → c ∉ op._children.erase c)) := by
  constructor
  · intro hc
    simp [Forest.remove_child, hp, (vector_find_eq_none c op._children).mpr hc]
  · intro hc
    cases hf : vector_find c op._children with
    | none => exact absurd hc ((vector_find_eq_none c op._children).mp hf)
    | some idx =>
      have herase := vector_find_eraseIdx c op._children idx hf
      refine ⟨(h.update p (fun o => { o with _children := o._children.eraseIdx idx })).set_parent
          c none, by simp only [Forest.remove_child, hp, hf], ?_, ?_, List.erase_sublist _ _,
        ?_, ?_⟩
      · rw [Forest.length_set_parent, Forest.length_update]
      · intro a
        rw [Forest.getElem?_set_parent, Forest.getElem?_update, Forest.getElem?_update]
        by_cases hac : a = c
        · subst hac
          by_cases hap : a = p
          · subst hap
            simp [hp, herase]
          · simp only [hap, if_false, if_true]
        · by_cases hap : a = p
          · subst hap
            simp [hac, hp, herase]
          · simp only [hac, hap, if_false]
            cases h[a]? <;> simp
      · rw [List.length_erase_of_mem hc]
        have : 0 < op._children.length := List.length_pos_of_mem hc
        omega
      · intro hcount hmem
        have h1 : (op._children.erase c).count c = 0 := by
          rw [List.count_erase_self, hcount]
        exact (List.count_eq_zero.mp h1) hmem

/-- C17 on the sample table: removing "b" (object 3) from "seq" (object 1) leaves the
children `[2]` and "b" without parent; removing "c" (object 4) from "seq", which does not
hold it, reports the error and changes nothing. -/
theorem remove_child_spec_witness :
    ((sample_forest.remove_child 1 3).map
        (fun r => (r.1.map (fun o => (o.d._parent, o._children)), r.2))
      = some ([(none, []), (none, [2]), (some 1, []), (none, [4]), (some 3, [])], false)
      ∧ sample_forest.remove_child 1 4 = some (sample_forest, true))
    ∧ ((4 ∉ [2, 3] → sample_forest.remove_child 1 4 = some (sample_forest, true))
      ∧ (4 ∈ [2, 3] → ∃ h2, sample_forest.remove_child 1 4 = some (h2, false)
        ∧ h2.length = sample_forest.length
        ∧ (∀ a, h2[a]? = (sample_forest[a]?).map (fun o =>
            (⟨{ o.d with _parent := if a = 4 then none else o.d._parent },
              if a = 1 then o._children.erase 4 else o._children⟩ : TaskObj)))
        ∧ (([2, 3] : List Nat).erase 4).Sublist [2, 3]
        ∧ (([2, 3] : List Nat).erase 4).length + 1 = ([2, 3] : List Nat).length
        ∧ (([2, 3] : List Nat).count 4 = 1 → 4 ∉ ([2, 3] : List Nat).erase 4))) :=
  ⟨⟨by decide, rfl⟩, remove_child_spec sample_forest 1 4 ⟨_, [2, 3]⟩ rfl⟩


/-! ## Acyclicity and `add_child` (C20) -/

theorem get_root_zero (h : Forest) (a : Nat) :
    h.get_root 0 a = match parent_at h a with
      | some none => some a
      | _ => none := by
  unfold Forest.get_root parent_at
  cases h[a]? with
  | none => rfl
  | some o => cases hq : o.d._parent <;> simp [hq]

theorem get_root_succ (h : Forest) (f a : Nat) :
    h.get_root (f + 1) a = match parent_at h a with
      | some none => some a
      | some (some q) => h.get_root f q
      | none => none := by
  rw [Forest.get_root]
  unfold parent_at
  cases h[a]? with
  | none => rfl
  | some o => cases hq : o.d._parent <;> simp [hq]

/-- More turns of the loop of `get_root` do not change a result already reached. -/
theorem get_root_mono (h : Forest) (f : Nat) :
    ∀ (g a r : Nat), h.get_root f a = some r → h.get_root (f + g) a = some r := by
  induction f with
  | zero =>
    intro g a r hr
    rw [get_root_zero] at hr
    cases g with
    | zero => rw [Nat.add_zero, get_root_zero]; exact hr
    | succ g =>
      rw [show 0 + (g + 1) = g + 1 by omega, get_root_succ]
      cases hp : parent_at h a with
      | none => simp [hp] at hr
      | some q =>
        cases q with
        | none => simpa [hp] using hr
        | some q => simp [hp] at hr
  | succ f ih =>
    intro g a r hr
    rw [get_root_succ] at hr
    rw [show f + 1 + g = (f + g) + 1 by omega, get_root_succ]
    cases hp : parent_at h a with
    | none => simp [hp] at hr
    | some q =>
      cases q with
      | none => simpa [hp] using hr
      | some q =>
        simp only [hp] at hr ⊢
        exact ih g q r hr

/-- Giving the parentless object `c` the parent `p` does not disturb a walk to a root other
than `c`. -/
theorem get_root_avoiding (h h2 : Forest) (c : Nat)
    (hsame : ∀ a, a ≠ c → parent_at h2 a = parent_at h a)
    (hc : parent_at h c = some none) (f : Nat) :
    ∀ (a r : Nat), h.get_root f a = some r → r ≠ c → h2.get_root f a = some r := by
  induction f with
  | zero =>
    intro a r hr hne
    rw [get_root_zero] at hr ⊢
    have hac : a ≠ c := by
      rintro rfl
      simp [hc] at hr
      exact hne hr.symm
    rw [hsame a hac]
    exact hr
  | succ f ih =>
    intro a r hr hne
    rw [get_root_succ] at hr ⊢
    have hac : a ≠ c := by
      rintro rfl
      simp [hc] at hr
      exact hne hr.symm
    rw [hsame a hac]
    cases hp : parent_at h a with
    | none => simp [hp] at hr
    | some q =>
      cases q with
      | none => simpa [hp] using hr
      | some q =>
        simp only [hp] at hr ⊢
        exact ih q r hr hne

/-- A walk that ended at `c` goes on, once `c` has the parent `p`, to the root of `p`. -/
theorem get_root_through (h h2 : Forest) (c p : Nat)
    (hsame : ∀ a, a ≠ c → parent_at h2 a = parent_at h a)
    (hc : parent_at h c = some none) (hc2 : parent_at h2 c = some (some p))
    (g r : Nat) (hp : h2.get_root g p = some r) (f : Nat) :
    ∀ a, h.get_root f a = some c → h2.get_root (f + g + 1) a = some r := by
  induction f with
  | zero =>
    intro a ha
    rw [get_root_zero] at ha
    have hac : a = c := by
      cases hq : parent_at h a with
      | none => simp [hq] at ha
      | some q =>
        cases q with
        | none => simpa [hq] using ha
        | some q => simp [hq] at ha
    subst hac
    rw [show 0 + g + 1 = g + 1 by omega, get_root_succ, hc2]
    exact hp
  | succ f ih =>
    intro a ha
    by_cases hac : a = c
    · subst hac
      rw [show f + 1 + g + 1 = (g + (f + 1)) + 1 by omega, get_root_succ, hc2]
      exact get_root_mono h2 g (f + 1) p r hp
    · rw [get_root_succ] at ha
      rw [show f + 1 + g + 1 = (f + g + 1) + 1 by omega, get_root_succ, hsame a hac]
      cases hq : parent_at h a with
      | none => simp [hq] at ha
      | some q =>
        cases q with
        | none =>
          simp only [hq, Option.some.injEq] at ha
          exact absurd ha hac
        | some q =>
          simp only [hq] at ha ⊢
          exact ih q ha

/-- A table that differs from an acyclic one by the parent `p` given to the parentless
`c` is acyclic, when the root of `p` is not `c`. -/
theorem acyclic_of_reparent (h h2 : Forest) (c p : Nat) (hlen : h2.length = h.length)
    (hsame : ∀ a, a ≠ c → parent_at h2 a = parent_at h a)
    (hc : parent_at h c = some none) (hc2 : parent_at h2 c = some (some p))
    (hpl : p < h.length) (hac : h.acyclic)
    (hroot : ∀ fuel, h.get_root fuel p ≠ some c) : h2.acyclic := by
  intro a ha
  rw [hlen] at ha
  obtain ⟨g, rp, hg⟩ := hac p hpl
  have hrp : rp ≠ c := fun e => hroot g (e ▸ hg)
  have hg2 := get_root_avoiding h h2 c hsame hc g p rp hg hrp
  obtain ⟨f, ra, hf⟩ := hac a ha
  by_cases hra : ra = c
  · subst hra
    exact ⟨f + g + 1, rp, get_root_through h h2 ra p hsame hc hc2 g rp hg2 f a hf⟩
  · exact ⟨f, ra, get_root_avoiding h h2 c hsame hc f a ra hf hra⟩


theorem parent_at_update_keep (h : Forest) (a j : Nat) (f : TaskObj → TaskObj)
    (hf : ∀ o, (f o).d._parent = o.d._parent) :
    parent_at (h.update a f) j = parent_at h j := by
  unfold parent_at
  rw [Forest.getElem?_update]
  by_cases hja : j = a
  · subst hja
    cases h[j]? <;> simp [hf]
  · simp [hja]

theorem parent_at_set_parent (h : Forest) (a j : Nat) (p : Option Nat) :
    parent_at (h.set_parent a p) j
      = if j = a then (h[a]?).map (fun _ => p) else parent_at h j := by
  unfold parent_at
  rw [Forest.getElem?_set_parent]
  by_cases hja : j = a
  · subst hja
    cases h[j]? <;> simp
  · simp [hja]

/-- C20 (amended): `add_child(c)` and `add_child_at_index(c, i)` on `p` keep an acyclic
table acyclic, on the success and on the failure path, whenever `c` is not the root of
the tree of `p` (the task that `get_root` reaches from `p`). -/
theorem add_child_keeps_acyclic (h : Forest) (p c : Nat) (i : Int) (hp : p < h.length)
    (hc : c < h.length) (hac : h.acyclic) (hroot : ∀ fuel, h.get_root fuel p ≠ some c) :
    (∃ h2 e, h.add_child p c = some (h2, e) ∧ h2.acyclic)
    ∧ (∃ h2 e, h.add_child_at_index p c i = some (h2, e) ∧ h2.acyclic) := by
  obtain ⟨op, hop⟩ : ∃ op, h[p]? = some op := ⟨h[p], List.getElem?_eq_getElem hp⟩
  obtain ⟨oc, hoc⟩ : ∃ oc, h[c]? = some oc := ⟨h[c], List.getElem?_eq_getElem hc⟩
  cases hpar : oc.d._parent with
  | some q =>
    exact ⟨⟨h, true, by simp [Forest.add_child, hop, hoc, hpar], hac⟩,
      ⟨h, true, by simp [Forest.add_child_at_index, hop, hoc, hpar], hac⟩⟩
  | none =>
    have hcroot : parent_at h c = some none := by simp [parent_at, hoc, hpar]
    constructor
    · refine ⟨_, false, by simp [Forest.add_child, hop, hoc, hpar]; rfl, ?_⟩
      refine acyclic_of_reparent h _ c p ?_ ?_ hcroot ?_ hp hac hroot
      · rw [Forest.length_update, Forest.length_set_parent]
      · intro a hne
        have hk := parent_at_update_keep (h.set_parent c (some p)) p a
          (fun o => { o with _children := o._children ++ [c] }) (fun _ => rfl)
        rw [hk, parent_at_set_parent]
        simp [hne]
      · have hk := parent_at_update_keep (h.set_parent c (some p)) p c
          (fun o => { o with _children := o._children ++ [c] }) (fun _ => rfl)
        rw [hk, parent_at_set_parent]
        simp [hoc]
    · refine ⟨_, false, by simp [Forest.add_child_at_index, hop, hoc, hpar]; rfl, ?_⟩
      refine acyclic_of_reparent h _ c p ?_ ?_ hcroot ?_ hp hac hroot
      · rw [Forest.length_set_parent, Forest.length_update]
      · intro a hne
        rw [parent_at_set_parent, if_neg hne]
        exact parent_at_update_keep h p a _ (fun _ => rfl)
      · rw [parent_at_set_parent, if_pos rfl, Forest.getElem?_update]
        by_cases hcp : c = p
        · subst hcp; simp [hoc]
        · simp [hcp, hoc]

theorem sample_forest_acyclic : sample_forest.acyclic := by
  intro a ha
  have h5 : a < 5 := ha
  interval_cases a
  · exact ⟨0, 0, rfl⟩
  · exact ⟨0, 1, rfl⟩
  · exact ⟨1, 1, rfl⟩
  · exact ⟨1, 1, rfl⟩
  · exact ⟨2, 1, rfl⟩

/-- C20 on the sample table with `p` = "c" (object 4) and `c` = "other" (object 0), a
parentless task outside the tree of `p`: the table stays acyclic; and with `c` = "a"
(object 2), which has a parent: the call fails and the table stays acyclic. -/
theorem add_child_keeps_acyclic_witness :
    ((∃ h2 e, sample_forest.add_child 4 0 = some (h2, e) ∧ h2.acyclic)
      ∧ (∃ h2 e, sample_forest.add_child_at_index 4 0 0 = some (h2, e) ∧ h2.acyclic))
    ∧ ((∃ h2 e, sample_forest.add_child 4 2 = some (h2, e) ∧ h2.acyclic)
      ∧ (∃ h2 e, sample_forest.add_child_at_index 4 2 0 = some (h2, e) ∧ h2.acyclic)) :=
  ⟨add_child_keeps_acyclic sample_forest 4 0 0 (by decide) (by decide) sample_forest_acyclic
      (fun fuel => by
        have h1 : sample_forest.get_root 2 4 = some 1 := rfl
        intro h2
        have h3 := get_root_mono sample_forest fuel 2 4 0 h2
        have h4 := get_root_mono sample_forest 2 fuel 4 1 h1
        rw [show fuel + 2 = 2 + fuel by omega, h4] at h3
        cases h3),
    add_child_keeps_acyclic sample_forest 4 2 0 (by decide) (by decide) sample_forest_acyclic
      (fun fuel => by
        have h1 : sample_forest.get_root 2 4 = some 1 := rfl
        intro h2
        have h3 := get_root_mono sample_forest fuel 2 4 2 h2
        have h4 := get_root_mono sample_forest 2 fuel 4 1 h1
        rw [show fuel + 2 = 2 + fuel by omega, h4] at h3
        cases h3)⟩

/-- C20 as stated fails on the sample table: it is acyclic, "seq" (object 1) is the
parentless root of the tree of "a" (object 2), `add_child` of "seq" on "a" succeeds, and
afterwards "seq" and "a" are each other's parent: no walk from them reaches a root. -/
theorem add_child_makes_cycle :
    sample_forest.acyclic
    ∧ ∃ h2, sample_forest.add_child 2 1 = some (h2, false)
      ∧ parent_at h2 1 = some (some 2) ∧ parent_at h2 2 = some (some 1)
      ∧ ¬ h2.acyclic := by
  refine ⟨sample_forest_acyclic,
    (sample_forest.set_parent 1 (some 2)).update 2
      (fun o => { o with _children := o._children ++ [1] }), rfl, rfl, rfl, ?_⟩
  intro hac
  obtain ⟨fuel, r, hr⟩ := hac 1 (by decide)
  have hloop : ∀ f : Nat,
      ((sample_forest.set_parent 1 (some 2)).update 2
        (fun o => { o with _children := o._children ++ [1] })).get_root f 1 = none
      ∧ ((sample_forest.set_parent 1 (some 2)).update 2
        (fun o => { o with _children := o._children ++ [1] })).get_root f 2 = none := by
    intro f
    induction f with
    | zero => exact ⟨rfl, rfl⟩
    | succ f ih =>
      constructor
      · rw [get_root_succ]
        exact ih.2
      · rw [get_root_succ]
        exact ih.1
  rw [(hloop fuel).1] at hr
  cases hr


/-! ## `clone` on the object table: fuel -/

/-- One more unit of fuel does not change a result of `clone` or of its loop. -/
theorem clone_fuel_succ (k0 : Int) (f : Nat) :
    (∀ h a r, Forest.clone k0 f h a = some r → Forest.clone k0 (f + 1) h a = some r)
    ∧ (∀ h this inst i r, Forest.clone_loop k0 f h this inst i = some r →
        Forest.clone_loop k0 (f + 1) h this inst i = some r) := by
  induction f with
  | zero =>
    constructor
    · intro h a r hr; simp [Forest.clone] at hr
    · intro h this inst i r hr; simp [Forest.clone_loop] at hr
  | succ f ih =>
    obtain ⟨ih1, ih2⟩ := ih
    constructor
    · intro h a r hr
      rw [Forest.clone] at hr ⊢
      cases hd : h.duplicate k0 a with
      | none => simp [hd] at hr
      | some x =>
        obtain ⟨h1, inst⟩ := x
        simp only [hd] at hr ⊢
        cases hl : Forest.clone_loop k0 f (h1.set_parent inst none) a inst 0 with
        | none => simp [hl] at hr
        | some h2 =>
          rw [ih2 _ _ _ _ _ hl]
          simpa [hl] using hr
    · intro h this inst i r hr
      rw [Forest.clone_loop] at hr ⊢
      cases ho : h[this]? with
      | none => simp [ho] at hr
      | some o =>
        simp only [ho] at hr ⊢
        by_cases hi : i < o._children.length
        · simp only [hi, if_true] at hr ⊢
          cases hch : o._children[i]? with
          | none => simp [hch] at hr
          | some child =>
            simp only [hch] at hr ⊢
            cases hcl : Forest.clone k0 f h child with
            | none => simp [hcl] at hr
            | some x =>
              obtain ⟨h1, c⟩ := x
              simp only [hcl] at hr
              simp only [ih1 _ _ _ hcl]
              exact ih2 _ _ _ _ _ hr
        · simpa [hi] using hr

theorem clone_fuel_le (k0 : Int) (f g : Nat) (hfg : f ≤ g) (h : Forest) (a : Nat)
    (r : Forest × Nat) (hr : Forest.clone k0 f h a = some r) :
    Forest.clone k0 g h a = some r := by
  induction g with
  | zero =>
    have : f = 0 := by omega
    subst this; exact hr
  | succ g ih =>
    rcases Nat.eq_or_lt_of_le hfg with heq | hlt
    · subst heq; exact hr
    · exact (clone_fuel_succ k0 g).1 _ _ _ (ih (by omega))

theorem clone_loop_fuel_le (k0 : Int) (f g : Nat) (hfg : f ≤ g) (h : Forest)
    (this inst i : Nat) (r : Forest) (hr : Forest.clone_loop k0 f h this inst i = some r) :
    Forest.clone_loop k0 g h this inst i = some r := by
  induction g with
  | zero =>
    have : f = 0 := by omega
    subst this; exact hr
  | succ g ih =>
    rcases Nat.eq_or_lt_of_le hfg with heq | hlt
    · subst heq; exact hr
    · exact (clone_fuel_succ k0 g).2 _ _ _ _ _ (ih (by omega))


/-! ## Identities and parents in a tree -/

theorem node_at_mk_cons (d : TaskData) (cs : List BTTask) (i : Nat) (p : List Nat) :
    (BTTask.mk d cs).node_at (i :: p) = match cs[i]? with
      | none => none
      | some c => c.node_at p := rfl

theorem within_mk (lo hi : Nat) (d : TaskData) (cs : List BTTask) :
    (BTTask.mk d cs).within lo hi ↔
      (lo ≤ d.self ∧ d.self < hi) ∧ ∀ c ∈ cs, c.within lo hi := by
  constructor
  · intro hw
    refine ⟨hw [] _ rfl, ?_⟩
    intro c hc p n hn
    obtain ⟨i, hi⟩ := List.mem_iff_getElem?.mp hc
    exact hw (i :: p) n (by rw [node_at_mk_cons, hi]; exact hn)
  · rintro ⟨hroot, hcs⟩ p n hn
    cases p with
    | nil =>
      simp only [BTTask.node_at, Option.some.injEq] at hn
      subst hn
      exact hroot
    | cons i p =>
      rw [node_at_mk_cons] at hn
      cases hi : cs[i]? with
      | none => simp [hi] at hn
      | some c =>
        simp only [hi] at hn
        exact hcs c (List.getElem?_mem hi) p n hn

theorem within_mono {lo hi lo2 hi2 : Nat} {t : BTTask} (hw : t.within lo hi)
    (hlo : lo2 ≤ lo) (hhi : hi ≤ hi2) : t.within lo2 hi2 := by
  intro p n hn
  obtain ⟨h1, h2⟩ := hw p n hn
  exact ⟨by omega, by omega⟩

theorem parents_ok_mk (d : TaskData) (cs : List BTTask) :
    (BTTask.mk d cs).parents_ok ↔ ∀ c ∈ cs, c.get_parent = some d.self ∧ c.parents_ok := by
  constructor
  · intro hok c hc
    obtain ⟨i, hi⟩ := List.mem_iff_getElem?.mp hc
    refine ⟨hok [] (.mk d cs) i c rfl hi, ?_⟩
    intro p n j x hn hx
    exact hok (i :: p) n j x (by rw [node_at_mk_cons, hi]; exact hn) hx
  · intro hcs p n j x hn hx
    cases p with
    | nil =>
      simp only [BTTask.node_at, Option.some.injEq] at hn
      subst hn
      exact (hcs x (List.getElem?_mem hx)).1
    | cons i p =>
      rw [node_at_mk_cons] at hn
      cases hi : cs[i]? with
      | none => simp [hi] at hn
      | some c =>
        simp only [hi] at hn
        exact (hcs c (List.getElem?_mem hi)).2 p n j x hn hx

theorem set_parent_self (q : Option Nat) (t : BTTask) :
    (t.set_parent q).data.self = t.data.self ∧ (t.set_parent q).children = t.children
    ∧ (t.set_parent q).get_parent = q := by
  cases t with
  | mk d cs => exact ⟨rfl, rfl, rfl⟩

theorem set_parent_within (q : Option Nat) (t : BTTask) (lo hi : Nat) (hw : t.within lo hi) :
    (t.set_parent q).within lo hi := by
  cases t with
  | mk d cs =>
    rw [within_mk] at hw
    exact (within_mk lo hi _ cs).mpr hw

theorem set_parent_parents_ok (q : Option Nat) (t : BTTask) (hok : t.parents_ok) :
    (t.set_parent q).parents_ok := by
  cases t with
  | mk d cs =>
    rw [parents_ok_mk] at hok
    exact (parents_ok_mk _ cs).mpr hok

/-- What the loop of `clone` over the children gives: the supply only grows, and every
new child lies in the part of the supply used, above `inst`, has `inst` as parent and is
right about its own descendants. -/
theorem clone_children_facts (k0 : Int) (cs : List BTTask)
    (ih : ∀ c ∈ cs, ∀ addr : Nat,
      (c.clone k0 addr).1.data.self = addr ∧ addr < (c.clone k0 addr).2
      ∧ (c.clone k0 addr).1.within addr (c.clone k0 addr).2
      ∧ (c.clone k0 addr).1.parents_ok)
    (inst : Nat) :
    ∀ addr : Nat, addr ≤ (clone_children k0 inst cs addr).2
      ∧ ∀ c ∈ (clone_children k0 inst cs addr).1,
          c.within addr (clone_children k0 inst cs addr).2
          ∧ c.get_parent = some inst ∧ c.parents_ok := by
  induction cs with
  | nil => intro addr; exact ⟨Nat.le_refl _, fun c hc => by cases hc⟩
  | cons c cs ihcs =>
    intro addr
    obtain ⟨_, hlt, hw, hok⟩ := ih c (List.mem_cons_self _ _) addr
    obtain ⟨hle, hrest⟩ := ihcs (fun x hx => ih x (List.mem_cons_of_mem _ hx)) (c.clone k0 addr).2
    simp only [clone_children]
    refine ⟨by omega, ?_⟩
    intro x hx
    rcases List.mem_cons.mp hx with rfl | hx
    · exact ⟨set_parent_within _ _ _ _ (within_mono hw (Nat.le_refl _) hle),
        (set_parent_self _ _).2.2, set_parent_parents_ok _ _ hok⟩
    · obtain ⟨h1, h2, h3⟩ := hrest x hx
      exact ⟨within_mono h1 (by omega) (Nat.le_refl _), h2, h3⟩

/-- Identities and parents in the tree `clone` returns: the top has the first identity of
the supply, all tasks have identities from the part of the supply used, the children's
subtrees lie above the top, and every task below the top has as parent the new task
that holds it. -/
theorem clone_facts (k0 : Int) (t : BTTask) :
    ∀ addr : Nat,
      (t.clone k0 addr).1.data.self = addr ∧ addr < (t.clone k0 addr).2
      ∧ (t.clone k0 addr).1.within addr (t.clone k0 addr).2
      ∧ (t.clone k0 addr).1.parents_ok := by
  induction t using BTTask.induct with
  | h d cs ih =>
    intro addr
    obtain ⟨hle, hcs⟩ := clone_children_facts k0 cs ih addr (addr + 1)
    simp only [BTTask.clone]
    refine ⟨rfl, by omega, ?_, ?_⟩
    · rw [within_mk]
      refine ⟨⟨Nat.le_refl _, by simp only [BTTask.duplicate, BTTask.data]; omega⟩, ?_⟩
      intro c hc
      exact within_mono (hcs c hc).1 (by omega) (Nat.le_refl _)
    · rw [parents_ok_mk]
      intro c hc
      exact ⟨(hcs c hc).2.1, (hcs c hc).2.2⟩


/-! ## Trees held in the object table -/

theorem stored_in_mk (h : Forest) (d : TaskData) (cs : List BTTask) :
    (BTTask.mk d cs).stored_in h ↔ h[d.self]? = some ⟨d, refs_of cs⟩ ∧ all_stored_in h cs := by
  rw [BTTask.stored_in]

theorem all_stored_in_iff (h : Forest) (cs : List BTTask) :
    all_stored_in h cs ↔ ∀ c ∈ cs, c.stored_in h := by
  induction cs with
  | nil => simp [all_stored_in]
  | cons c cs ih => simp [all_stored_in, ih]

/-- A tree held in the table is still held after writes outside the range of its
identities. -/
theorem stored_in_transfer (h h2 : Forest) (lo hi : Nat)
    (hsame : ∀ a, lo ≤ a → a < hi → h2[a]? = h[a]?) (t : BTTask) :
    t.stored_in h → t.within lo hi → t.stored_in h2 := by
  induction t using BTTask.induct with
  | h d cs ih =>
    intro hst hw
    rw [stored_in_mk, all_stored_in_iff] at hst
    rw [within_mk] at hw
    rw [stored_in_mk, all_stored_in_iff]
    refine ⟨by rw [hsame d.self hw.1.1 hw.1.2]; exact hst.1, ?_⟩
    intro c hc
    exact ih c hc (hst.2 c hc) (hw.2 c hc)

/-- The identities of a tree held in the table name objects of the table. -/
theorem stored_in_within (h : Forest) (t : BTTask) : t.stored_in h → t.within 0 h.length := by
  induction t using BTTask.induct with
  | h d cs ih =>
    intro hst
    rw [stored_in_mk, all_stored_in_iff] at hst
    rw [within_mk]
    exact ⟨⟨Nat.zero_le _, lt_length_of_getElem? hst.1⟩, fun c hc => ih c hc (hst.2 c hc)⟩

theorem stored_in_node_at (h : Forest) (t : BTTask) :
    ∀ (p : List Nat) (n : BTTask), t.stored_in h → t.node_at p = some n → n.stored_in h := by
  induction t using BTTask.induct with
  | h d cs ih =>
    intro p n hst hn
    cases p with
    | nil =>
      simp only [BTTask.node_at, Option.some.injEq] at hn
      subst hn
      exact hst
    | cons i p =>
      rw [node_at_mk_cons] at hn
      rw [stored_in_mk, all_stored_in_iff] at hst
      cases hi : cs[i]? with
      | none => simp [hi] at hn
      | some c =>
        simp only [hi] at hn
        exact ih c (List.getElem?_mem hi) p n (hst.2 c (List.getElem?_mem hi)) hn

/-- Writing the parent of the top object of a held tree: the table then holds the tree
with that parent at its top, when the identities below the top differ from the top's. -/
theorem stored_in_set_parent (h : Forest) (q : Option Nat) (d : TaskData) (cs : List BTTask)
    (hi : Nat) (hst : (BTTask.mk d cs).stored_in h)
    (hcs : ∀ c ∈ cs, c.within (d.self + 1) hi) :
    ((BTTask.mk d cs).set_parent q).stored_in (h.set_parent d.self q) := by
  rw [stored_in_mk, all_stored_in_iff] at hst
  simp only [BTTask.set_parent]
  rw [stored_in_mk, all_stored_in_iff]
  constructor
  · rw [Forest.getElem?_set_parent]
    simp [hst.1]
  · intro c hc
    refine stored_in_transfer h _ (d.self + 1) hi ?_ c (hst.2 c hc) (hcs c hc)
    intro a ha _
    rw [Forest.getElem?_set_parent]
    have : a ≠ d.self := by omega
    simp [this]

theorem set_append_length {α : Type} (l : List α) (y x : α) (ys : List α) :
    (l ++ y :: ys).set l.length x = l ++ x :: ys := by
  induction l with
  | nil => rfl
  | cons a l ih => simp [ih]

theorem refs_of_getElem? (done rest : List BTTask) (c : BTTask) :
    (refs_of (done ++ c :: rest))[done.length]? = some c.data.self := by
  unfold refs_of
  rw [List.map_append, List.map_cons]
  have h1 : done.length = (done.map (fun c => c.data.self)).length := by simp
  rw [h1, List.getElem?_append_right (Nat.le_refl _)]
  simp


/-! ## `clone` on the object table computes the tree `BTTask.clone` (C13) -/

/-- The loop of `clone`, from the point where the children `done` have been cloned (their
clones being `cl`) and `rest` remain: it ends, writes only `inst` and new objects, and
leaves in `inst` the references to the clones, which the table then holds. -/
theorem clone_loop_spec (k0 : Int) (all : List BTTask) (d dup : TaskData) (this inst : Nat)
    (ih : ∀ c ∈ all, clone_refines k0 c) (hne : this ≠ inst) :
    ∀ (rest done : List BTTask) (cl : List Nat) (hi : Forest),
      all = done ++ rest → cl.length = done.length →
      hi[this]? = some ⟨d, refs_of all⟩ →
      hi[inst]? = some ⟨dup, cl ++ refs_of rest⟩ →
      all_stored_in hi rest → (∀ c ∈ rest, c.within 0 inst) →
      ∃ fuel h2, Forest.clone_loop k0 fuel hi this inst done.length = some h2
        ∧ (∀ a, a < hi.length → a ≠ inst → h2[a]? = hi[a]?)
        ∧ h2[inst]? = some ⟨dup, cl ++ refs_of (clone_children k0 inst rest hi.length).1⟩
        ∧ all_stored_in h2 (clone_children k0 inst rest hi.length).1
        ∧ h2.length = (clone_children k0 inst rest hi.length).2 := by
  intro rest
  induction rest with
  | nil =>
    intro done cl hi hall hcl hthis hinst _ _
    refine ⟨1, hi, ?_, fun _ _ _ => rfl, by simpa [clone_children, refs_of] using hinst,
      by simp [clone_children, all_stored_in], rfl⟩
    rw [Forest.clone_loop, hthis]
    have hlen : ¬ done.length < (refs_of all).length := by
      rw [hall]; simp [refs_of]
    simp [hlen]
  | cons c rest ihrest =>
    intro done cl hi hall hcl hthis hinst hst hw
    have hinstlt : inst < hi.length := lt_length_of_getElem? hinst
    have hthislt : this < hi.length := lt_length_of_getElem? hthis
    have hcmem : c ∈ all := by rw [hall]; simp
    obtain ⟨hstc, hstrest⟩ := hst
    obtain ⟨f1, h1, hclone, hframe1, hstored1, hlen1⟩ := ih c hcmem hi hstc
    obtain ⟨hself, hlt, hwithin, _⟩ := clone_facts k0 c hi.length
    -- the two writes of the loop body
    have hchildren : ∀ x ∈ (c.clone k0 hi.length).1.children,
        x.within (hi.length + 1) (c.clone k0 hi.length).2 := by
      cases c with
      | mk dc csc =>
        intro x hx
        simp only [BTTask.clone, BTTask.children] at hx
        have hf := clone_children_facts k0 csc (fun y _ => clone_facts k0 y) hi.length
          (hi.length + 1)
        simpa [BTTask.clone] using (hf.2 x hx).1
    have hstored2 : ((c.clone k0 hi.length).1.set_parent (some inst)).stored_in
        (h1.set_parent hi.length (some inst)) := by
      cases hT : (c.clone k0 hi.length).1 with
      | mk dT csT =>
        rw [hT] at hstored1 hself hchildren
        simp only [BTTask.data] at hself
        have := stored_in_set_parent h1 (some inst) dT csT (c.clone k0 hi.length).2
          hstored1 (by rw [hself]; exact hchildren)
        rw [hself] at this
        exact this
    have hw2 : ((c.clone k0 hi.length).1.set_parent (some inst)).within hi.length h1.length := by
      rw [hlen1]; exact set_parent_within _ _ _ _ hwithin
    -- the table after the body
    obtain ⟨h3, hh3⟩ : ∃ h3, h3 = (h1.set_parent hi.length (some inst)).update inst
        (fun x => { x with _children := x._children.set done.length hi.length }) := ⟨_, rfl⟩
    have hlen3 : h3.length = h1.length := by
      rw [hh3, Forest.length_update, Forest.length_set_parent]
    have hget3 : ∀ a, a ≠ inst → h3[a]? = (h1.set_parent hi.length (some inst))[a]? := by
      intro a ha
      rw [hh3, Forest.getElem?_update, if_neg ha]
    have hold3 : ∀ a, a < hi.length → a ≠ inst → h3[a]? = hi[a]? := by
      intro a ha hne2
      rw [hget3 a hne2, Forest.getElem?_set_parent, if_neg (by omega), hframe1 a ha]
    have hthis3 : h3[this]? = some ⟨d, refs_of all⟩ := by
      rw [hold3 this hthislt hne, hthis]
    have hinst3 : h3[inst]? = some ⟨dup, (cl ++ [hi.length]) ++ refs_of rest⟩ := by
      rw [hh3, Forest.getElem?_update, if_pos rfl, Forest.getElem?_set_parent,
        if_neg (by omega), hframe1 inst hinstlt, hinst]
      simp only [Option.map_some', Option.some.injEq, TaskObj.mk.injEq, true_and]
      have : refs_of (c :: rest) = c.data.self :: refs_of rest := rfl
      rw [this, ← hcl, set_append_length]
      simp
    have hstrest3 : all_stored_in h3 rest := by
      rw [all_stored_in_iff] at hstrest ⊢
      intro x hx
      refine stored_in_transfer hi h3 0 inst ?_ x (hstrest x hx)
        (hw x (List.mem_cons_of_mem _ hx))
      intro a _ ha
      exact hold3 a (by omega) (by omega)
    have hstored3 : ((c.clone k0 hi.length).1.set_parent (some inst)).stored_in h3 := by
      refine stored_in_transfer _ h3 hi.length h1.length ?_ _ hstored2 hw2
      intro a ha _
      exact hget3 a (by omega)
    obtain ⟨f2, h4, hloop, hframe4, hinst4, hstored4, hlen4⟩ :=
      ihrest (done ++ [c]) (cl ++ [hi.length]) h3 (by rw [hall]; simp) (by simp [hcl])
        hthis3 hinst3 hstrest3 (fun x hx => hw x (List.mem_cons_of_mem _ hx))
    rw [hlen3, hlen1] at hstored4 hlen4 hinst4
    refine ⟨max f1 f2 + 1, h4, ?_, ?_, ?_, ?_, ?_⟩
    · rw [Forest.clone_loop, hthis]
      have hlt2 : done.length < (refs_of all).length := by
        rw [hall]; simp [refs_of]
      have hch : (refs_of all)[done.length]? = some c.data.self := by
        rw [hall]; exact refs_of_getElem? done rest c
      simp only [hlt2, if_true, hch,
        clone_fuel_le k0 f1 (max f1 f2) (Nat.le_max_left _ _) hi c.data.self _ hclone]
      rw [← hh3]
      have := clone_loop_fuel_le k0 f2 (max f1 f2) (Nat.le_max_right _ _) h3 this inst _ h4 hloop
      simpa using this
    · intro a ha hne2
      rw [hframe4 a (by rw [hlen3]; have := hlt; omega) hne2, hold3 a ha hne2]
    · rw [hinst4]
      simp only [clone_children, refs_of, List.map_cons, (set_parent_self _ _).1, hself]
      simp
    · simp only [clone_children, all_stored_in]
      refine ⟨?_, hstored4⟩
      refine stored_in_transfer h3 h4 hi.length h1.length ?_ _ hstored3 hw2
      intro a ha1 ha2
      exact hframe4 a (by rw [hlen3]; exact ha2) (by omega)
    · simpa [clone_children] using hlen4


/-- On every tree held in the table, `clone` on the table returns (with enough fuel),
leaves the existing objects as they were, and adds exactly the tree `BTTask.clone`
computes. -/
theorem clone_refines_all (k0 : Int) (t : BTTask) : clone_refines k0 t := by
  induction t using BTTask.induct with
  | h d cs ih =>
    intro h hst
    rw [stored_in_mk] at hst
    obtain ⟨hobj, hcs⟩ := hst
    have hlt : d.self < h.length := lt_length_of_getElem? hobj
    -- the table after `duplicate` and `_parent.unref()`
    obtain ⟨hi, hhi⟩ : ∃ hi, hi = (h ++ [(⟨d.duplicate k0 h.length, refs_of cs⟩ : TaskObj)]).set_parent
        h.length none := ⟨_, rfl⟩
    have hlen : hi.length = h.length + 1 := by
      rw [hhi, Forest.length_set_parent]; simp
    have hold : ∀ a, a < h.length → hi[a]? = h[a]? := by
      intro a ha
      rw [hhi, Forest.getElem?_set_parent, if_neg (by omega), List.getElem?_append_left ha]
    have hinst : hi[h.length]? = some ⟨d.duplicate k0 h.length, [] ++ refs_of cs⟩ := by
      rw [hhi, Forest.getElem?_set_parent, if_pos rfl, List.getElem?_concat_length]
      rfl
    have hthis : hi[d.self]? = some ⟨d, refs_of cs⟩ := by rw [hold d.self hlt, hobj]
    have hcs2 : all_stored_in hi cs := by
      rw [all_stored_in_iff] at hcs ⊢
      intro c hc
      exact stored_in_transfer h hi 0 h.length (fun a _ ha => hold a ha) c (hcs c hc)
        (stored_in_within h c (hcs c hc))
    have hw : ∀ c ∈ cs, c.within 0 h.length := by
      rw [all_stored_in_iff] at hcs
      exact fun c hc => stored_in_within h c (hcs c hc)
    obtain ⟨f, h2, hloop, hframe, hinst2, hstored, hlen2⟩ :=
      clone_loop_spec k0 cs d (d.duplicate k0 h.length) d.self h.length ih (by omega)
        cs [] [] hi rfl rfl hthis hinst hcs2 hw
    rw [hlen] at hinst2 hstored hlen2
    refine ⟨f + 1, h2, ?_, ?_, ?_, ?_⟩
    · rw [Forest.clone]
      simp only [Forest.duplicate, hobj, BTTask.data]
      rw [← hhi]
      have : Forest.clone_loop k0 f hi d.self h.length 0 = some h2 := hloop
      rw [this]
    · intro a ha
      rw [hframe a (by omega) (by omega), hold a ha]
    · simp only [BTTask.clone]
      rw [stored_in_mk]
      exact ⟨by simpa [BTTask.duplicate, BTTask.data, TaskData.duplicate] using hinst2, hstored⟩
    · simpa [BTTask.clone] using hlen2

/-- C13: `clone` called on the top of a tree held in the object table returns, the new
top being a new object.  No object that existed before the call is changed, so no task of
the source tree is.  The new objects are the tree `BTTask.clone` computes, and in it every
task `c` held at index `i` in the children of a task `n` has the object of `n` as parent:
an object made by this call, with an identity that no task of the source tree has; the
top of the new tree has no parent. -/
theorem clone_parent_pointers (k0 : Int) (h : Forest) (t : BTTask) (hst : t.stored_in h) :
    ∃ fuel h2, Forest.clone k0 fuel h t.data.self = some (h2, h.length)
      ∧ (∀ a, a < h.length → h2[a]? = h[a]?)
      ∧ (∀ p n, t.node_at p = some n → n.data.self < h.length)
      ∧ (t.clone k0 h.length).1.stored_in h2
      ∧ h2.length = (t.clone k0 h.length).2
      ∧ parent_at h2 h.length = some none
      ∧ (∀ (p : List Nat) (n : BTTask) (i : Nat) (c : BTTask),
          (t.clone k0 h.length).1.node_at p = some n → n.children[i]? = some c →
          h.length ≤ n.data.self
          ∧ ∃ obn obc, h2[n.data.self]? = some obn ∧ obn._children[i]? = some c.data.self
            ∧ h2[c.data.self]? = some obc ∧ obc.d._parent = some n.data.self) := by
  obtain ⟨fuel, h2, hclone, hframe, hstored, hlen⟩ := clone_refines_all k0 t h hst
  obtain ⟨hself, _, hwithin, hok⟩ := clone_facts k0 t h.length
  refine ⟨fuel, h2, hclone, hframe, fun p n hn => (stored_in_within h t hst p n hn).2,
    hstored, hlen, ?_, ?_⟩
  · cases hT : (t.clone k0 h.length).1 with
    | mk dT csT =>
      rw [hT] at hstored hself
      rw [stored_in_mk] at hstored
      simp only [BTTask.data] at hself
      rw [hself] at hstored
      have hpar : dT._parent = none := by
        cases t with
        | mk d cs =>
          simp only [BTTask.clone] at hT
          cases hT
          rfl
      simp [parent_at, hstored.1, hpar]
  · intro p n i c hn hc
    refine ⟨(hwithin p n hn).1, ?_⟩
    have hpc := hok p n i c hn hc
    have hstn := stored_in_node_at h2 _ p n hstored hn
    cases n with
    | mk dn csn =>
      rw [stored_in_mk, all_stored_in_iff] at hstn
      simp only [BTTask.children] at hc
      have hstc := hstn.2 c (List.getElem?_mem hc)
      cases c with
      | mk dc csc =>
        rw [stored_in_mk] at hstc
        refine ⟨_, _, hstn.1, ?_, hstc.1, hpc⟩
        simp [refs_of, List.getElem?_map, hc, BTTask.data]

/-- C13 on the sample table: `clone` called on "seq" (object 1) adds the objects 5 to 8,
each child with its new holder as parent, and leaves the objects 0 to 4 as they were. -/
theorem clone_parent_pointers_witness :
    (sample_forest.clone 0 10 1).map
        (fun r => (r.1.map (fun o => (o.d._custom_name, o.d._parent, o._children)), r.2))
      = some ([("other", none, []), ("seq", none, [2, 3]), ("a", some 1, []),
          ("b", some 1, [4]), ("c", some 3, []), ("seq", none, [6, 7]), ("a", some 5, []),
          ("b", some 5, [8]), ("c", some 7, [])], 5)
    ∧ ∃ fuel h2, Forest.clone 0 fuel sample_forest
          sample_forest_tree.data.self
          = some (h2, sample_forest.length)
      ∧ (∀ a, a < sample_forest.length → h2[a]? = sample_forest[a]?)
      ∧ (∀ p n, sample_forest_tree.node_at p = some n →
          n.data.self < sample_forest.length)
      ∧ (sample_forest_tree.clone 0
              sample_forest.length).1.stored_in h2
      ∧ h2.length = (sample_forest_tree.clone 0
              sample_forest.length).2
      ∧ parent_at h2 sample_forest.length = some none
      ∧ (∀ (p : List Nat) (n : BTTask) (i : Nat) (c : BTTask),
          (sample_forest_tree.clone 0
              sample_forest.length).1.node_at p = some n → n.children[i]? = some c →
          sample_forest.length ≤ n.data.self
          ∧ ∃ obn obc, h2[n.data.self]? = some obn ∧ obn._children[i]? = some c.data.self
            ∧ h2[c.data.self]? = some obc ∧ obc.d._parent = some n.data.self) :=
  ⟨by decide, clone_parent_pointers 0 sample_forest sample_forest_tree
    ⟨rfl, ⟨rfl, trivial⟩, ⟨rfl, ⟨rfl, trivial⟩, trivial⟩, trivial⟩⟩


/-! ## Where `add_child_at_index` puts the child (C25) -/

theorem getElem?_update_set_parent (h : Forest) (p c : Nat) (q : Option Nat)
    (f : List Nat → List Nat) (a : Nat) :
    ((h.update p (fun o => { o with _children := f o._children })).set_parent c q)[a]?
      = (h[a]?).map (rewired p c q f a) := by
  simp only [Forest.getElem?_set_parent, Forest.getElem?_update]
  by_cases hac : a = c
  · subst hac
    by_cases hap : a = p
    · subst hap
      cases h[a]? <;> simp [rewired]
    · cases h[a]? <;> simp [rewired, hap]
  · by_cases hap : a = p
    · subst hap
      cases h[a]? <;> simp [rewired, hac]
    · cases h[a]? <;> simp [rewired, hac, hap]

theorem getElem?_set_parent_update (h : Forest) (p c : Nat) (q : Option Nat)
    (f : List Nat → List Nat) (a : Nat) :
    ((h.set_parent c q).update p (fun o => { o with _children := f o._children }))[a]?
      = (h[a]?).map (rewired p c q f a) := by
  simp only [Forest.getElem?_update, Forest.getElem?_set_parent]
  by_cases hap : a = p
  · subst hap
    by_cases hac : a = c
    · subst hac
      cases h[a]? <;> simp [rewired]
    · cases h[a]? <;> simp [rewired, hac]
  · by_cases hac : a = c
    · subst hac
      cases h[a]? <;> simp [rewired, hap]
    · cases h[a]? <;> simp [rewired, hac, hap]

/-- What a successful `add_child` leaves in the table. -/
theorem add_child_objects (h : Forest) (p c : Nat) (op oc : TaskObj)
    (hp : h[p]? = some op) (hc : h[c]? = some oc) (hpar : oc.d._parent = none) :
    ∃ h2, h.add_child p c = some (h2, false)
      ∧ ∀ a, h2[a]? = (h[a]?).map (rewired p c (some p) (fun l => l ++ [c]) a) := by
  refine ⟨(h.set_parent c (some p)).update p
      (fun o => { o with _children := o._children ++ [c] }), ?_, ?_⟩
  · unfold Forest.add_child
    simp only [hp, hc, hpar]
    simp
  · intro a
    exact getElem?_set_parent_update h p c (some p) (fun l => l ++ [c]) a

/-- What a successful `add_child_at_index` leaves in the table, `idx` being the index
after the range test. -/
theorem add_child_at_index_objects (h : Forest) (p c : Nat) (op oc : TaskObj) (i : Int)
    (hp : h[p]? = some op) (hc : h[c]? = some oc) (hpar : oc.d._parent = none) :
    ∃ h2, h.add_child_at_index p c i = some (h2, false)
      ∧ ∀ a, h2[a]? = (h[a]?).map (rewired p c (some p)
          (fun l => l.take (if i < 0 ∨ i > (op._children.length : Int)
              then op._children.length else i.toNat)
            ++ c :: l.drop (if i < 0 ∨ i > (op._children.length : Int)
              then op._children.length else i.toNat)) a) := by
  refine ⟨(h.update p (fun o => ⟨o.d,
      o._children.take (if i < 0 ∨ i > (op._children.length : Int)
          then op._children.length else i.toNat)
        ++ c :: o._children.drop (if i < 0 ∨ i > (op._children.length : Int)
          then op._children.length else i.toNat)⟩)).set_parent c (some p), ?_, ?_⟩
  · unfold Forest.add_child_at_index
    simp only [hp, hc, hpar]
    simp
  · intro a
    exact getElem?_update_set_parent h p c (some p)
      (fun l => l.take (if i < 0 ∨ i > (op._children.length : Int)
          then op._children.length else i.toNat)
        ++ c :: l.drop (if i < 0 ∨ i > (op._children.length : Int)
          then op._children.length else i.toNat)) a

theorem eraseIdx_insert {α : Type} (l : List α) (x : α) (k : Nat) (hk : k ≤ l.length) :
    (l.take k ++ x :: l.drop k).eraseIdx k = l
    ∧ (l.take k ++ x :: l.drop k)[k]? = some x
    ∧ (l.take k ++ x :: l.drop k).length = l.length + 1 := by
  have hlen : (l.take k).length = k := by rw [List.length_take]; omega
  refine ⟨?_, ?_, ?_⟩
  · rw [List.eraseIdx_append_of_length_le (by omega)]
    simp [hlen]
  · rw [List.getElem?_append_right (by omega)]
    simp [hlen]
  · simp only [List.length_append, List.length_cons, List.length_take, List.length_drop]
    omega

/-- C25: for a parentless `c` and a task `p` with `n` children, `add_child_at_index(c, i)`
with `0 ≤ i ≤ n` succeeds, changes only the children of `p` and the parent of `c`, puts
`c` at index `i` (erasing that index gives back the old list, so the `n` old children keep
their order), makes the count `n + 1` and sets the parent of `c` to `p`; with `i < 0` or
`i > n` its result is the result of `add_child(c)`, `c` being appended last. -/
theorem add_child_at_index_places (h : Forest) (p c : Nat) (op oc : TaskObj) (i : Int)
    (hp : h[p]? = some op) (hc : h[c]? = some oc) (hpar : oc.d._parent = none) :
    (0 ≤ i → i ≤ (op._children.length : Int) →
      ∃ h2, h.add_child_at_index p c i = some (h2, false)
        ∧ (∀ a, h2[a]? = (h[a]?).map (fun o =>
            (⟨{ o.d with _parent := if a = c then some p else o.d._parent },
              if a = p then o._children.take i.toNat ++ c :: o._children.drop i.toNat
              else o._children⟩ : TaskObj)))
        ∧ (op._children.take i.toNat ++ c :: op._children.drop i.toNat)[i.toNat]? = some c
        ∧ (op._children.take i.toNat ++ c :: op._children.drop i.toNat).eraseIdx i.toNat
            = op._children
        ∧ (op._children.take i.toNat ++ c :: op._children.drop i.toNat).length
            = op._children.length + 1
        ∧ parent_at h2 c = some (some p))
    ∧ ((i < 0 ∨ i > (op._children.length : Int)) →
      h.add_child_at_index p c i = h.add_child p c
      ∧ ∃ h2, h.add_child p c = some (h2, false)
        ∧ (∀ a, h2[a]? = (h[a]?).map (fun o =>
            (⟨{ o.d with _parent := if a = c then some p else o.d._parent },
              if a = p then o._children ++ [c] else o._children⟩ : TaskObj)))
        ∧ parent_at h2 c = some (some p)) := by
  obtain ⟨h2, hcall, hobj⟩ := add_child_at_index_objects h p c op oc i hp hc hpar
  obtain ⟨h3, hcall3, hobj3⟩ := add_child_objects h p c op oc hp hc hpar
  constructor
  · intro h0 hn
    have hrange : ¬ (i < 0 ∨ i > (op._children.length : Int)) := by omega
    simp only [hrange, if_false] at hobj
    have hk : i.toNat ≤ op._children.length := by omega
    obtain ⟨e1, e2, e3⟩ := eraseIdx_insert op._children c i.toNat hk
    refine ⟨h2, hcall, hobj, e2, e1, e3, ?_⟩
    simp [parent_at, hobj c, hc, rewired]
  · intro hout
    simp only [hout, if_true] at hobj
    have heq : h2 = h3 := by
      apply List.ext_getElem?
      intro a
      rw [hobj a, hobj3 a]
      cases ha : h[a]? with
      | none => rfl
      | some o =>
        simp only [Option.map_some', Option.some.injEq, rewired, TaskObj.mk.injEq, true_and]
        by_cases hap : a = p
        · subst hap
          rw [hp] at ha
          cases ha
          simp
        · simp [hap]
    refine ⟨by rw [hcall, hcall3, heq], h3, hcall3, hobj3, ?_⟩
    simp [parent_at, hobj3 c, hc, rewired]

/-- C25 on the sample table: "other" (object 0, parentless) put at index 1 of "seq"
(object 1, children `[2, 3]`) gives the children `[2, 0, 3]`; at index 7, out of range,
the result is that of `add_child`, the children being `[2, 3, 0]`. -/
theorem add_child_at_index_places_witness :
    ((sample_forest.add_child_at_index 1 0 1).map
        (fun r => (r.1.map (fun o => (o.d._parent, o._children)), r.2))
      = some ([(some 1, []), (none, [2, 0, 3]), (some 1, []), (some 1, [4]), (some 3, [])],
          false)
      ∧ (sample_forest.add_child_at_index 1 0 7).map
        (fun r => (r.1.map (fun o => (o.d._parent, o._children)), r.2))
      = some ([(some 1, []), (none, [2, 3, 0]), (some 1, []), (some 1, [4]), (some 3, [])],
          false))
    ∧ (∃ h2, sample_forest.add_child_at_index 1 0 1 = some (h2, false)
        ∧ (∀ a, h2[a]? = (sample_forest[a]?).map (fun o =>
            (⟨{ o.d with _parent := if a = 0 then some 1 else o.d._parent },
              if a = 1 then o._children.take 1 ++ 0 :: o._children.drop 1
              else o._children⟩ : TaskObj)))
        ∧ ([2, 0, 3] : List Nat)[1]? = some 0
        ∧ ([2, 0, 3] : List Nat).eraseIdx 1 = [2, 3]
        ∧ ([2, 0, 3] : List Nat).length = 2 + 1
        ∧ parent_at h2 0 = some (some 1))
    ∧ (sample_forest.add_child_at_index 1 0 7 = sample_forest.add_child 1 0
      ∧ ∃ h2, sample_forest.add_child 1 0 = some (h2, false)
        ∧ (∀ a, h2[a]? = (sample_forest[a]?).map (fun o =>
            (⟨{ o.d with _parent := if a = 0 then some 1 else o.d._parent },
              if a = 1 then o._children ++ [0] else o._children⟩ : TaskObj)))
        ∧ parent_at h2 0 = some (some 1)) :=
  ⟨by decide,
    (add_child_at_index_places sample_forest 1 0 ⟨_, [2, 3]⟩ _ 1 rfl rfl rfl).1
      (by decide) (by decide),
    (add_child_at_index_places sample_forest 1 0 ⟨_, [2, 3]⟩ _ 7 rfl rfl rfl).2
      (Or.inr (by decide))⟩


/-! ## The parent-pointer invariant (C21) -/

theorem parent_at_rewired (h h2 : Forest) (p c : Nat) (q : Option Nat)
    (f : List Nat → List Nat)
    (hobj : ∀ a, h2[a]? = (h[a]?).map (rewired p c q f a)) (x : Nat) :
    parent_at h2 x = if x = c then (h[c]?).map (fun _ => q) else parent_at h x := by
  unfold parent_at
  rw [hobj x]
  by_cases hx : x = c
  · subst hx
    cases h[x]? <;> simp [rewired]
  · cases h[x]? <;> simp [rewired, hx]

theorem children_rewired (h h2 : Forest) (p c : Nat) (q : Option Nat)
    (f : List Nat → List Nat)
    (hobj : ∀ a, h2[a]? = (h[a]?).map (rewired p c q f a)) (a : Nat) (o2 : TaskObj)
    (ha : h2[a]? = some o2) :
    ∃ o, h[a]? = some o ∧ o2._children = if a = p then f o._children else o._children := by
  rw [hobj a] at ha
  cases hq : h[a]? with
  | none => rw [hq] at ha; cases ha
  | some o =>
    rw [hq] at ha
    simp only [Option.map_some', Option.some.injEq] at ha
    exact ⟨o, rfl, by rw [← ha]; rfl⟩

theorem rewired_children (h h2 : Forest) (p c : Nat) (q : Option Nat)
    (f : List Nat → List Nat)
    (hobj : ∀ a, h2[a]? = (h[a]?).map (rewired p c q f a)) (a : Nat) (o : TaskObj)
    (ha : h[a]? = some o) :
    ∃ o2, h2[a]? = some o2 ∧ o2._children = if a = p then f o._children else o._children := by
  refine ⟨rewired p c q f a o, ?_, rfl⟩
  rw [hobj a, ha]
  rfl

/-- Attaching a parentless `c` to `p` keeps the invariant, wherever `f` puts `c` in the
children of `p`. -/
theorem parent_invariant_attach (h h2 : Forest) (p c : Nat) (op oc : TaskObj)
    (f : List Nat → List Nat) (hinv : h.parent_invariant)
    (hp : h[p]? = some op) (hc : h[c]? = some oc) (hpar : oc.d._parent = none)
    (hmem : ∀ x, x ∈ f op._children ↔ x ∈ op._children ∨ x = c)
    (hnd : op._children.Nodup → c ∉ op._children → (f op._children).Nodup)
    (hobj : ∀ a, h2[a]? = (h[a]?).map (rewired p c (some p) f a)) :
    h2.parent_invariant := by
  have hpc : parent_at h c = some none := by simp [parent_at, hc, hpar]
  have hnot : ∀ (q : Nat) (oq : TaskObj), h[q]? = some oq → c ∉ oq._children := by
    intro q oq hq hin
    have := (hinv.1 q c).mp ⟨oq, hq, hin⟩
    rw [hpc] at this
    cases this
  have hpa := parent_at_rewired h h2 p c (some p) f hobj
  constructor
  · intro p1 c1
    constructor
    · rintro ⟨o2, ho2, hin⟩
      obtain ⟨o, ho, hch⟩ := children_rewired h h2 p c (some p) f hobj p1 o2 ho2
      rw [hch] at hin
      by_cases hp1 : p1 = p
      · subst hp1
        rw [hp] at ho
        cases ho
        rw [if_pos rfl] at hin
        rcases (hmem c1).mp hin with hold | hnew
        · have hne : c1 ≠ c := fun e => hnot p1 op hp (e ▸ hold)
          rw [hpa c1, if_neg hne]
          exact (hinv.1 p1 c1).mp ⟨op, hp, hold⟩
        · subst hnew
          rw [hpa c1, if_pos rfl, hc]
          rfl
      · rw [if_neg hp1] at hin
        have hne : c1 ≠ c := fun e => hnot p1 o ho (e ▸ hin)
        rw [hpa c1, if_neg hne]
        exact (hinv.1 p1 c1).mp ⟨o, ho, hin⟩
    · intro hpar1
      rw [hpa c1] at hpar1
      by_cases hc1 : c1 = c
      · subst hc1
        rw [if_pos rfl, hc] at hpar1
        simp only [Option.map_some', Option.some.injEq] at hpar1
        subst hpar1
        obtain ⟨o2, ho2, hch⟩ := rewired_children h h2 p c1 (some p) f hobj p op hp
        refine ⟨o2, ho2, ?_⟩
        rw [hch, if_pos rfl]
        exact (hmem c1).mpr (Or.inr rfl)
      · rw [if_neg hc1] at hpar1
        obtain ⟨o, ho, hin⟩ := (hinv.1 p1 c1).mpr hpar1
        obtain ⟨o2, ho2, hch⟩ := rewired_children h h2 p c (some p) f hobj p1 o ho
        refine ⟨o2, ho2, ?_⟩
        rw [hch]
        by_cases hp1 : p1 = p
        · subst hp1
          rw [hp] at ho
          cases ho
          rw [if_pos rfl]
          exact (hmem c1).mpr (Or.inl hin)
        · rw [if_neg hp1]
          exact hin
  · intro p1 o2 ho2
    obtain ⟨o, ho, hch⟩ := children_rewired h h2 p c (some p) f hobj p1 o2 ho2
    rw [hch]
    by_cases hp1 : p1 = p
    · subst hp1
      rw [hp] at ho
      cases ho
      rw [if_pos rfl]
      exact hnd (hinv.2 p1 op hp) (hnot p1 op hp)
    · rw [if_neg hp1]
      exact hinv.2 p1 o ho

/-- Detaching a child `c` of `p` keeps the invariant. -/
theorem parent_invariant_detach (h h2 : Forest) (p c : Nat) (op : TaskObj)
    (hinv : h.parent_invariant) (hp : h[p]? = some op) (hin : c ∈ op._children)
    (hobj : ∀ a, h2[a]? = (h[a]?).map (rewired p c none (fun l => l.erase c) a)) :
    h2.parent_invariant := by
  have hpc : parent_at h c = some (some p) := (hinv.1 p c).mp ⟨op, hp, hin⟩
  obtain ⟨oc, hc⟩ : ∃ oc, h[c]? = some oc := by
    unfold parent_at at hpc
    cases hq : h[c]? with
    | none => rw [hq] at hpc; cases hpc
    | some oc => exact ⟨oc, rfl⟩
  have hpa := parent_at_rewired h h2 p c none (fun l => l.erase c) hobj
  have hndp := hinv.2 p op hp
  constructor
  · intro p1 c1
    constructor
    · rintro ⟨o2, ho2, hin2⟩
      obtain ⟨o, ho, hch⟩ :=
        children_rewired h h2 p c none (fun l => l.erase c) hobj p1 o2 ho2
      rw [hch] at hin2
      by_cases hp1 : p1 = p
      · subst hp1
        rw [hp] at ho
        cases ho
        rw [if_pos rfl] at hin2
        have hmem := (List.Nodup.mem_erase_iff hndp).mp hin2
        rw [hpa c1, if_neg hmem.1]
        exact (hinv.1 p1 c1).mp ⟨op, hp, hmem.2⟩
      · rw [if_neg hp1] at hin2
        have hold := (hinv.1 p1 c1).mp ⟨o, ho, hin2⟩
        have hne : c1 ≠ c := by
          intro e
          subst e
          rw [hpc] at hold
          simp only [Option.some.injEq] at hold
          exact hp1 hold.symm
        rw [hpa c1, if_neg hne]
        exact hold
    · intro hpar1
      rw [hpa c1] at hpar1
      by_cases hc1 : c1 = c
      · subst hc1
        rw [if_pos rfl, hc] at hpar1
        cases hpar1
      · rw [if_neg hc1] at hpar1
        obtain ⟨o, ho, hino⟩ := (hinv.1 p1 c1).mpr hpar1
        obtain ⟨o2, ho2, hch⟩ :=
          rewired_children h h2 p c none (fun l => l.erase c) hobj p1 o ho
        refine ⟨o2, ho2, ?_⟩
        rw [hch]
        by_cases hp1 : p1 = p
        · subst hp1
          rw [hp] at ho
          cases ho
          rw [if_pos rfl]
          exact (List.Nodup.mem_erase_iff hndp).mpr ⟨hc1, hino⟩
        · rw [if_neg hp1]
          exact hino
  · intro p1 o2 ho2
    obtain ⟨o, ho, hch⟩ :=
      children_rewired h h2 p c none (fun l => l.erase c) hobj p1 o2 ho2
    rw [hch]
    by_cases hp1 : p1 = p
    · rw [if_pos hp1]
      exact (hinv.2 p1 o ho).erase c
    · rw [if_neg hp1]
      exact hinv.2 p1 o ho

theorem parent_invariant_of_check (h : Forest) (hck : h.check_parent_invariant = true) :
    h.parent_invariant := by
  unfold Forest.check_parent_invariant at hck
  rw [Bool.and_eq_true, List.all_eq_true, List.all_eq_true] at hck
  obtain ⟨h1, h2⟩ := hck
  constructor
  · intro p c
    constructor
    · rintro ⟨op, hp, hin⟩
      have := h1 p (List.mem_range.mpr (lt_length_of_getElem? hp))
      rw [hp] at this
      simp only [Bool.and_eq_true, List.all_eq_true, decide_eq_true_eq] at this
      exact this.1 c hin
    · intro hpar
      have hc : c < h.length := by
        unfold parent_at at hpar
        cases hq : h[c]? with
        | none => rw [hq] at hpar; cases hpar
        | some oc => exact lt_length_of_getElem? hq
      have := h2 c (List.mem_range.mpr hc)
      rw [hpar] at this
      cases hq : h[p]? with
      | none => simp [hq] at this
      | some op =>
        simp only [hq, decide_eq_true_eq] at this
        exact ⟨op, rfl, this⟩
  · intro p op hp
    have := h1 p (List.mem_range.mpr (lt_length_of_getElem? hp))
    rw [hp] at this
    simp only [Bool.and_eq_true, List.all_eq_true, decide_eq_true_eq] at this
    exact this.2

theorem remove_child_objects (h : Forest) (p c : Nat) (op : TaskObj)
    (hp : h[p]? = some op) (hin : c ∈ op._children) :
    ∃ h2, h.remove_child p c = some (h2, false)
      ∧ ∀ a, h2[a]? = (h[a]?).map (rewired p c none (fun l => l.erase c) a) := by
  cases hf : vector_find c op._children with
  | none => exact absurd hin ((vector_find_eq_none c op._children).mp hf)
  | some idx =>
    have herase := vector_find_eraseIdx c op._children idx hf
    refine ⟨(h.update p (fun o => { o with _children := o._children.eraseIdx idx })).set_parent
        c none, by simp only [Forest.remove_child, hp, hf], ?_⟩
    intro a
    rw [getElem?_update_set_parent h p c none (fun l => l.eraseIdx idx) a]
    cases ha : h[a]? with
    | none => rfl
    | some o =>
      simp only [Option.map_some', Option.some.injEq, rewired, TaskObj.mk.injEq, true_and]
      by_cases hap : a = p
      · subst hap
        rw [hp] at ha
        cases ha
        simp [herase]
      · simp [hap]

/-- C21: if the parent-pointer invariant holds of a table, then `add_child(c)`,
`add_child_at_index(c, i)` and `remove_child(c)` called on `p` (both naming objects)
each return, and the invariant holds of the table they leave, whether the call went
through or reported its error (in which case the table is as it was). -/
theorem parent_invariant_preserved (h : Forest) (p c : Nat) (i : Int)
    (hinv : h.parent_invariant) (hp : p < h.length) (hc : c < h.length) :
    (∃ r, h.add_child p c = some r ∧ r.1.parent_invariant ∧ (r.2 = true → r.1 = h))
    ∧ (∃ r, h.add_child_at_index p c i = some r ∧ r.1.parent_invariant
        ∧ (r.2 = true → r.1 = h))
    ∧ (∃ r, h.remove_child p c = some r ∧ r.1.parent_invariant ∧ (r.2 = true → r.1 = h)) := by
  obtain ⟨op, hop⟩ : ∃ op, h[p]? = some op := ⟨h[p], List.getElem?_eq_getElem hp⟩
  obtain ⟨oc, hoc⟩ : ∃ oc, h[c]? = some oc := ⟨h[c], List.getElem?_eq_getElem hc⟩
  have hnot : oc.d._parent = none → c ∉ op._children := by
    intro hpar hin
    have := (hinv.1 p c).mp ⟨op, hop, hin⟩
    simp [parent_at, hoc, hpar] at this
  refine ⟨?_, ?_, ?_⟩
  · cases hpar : oc.d._parent with
    | some q =>
      exact ⟨(h, true), by simp [Forest.add_child, hop, hoc, hpar], hinv, fun _ => rfl⟩
    | none =>
      obtain ⟨h2, hcall, hobj⟩ := add_child_objects h p c op oc hop hoc hpar
      refine ⟨(h2, false), hcall, ?_, fun e => by cases e⟩
      refine parent_invariant_attach h h2 p c op oc (fun l => l ++ [c]) hinv hop hoc hpar
        ?_ ?_ hobj
      · intro x
        simp
      · intro hnd hc2
        exact List.Nodup.append hnd (List.nodup_singleton c) (by simpa using hc2)
  · cases hpar : oc.d._parent with
    | some q =>
      exact ⟨(h, true), by simp [Forest.add_child_at_index, hop, hoc, hpar], hinv,
        fun _ => rfl⟩
    | none =>
      obtain ⟨h2, hcall, hobj⟩ := add_child_at_index_objects h p c op oc i hop hoc hpar
      refine ⟨(h2, false), hcall, ?_, fun e => by cases e⟩
      refine parent_invariant_attach h h2 p c op oc _ hinv hop hoc hpar ?_ ?_ hobj
      · intro x
        generalize (if i < 0 ∨ i > (op._children.length : Int) then op._children.length
          else i.toNat) = k
        constructor
        · intro hx
          rcases List.mem_append.mp hx with h1 | h1
          · exact Or.inl (List.mem_of_mem_take h1)
          · rcases List.mem_cons.mp h1 with h1 | h1
            · exact Or.inr h1
            · exact Or.inl (List.mem_of_mem_drop h1)
        · intro hx
          rcases hx with h1 | h1
          · rw [← List.take_append_drop k op._children] at h1
            rcases List.mem_append.mp h1 with h1 | h1
            · exact List.mem_append.mpr (Or.inl h1)
            · exact List.mem_append.mpr (Or.inr (List.mem_cons_of_mem _ h1))
          · exact List.mem_append.mpr (Or.inr (by rw [h1]; exact List.mem_cons_self _ _))
      · intro hnd hc2
        generalize (if i < 0 ∨ i > (op._children.length : Int) then op._children.length
          else i.toNat) = k
        have hperm : (op._children.take k ++ c :: op._children.drop k).Perm
            (c :: op._children) := by
          have : (op._children.take k ++ c :: op._children.drop k).Perm
              (c :: (op._children.take k ++ op._children.drop k)) := List.perm_middle
          rwa [List.take_append_drop] at this
        exact hperm.nodup_iff.mpr (List.nodup_cons.mpr ⟨hc2, hnd⟩)
  · by_cases hin : c ∈ op._children
    · obtain ⟨h2, hcall, hobj⟩ := remove_child_objects h p c op hop hin
      exact ⟨(h2, false), hcall, parent_invariant_detach h h2 p c op hinv hop hin hobj,
        fun e => by cases e⟩
    · exact ⟨(h, true),
        by simp [Forest.remove_child, hop, (vector_find_eq_none c op._children).mpr hin],
        hinv, fun _ => rfl⟩

/-- C21 on the sample table, where the invariant holds: adding "other" (object 0) to
"seq" (object 1), at the end or at index 1, and removing it from "seq", which does not
hold it, each leave a table where the invariant holds. -/
theorem parent_invariant_preserved_witness :
    sample_forest.parent_invariant
    ∧ (∃ r, sample_forest.add_child 1 0 = some r ∧ r.1.parent_invariant
        ∧ (r.2 = true → r.1 = sample_forest))
    ∧ (∃ r, sample_forest.add_child_at_index 1 0 1 = some r ∧ r.1.parent_invariant
        ∧ (r.2 = true → r.1 = sample_forest))
    ∧ (∃ r, sample_forest.remove_child 1 0 = some r ∧ r.1.parent_invariant
        ∧ (r.2 = true → r.1 = sample_forest)) :=
  ⟨parent_invariant_of_check sample_forest (by decide),
    parent_invariant_preserved sample_forest 1 0 1
      (parent_invariant_of_check sample_forest (by decide)) (by decide) (by decide)⟩


/-! ## Script overrides at the lifecycle points (C22) -/

/-- The trace of `execute`, with where the nested part comes from: nothing, or the trace
of `execute` on the first child. -/
theorem execute_shape (t t2 : BTTask) (v : Int) (tr : List Event)
    (h : t.execute = some (t2, v, tr)) :
    ∃ nested : List Event,
      tr = enter_events t.data._status t.data.script
            ++ [⟨[], .tick, script_has t.data.script .tick⟩] ++ nested
            ++ exit_events v t.data.script
      ∧ (nested = [] ∨ ∃ c rest c2 st ev, t.children = c :: rest
          ∧ c.execute = some (c2, st, ev) ∧ nested = ev.map (Event.under 0)) := by
  cases t with
  | mk d cs =>
    unfold BTTask.execute at h
    simp only [BTTask.data, BTTask.children, script_has_tick_eq]
    cases hs : script_tick d.script with
    | some p =>
      obtain ⟨x, s⟩ := p
      simp only [hs] at h
      cases h
      exact ⟨[], by simp, Or.inl rfl⟩
    | none =>
      simp only [hs] at h
      cases hc : enter_cls d._status d.script d.cls with
      | base =>
        simp only [hc] at h
        cases h
        exact ⟨[], by simp, Or.inl rfl⟩
      | btRepeat r =>
        simp only [hc] at h
        cases hr : BTRepeat._tick r cs with
        | none => simp [hr] at h
        | some q =>
          obtain ⟨r2, cs2, w, evs⟩ := q
          simp only [hr] at h
          cases h
          refine ⟨evs, by simp, Or.inr ?_⟩
          cases cs with
          | nil => simp [BTRepeat._tick] at hr
          | cons c rest =>
            unfold BTRepeat._tick at hr
            cases hx : c.execute with
            | none => simp [hx] at hr
            | some y =>
              obtain ⟨c2, st, ev⟩ := y
              simp only [hx] at hr
              cases hr
              exact ⟨c, rest, c2, st, ev, rfl, hx, rfl⟩

theorem own_event_dispatch (st v : Int) (s : Option ScriptInstance) (e : Event)
    (he : e ∈ enter_events st s ++ [⟨[], .tick, script_has s .tick⟩] ++ exit_events v s) :
    e.path = [] ∧ e.scripted = script_has s e.hook := by
  simp only [List.mem_append, List.mem_singleton] at he
  rcases he with (he | he) | he
  · unfold enter_events at he
    split_ifs at he
    · simp only [List.mem_singleton] at he
      subst he
      exact ⟨rfl, rfl⟩
    · cases he
  · subst he
    exact ⟨rfl, rfl⟩
  · unfold exit_events at he
    split_ifs at he
    · simp only [List.mem_singleton] at he
      subst he
      exact ⟨rfl, rfl⟩
    · cases he

/-- Every hook invocation that `execute` makes, on the task or below it, goes to the
script of the receiving task exactly when that script defines the hook. -/
theorem execute_dispatch (t : BTTask) :
    ∀ t2 v tr, t.execute = some (t2, v, tr) →
      ∀ e ∈ tr, ∃ n, t.node_at e.path = some n
        ∧ e.scripted = script_has n.data.script e.hook := by
  induction t using BTTask.induct with
  | h d cs ih =>
    intro t2 v tr hex e he
    obtain ⟨nested, htr, hnested⟩ := execute_shape _ t2 v tr hex
    subst htr
    simp only [BTTask.data, BTTask.children] at he hnested
    have hsplit : e ∈ enter_events d._status d.script
          ++ [⟨[], .tick, script_has d.script .tick⟩] ++ exit_events v d.script
        ∨ e ∈ nested := by
      simp only [List.mem_append, List.mem_singleton] at he ⊢
      tauto
    rcases hsplit with hown | hnest
    · obtain ⟨hp, hf⟩ := own_event_dispatch d._status v d.script e hown
      exact ⟨.mk d cs, by rw [hp]; rfl, hf⟩
    · rcases hnested with hnil | ⟨c, rest, c2, st, ev, hcs, hcex, hev⟩
      · rw [hnil] at hnest
        cases hnest
      · subst hcs
        subst hev
        obtain ⟨e0, he0, rfl⟩ := List.mem_map.mp hnest
        obtain ⟨n, hn, hf⟩ := ih c (List.mem_cons_self _ _) c2 st ev hcex e0 he0
        exact ⟨n, by simpa [Event.under, node_at_mk_cons] using hn, hf⟩

/-- A task whose script defines `_tick`: `execute` returns the value of the script
converted to `int`, which is also the stored status; the built-in `_tick` has not run (the
children are as they were, no hook was invoked below the task), and the class fields are
those the `_enter` step left. -/
theorem execute_scripted_tick (t : BTTask) (s : ScriptInstance) (f : Nat → Int)
    (hs : t.data.script = some s) (hf : s.tick = some f) :
    ∃ t2 tr, t.execute = some (t2, int32 (f s.ticks), tr)
      ∧ t2.get_status = int32 (f s.ticks)
      ∧ t2.children = t.children
      ∧ (∀ e ∈ tr, e.path = [])
      ∧ t2.data.cls = (if t.data._status = RUNNING ∧ s.has_enter = false
          then t.data.cls._enter else t.data.cls) := by
  cases t with
  | mk d cs =>
    simp only [BTTask.data] at hs
    have hst : script_tick d.script = some (f s.ticks, { s with ticks := s.ticks + 1 }) := by
      simp [script_tick, ScriptInstance.call_tick, hs, hf]
    cases hex : (BTTask.mk d cs).execute with
    | none =>
      unfold BTTask.execute at hex
      simp only [hst] at hex
      cases hex
    | some r =>
      unfold BTTask.execute at hex
      simp only [hst, Option.some.injEq] at hex
      subst hex
      refine ⟨_, _, rfl, rfl, rfl, ?_, ?_⟩
      · intro e he
        exact (own_event_dispatch d._status (int32 (f s.ticks)) d.script e
          (by simpa [script_has_tick_eq, hst] using he)).1
      · simp only [BTTask.data, enter_cls, hs, script_has, ScriptInstance.has_method]
        by_cases hr : d._status = RUNNING <;> cases s.has_enter <;> simp [hr]

/-- A task whose script defines no `_tick` (or that has no script): the built-in `_tick`
of its class runs, on the class fields as the `_enter` step left them: after the built-in
`_enter` if the task was `RUNNING` and the script defines no `_enter`, untouched
otherwise. -/
theorem execute_builtin_tick (t t2 : BTTask) (v : Int) (tr : List Event)
    (hs : script_has t.data.script .tick = false) (h : t.execute = some (t2, v, tr)) :
    (t.data.cls = .base → t2.data.cls = .base ∧ v = FAILURE ∧ t2.children = t.children)
    ∧ (∀ r, t.data.cls = .btRepeat r →
        ∃ c rest c2 st ev, t.children = c :: rest ∧ c.execute = some (c2, st, ev)
          ∧ t2.children = c2 :: rest
          ∧ t2.data.cls = .btRepeat
              ((if t.data._status = RUNNING ∧ script_has t.data.script .enter = false
                then r._enter else r).after_child st).2
          ∧ v = ((if t.data._status = RUNNING ∧ script_has t.data.script .enter = false
                then r._enter else r).after_child st).1) := by
  cases t with
  | mk d cs =>
    simp only [BTTask.data, BTTask.children] at hs ⊢
    have hst : script_tick d.script = none := by
      rw [script_has_tick_eq] at hs
      cases hq : script_tick d.script with
      | none => rfl
      | some q => rw [hq] at hs; cases hs
    unfold BTTask.execute at h
    simp only [hst] at h
    constructor
    · intro hc
      have hcl : enter_cls d._status d.script d.cls = .base :=
        (enter_cls_kind d._status d.script d.cls).1 hc
      simp only [hcl, Option.some.injEq, Prod.mk.injEq] at h
      obtain ⟨h1, h2, _⟩ := h
      subst h1
      exact ⟨rfl, h2.symm, rfl⟩
    · intro r hc
      have hcl : enter_cls d._status d.script d.cls
          = .btRepeat (if d._status = RUNNING ∧ script_has d.script .enter = false
              then r._enter else r) := by
        unfold enter_cls
        rw [hc]
        by_cases hr : d._status = RUNNING <;> cases script_has d.script .enter <;>
          simp [hr, TaskClass._enter]
      simp only [hcl] at h
      cases cs with
      | nil => simp [BTRepeat._tick] at h
      | cons c rest =>
        unfold BTRepeat._tick at h
        cases hx : c.execute with
        | none => simp [hx] at h
        | some y =>
          obtain ⟨c2, st, ev⟩ := y
          simp only [hx, Option.some.injEq, Prod.mk.injEq] at h
          obtain ⟨h1, h2, _⟩ := h
          subst h1
          exact ⟨c, rest, c2, st, ev, rfl, hx, rfl, rfl, h2.symm⟩

theorem cancel_dispatch (t : BTTask) :
    ∀ e ∈ t.cancel.2, ∃ n, t.node_at e.path = some n ∧ n.get_status = RUNNING
      ∧ e.hook = .exit ∧ e.scripted = script_has n.data.script .exit := by
  intro e he
  rw [cancel_trace] at he
  obtain ⟨pn, hpn, rfl⟩ := List.mem_map.mp he
  obtain ⟨hmem, hrun⟩ := List.mem_filter.mp hpn
  refine ⟨pn.2, (postorder_mem t pn.1 pn.2).mp hmem, ?_, rfl, rfl⟩
  simpa [is_running] using hrun

theorem initialize_dispatch (a : Option Nat) (bb : Dictionary) (t : BTTask) :
    (∀ sc ∈ ( BTTask.initialize a bb t).2, ∃ n, t.node_at sc.event.path = some n
        ∧ sc.event.hook = .setup ∧ sc.event.scripted = script_has n.data.script .setup)
    ∧ ∀ p, ( BTTask.initialize a bb t).2.countP (fun sc => decide (sc.event.path = p))
        = if (t.node_at p).isSome then 1 else 0 := by
  rw [initialize_trace]
  constructor
  · intro sc hsc
    obtain ⟨pn, hpn, rfl⟩ := List.mem_map.mp hsc
    exact ⟨pn.2, (postorder_mem t pn.1 pn.2).mp hpn, rfl, rfl⟩
  · intro p
    rw [List.countP_map, ← postorder_count t p]
    rfl

/-- C22 as stated fails in its last sentence when the script's `_tick` returns a value
outside the range of `int`: on a leaf whose script returns -4294967294, the result of
`execute` and the stored status are 2 (`FAILURE`), not the value the script returned. -/
theorem override_value_is_narrowed :
    (script_tick (scripted_leaf 0 none (fun _ => -4294967294) 0 FRESH).data.script).map
        (fun r => r.1) = some (-4294967294)
    ∧ (scripted_leaf 0 none (fun _ => -4294967294) 0 FRESH).execute.map
        (fun r => (r.2.1, r.1.get_status)) = some (FAILURE, FAILURE)
    ∧ (FAILURE : Int) ≠ -4294967294 := by
  decide

/-- C22 (amended): at each lifecycle point the hook goes to the script of the receiving
task exactly when that script defines it, and to the built-in hook otherwise, one
invocation in all: `_setup` once for every task of the subtree in `initialize`; `_exit`
once for every `RUNNING` task in `cancel`; in `execute`, `_enter` once if the task was
`RUNNING`, `_tick` once, `_exit` once if the result is not `RUNNING`.  With a script that
defines `_tick`, `execute` returns the value of the script converted to `int` (the value
itself when it is in the range of `int`) and stores it as status, and the built-in
`_tick` has left no trace: the children are untouched and the class fields are what the
`_enter` step left.  Without a script `_tick` the built-in `_tick` runs.  In both cases
the built-in `_enter` has acted on the class fields exactly when the task was `RUNNING`
and the script defines no `_enter`. -/
theorem override_takes_precedence (t : BTTask) (a : Option Nat) (bb : Dictionary) :
    ((∀ sc ∈ ( BTTask.initialize a bb t).2, ∃ n, t.node_at sc.event.path = some n
        ∧ sc.event.hook = .setup ∧ sc.event.scripted = script_has n.data.script .setup)
      ∧ ∀ p, ( BTTask.initialize a bb t).2.countP (fun sc => decide (sc.event.path = p))
          = if (t.node_at p).isSome then 1 else 0)
    ∧ ((∀ e ∈ t.cancel.2, ∃ n, t.node_at e.path = some n ∧ n.get_status = RUNNING
        ∧ e.hook = .exit ∧ e.scripted = script_has n.data.script .exit)
      ∧ ∀ p, calls_at p .exit t.cancel.2 = exits_due t p)
    ∧ (∀ t2 v tr, t.execute = some (t2, v, tr) →
        (∀ e ∈ tr, ∃ n, t.node_at e.path = some n
          ∧ e.scripted = script_has n.data.script e.hook)
        ∧ own_calls .enter tr = (if t.data._status = RUNNING then 1 else 0)
        ∧ own_calls .tick tr = 1
        ∧ own_calls .exit tr = (if v ≠ RUNNING then 1 else 0)
        ∧ own_calls .setup tr = 0)
    ∧ (∀ s f, t.data.script = some s → s.tick = some f →
        ∃ t2 tr, t.execute = some (t2, int32 (f s.ticks), tr)
          ∧ t2.get_status = int32 (f s.ticks)
          ∧ (-2147483648 ≤ f s.ticks → f s.ticks < 2147483648 →
              int32 (f s.ticks) = f s.ticks)
          ∧ t2.children = t.children
          ∧ (∀ e ∈ tr, e.path = [])
          ∧ t2.data.cls = (if t.data._status = RUNNING ∧ s.has_enter = false
              then t.data.cls._enter else t.data.cls))
    ∧ (∀ t2 v tr, script_has t.data.script .tick = false → t.execute = some (t2, v, tr) →
        (t.data.cls = .base → t2.data.cls = .base ∧ v = FAILURE ∧ t2.children = t.children)
        ∧ (∀ r, t.data.cls = .btRepeat r →
          ∃ c rest c2 st ev, t.children = c :: rest ∧ c.execute = some (c2, st, ev)
            ∧ t2.children = c2 :: rest
            ∧ t2.data.cls = .btRepeat
                ((if t.data._status = RUNNING ∧ script_has t.data.script .enter = false
                  then r._enter else r).after_child st).2
            ∧ v = ((if t.data._status = RUNNING ∧ script_has t.data.script .enter = false
                  then r._enter else r).after_child st).1)) := by
  refine ⟨initialize_dispatch a bb t, ⟨cancel_dispatch t, cancel_calls t⟩, ?_, ?_,
    fun t2 v tr hs h => execute_builtin_tick t t2 v tr hs h⟩
  · intro t2 v tr hex
    refine ⟨execute_dispatch t t2 v tr hex, ?_⟩
    obtain ⟨nested, htr, hn, _, _⟩ := execute_spec t t2 v tr hex
    subst htr
    rw [own_calls_execute _ _ _ _ nested hn, own_calls_execute _ _ _ _ nested hn,
      own_calls_execute _ _ _ _ nested hn, own_calls_execute _ _ _ _ nested hn]
    refine ⟨?_, ?_, ?_, ?_⟩
    · by_cases hr : t.data._status = RUNNING <;> simp [hr]
    · simp
    · by_cases hr : v = RUNNING <;> simp [hr]
    · simp
  · intro s f hs hf
    obtain ⟨t2, tr, h1, h2, h3, h4, h5⟩ := execute_scripted_tick t s f hs hf
    exact ⟨t2, tr, h1, h2, int32_of_range (f s.ticks), h3, h4, h5⟩

/-- C22 (amended) on two `RUNNING` decorators with counter 5.  With a script that defines
`_enter`, `_tick` and `_exit`: `execute` invokes these, returns the script's `SUCCESS`,
leaves the counter at 5 and does not touch the child; `cancel` invokes the built-in
`_exit` of the child and the script's `_exit` of the task; `initialize` invokes the
built-in `_setup` of both.  With a script that defines `_enter` only: `execute` invokes
the script's `_enter` and the built-in `_tick`, which runs on the counter 5 (the built-in
`_enter` would have made it 1) and so returns `SUCCESS` after the child failed. -/
theorem override_takes_precedence_witness :
    (override_sample.execute.map (fun r => (r.2.1, r.2.2, r.1.get_status, r.1.data.cls))
        = some (SUCCESS, [⟨[], .enter, true⟩, ⟨[], .tick, true⟩, ⟨[], .exit, true⟩],
            SUCCESS, .btRepeat ⟨3, false, 5⟩)
      ∧ override_sample.cancel.2 = [⟨[0], .exit, false⟩, ⟨[], .exit, true⟩]
      ∧ (( BTTask.initialize (some 7) [] override_sample).2.map (fun sc => sc.event))
        = [⟨[0], .setup, false⟩, ⟨[], .setup, false⟩]
      ∧ enter_override_sample.execute.map
          (fun r => (r.2.1, r.2.2, r.1.get_status, r.1.data.cls))
        = some (SUCCESS, [⟨[], .enter, true⟩, ⟨[], .tick, false⟩, ⟨[0], .tick, false⟩,
            ⟨[0], .exit, false⟩, ⟨[], .exit, false⟩], SUCCESS, .btRepeat ⟨3, false, 5⟩))
    ∧ (∃ t2 tr, override_sample.execute = some (t2, int32 ((fun _ => SUCCESS) 0), tr)
          ∧ t2.get_status = int32 ((fun _ => SUCCESS) 0)
          ∧ (-2147483648 ≤ (fun _ => SUCCESS) 0 → (fun _ => SUCCESS) 0 < 2147483648 →
              int32 ((fun _ => SUCCESS) 0) = (fun _ => SUCCESS) 0)
          ∧ t2.children = override_sample.children
          ∧ (∀ e ∈ tr, e.path = [])
          ∧ t2.data.cls = (if override_sample.data._status = RUNNING ∧ true = false
              then override_sample.data.cls._enter else override_sample.data.cls))
    ∧ (∀ t2 v tr, enter_override_sample.execute = some (t2, v, tr) →
        ∃ c rest c2 st ev, enter_override_sample.children = c :: rest
          ∧ c.execute = some (c2, st, ev)
          ∧ t2.children = c2 :: rest
          ∧ t2.data.cls = .btRepeat
              ((if enter_override_sample.data._status = RUNNING
                  ∧ script_has enter_override_sample.data.script .enter = false
                then BTRepeat._enter ⟨3, false, 5⟩
                else (⟨3, false, 5⟩ : BTRepeat)).after_child st).2
          ∧ v = ((if enter_override_sample.data._status = RUNNING
                  ∧ script_has enter_override_sample.data.script .enter = false
                then BTRepeat._enter ⟨3, false, 5⟩
                else (⟨3, false, 5⟩ : BTRepeat)).after_child st).1) :=
  ⟨by decide,
    (override_takes_precedence override_sample none []).2.2.2.1
      ⟨false, true, true, some (fun _ => SUCCESS), 0⟩ (fun _ => SUCCESS) rfl rfl,
    fun t2 v tr h =>
      ((override_takes_precedence enter_override_sample none []).2.2.2.2 t2 v tr rfl h).2
        ⟨3, false, 5⟩ rfl⟩


/-! ## Parameter resolution (C23, C24) -/

theorem lookup_set_var (d : List (String × Variant)) (name : String) (v : Variant) :
    List.lookup name ((name, v) :: d.filter (fun kv => kv.1 != name)) = some v := by
  simp [List.lookup]

theorem get_var_set_var (bb : Blackboard) (name : String) (v : Variant) :
    (bb.set_var name v).get_var name = some v := by
  cases bb with
  | mk d p =>
    cases p with
    | none => simp [Blackboard.set_var, Blackboard.get_var, List.lookup]
    | some q => simp [Blackboard.set_var, Blackboard.get_var, List.lookup]

theorem type_compatible_nil (v : Variant) : type_compatible .NIL v = true := by
  simp [type_compatible]

/-- The type rule of the blackboard source: a value whose type is incompatible with the
expected type is not returned; the default is, with the diagnostic. -/
theorem blackboard_var_incompatible (p : BBParam) (agent : Option Nat) (bb : Blackboard)
    (v d : Variant) (h : p.value_source = .BLACKBOARD_VAR)
    (hc : type_compatible p.expected_type v = false) :
    p.get_value agent (bb.set_var p.variable_name v) d = (d, true) := by
  simp [BBParam.get_value, h, get_var_set_var, hc]

/-- What `BBNode` does with a saved value: a path is resolved against the agent (the node
found, or the default when the path is unknown); any other literal is returned. -/
theorem bbnode_saved_value (get_node : Option Nat → String → Option Nat) (p : BBNode)
    (agent : Option Nat) (bb : Blackboard) (d : Variant)
    (h : p.value_source = .SAVED_VALUE) :
    (∀ path node, p.saved_value = .node_path path → get_node agent path = some node →
      p.get_value get_node agent bb d = (.object node, false))
    ∧ (∀ path, p.saved_value = .node_path path → get_node agent path = none →
      p.get_value get_node agent bb d = (d, true))
    ∧ ((∀ path, p.saved_value ≠ .node_path path) →
      p.get_value get_node agent bb d = (p.saved_value, false)) := by
  refine ⟨?_, ?_, ?_⟩
  · intro path node hp hn
    simp [BBNode.get_value, h, hp, hn]
  · intro path hp hn
    simp [BBNode.get_value, h, hp, hn]
  · intro hp
    unfold BBNode.get_value
    rw [h]
    cases hv : p.saved_value with
    | node_path path => exact absurd hv (hp path)
    | nil => simp [BBParam.get_value, h, hv]
    | bool b => simp [BBParam.get_value, h, hv]
    | int i => simp [BBParam.get_value, h, hv]
    | real x => simp [BBParam.get_value, h, hv]
    | str x => simp [BBParam.get_value, h, hv]
    | object x => simp [BBParam.get_value, h, hv]

/-- The test case `BBNode` on the embedding: a valid path gives the node, of type
`OBJECT`; an invalid path gives the null default; an object on the blackboard is
returned; an unset variable and a variable holding 123 give the null default. -/
theorem bbnode_test_case :
    (⟨⟨.SAVED_VALUE, .node_path "./Other", "", .OBJECT⟩⟩ : BBNode).get_value test_scene
        (some 1) (Blackboard.mk [] none) .nil = (.object 2, false)
    ∧ (⟨⟨.SAVED_VALUE, .node_path "./SomeOther", "", .OBJECT⟩⟩ : BBNode).get_value test_scene
        (some 1) (Blackboard.mk [] none) .nil = (.nil, true)
    ∧ (⟨⟨.BLACKBOARD_VAR, .nil, "test_var", .OBJECT⟩⟩ : BBNode).get_value test_scene
        (some 1) ((Blackboard.mk [] none).set_var "test_var" (.object 2)) .nil
        = (.object 2, false)
    ∧ (⟨⟨.BLACKBOARD_VAR, .nil, "test_var", .OBJECT⟩⟩ : BBNode).get_value test_scene
        (some 1) (Blackboard.mk [] none) .nil = (.nil, true)
    ∧ (⟨⟨.BLACKBOARD_VAR, .nil, "test_var", .OBJECT⟩⟩ : BBNode).get_value test_scene
        (some 1) ((Blackboard.mk [] none).set_var "test_var" (.int 123)) .nil
        = (.nil, true) := by
  decide

/-- C23: for the generic parameter (an object of class `BBParam`) whose value source is
`SAVED_VALUE`, `get_value` returns the saved literal, with no diagnostic, for every
agent, every blackboard and every default; so two calls with different agents,
blackboards and defaults return the same. -/
theorem saved_value_is_returned (p : BBParam) (h : p.value_source = .SAVED_VALUE) :
    (∀ agent blackboard d, p.get_value agent blackboard d = (p.saved_value, false))
    ∧ ∀ agent1 agent2 bb1 bb2 d1 d2,
        p.get_value agent1 bb1 d1 = p.get_value agent2 bb2 d2 := by
  have h1 : ∀ agent blackboard d, p.get_value agent blackboard d = (p.saved_value, false) := by
    intro agent blackboard d
    simp [BBParam.get_value, h]
  exact ⟨h1, fun a1 a2 b1 b2 d1 d2 => by rw [h1, h1]⟩

/-- C23 on the literals of the test: 123, "test" and 3.14 come back, whatever the agent
and the blackboard (here one that holds another value under "test_var") and whatever the
default. -/
theorem saved_value_is_returned_witness :
    ((∀ agent blackboard d,
        ({ BBParam.new with saved_value := .int 123 } : BBParam).get_value agent blackboard d
          = (.int 123, false))
      ∧ ∀ agent1 agent2 bb1 bb2 d1 d2,
        ({ BBParam.new with saved_value := .int 123 } : BBParam).get_value agent1 bb1 d1
          = ({ BBParam.new with saved_value := .int 123 } : BBParam).get_value agent2 bb2 d2)
    ∧ ({ BBParam.new with saved_value := .str "test" } : BBParam).get_value (some 1)
        ((Blackboard.mk [] none).set_var "test_var" (.int 7)) (.str "default_value")
        = (.str "test", false)
    ∧ ({ BBParam.new with saved_value := real_3_14 } : BBParam).get_value none
        (Blackboard.mk [] none) .nil = (real_3_14, false) :=
  ⟨saved_value_is_returned { BBParam.new with saved_value := .int 123 } rfl,
    by decide, by decide⟩

/-- C24: for the generic parameter (an object of class `BBParam`) whose value source is
`BLACKBOARD_VAR` with variable `n`: after `set_var(n, v)`, `get_value` returns `v`, with
no diagnostic, for every `v` when the parameter expects no type (the parameter of the
test), and more generally whenever the type of `v` is compatible with the expected type;
and when `n` is not set in the blackboard, `get_value` returns the supplied default `d`,
with the recoverable diagnostic.  In every case it returns. -/
theorem blackboard_var_resolution (p : BBParam) (agent : Option Nat) (bb : Blackboard)
    (v d : Variant) (h : p.value_source = .BLACKBOARD_VAR) :
    (p.expected_type = .NIL →
      p.get_value agent (bb.set_var p.variable_name v) d = (v, false))
    ∧ (type_compatible p.expected_type v = true →
      p.get_value agent (bb.set_var p.variable_name v) d = (v, false))
    ∧ (bb.has_var p.variable_name = false → p.get_value agent bb d = (d, true)) := by
  refine ⟨?_, ?_, ?_⟩
  · intro hn
    simp [BBParam.get_value, h, get_var_set_var, type_compatible, hn]
  · intro hc
    simp [BBParam.get_value, h, get_var_set_var, hc]
  · intro hm
    have hm2 : bb.get_var p.variable_name = none := by
      simpa [Blackboard.has_var] using hm
    simp [BBParam.get_value, h, hm2]

/-- C24 on the test: the generic parameter on "test_var" returns 123, "test" and 3.14
after they are set, also over an older value and with an outer scope that holds another;
with "test_var" unset it returns the default "default_value". -/
theorem blackboard_var_resolution_witness :
    ((⟨.BLACKBOARD_VAR, .nil, "test_var", .NIL⟩ : BBParam).get_value (some 1)
        ((Blackboard.mk [] none).set_var "test_var" (.int 123)) .nil = (.int 123, false)
      ∧ (⟨.BLACKBOARD_VAR, .nil, "test_var", .NIL⟩ : BBParam).get_value (some 1)
        ((Blackboard.mk [("test_var", .int 123)] none).set_var "test_var" (.str "test")) .nil
          = (.str "test", false)
      ∧ (⟨.BLACKBOARD_VAR, .nil, "test_var", .NIL⟩ : BBParam).get_value (some 1)
        ((Blackboard.mk [] (some (Blackboard.mk [("test_var", .int 5)] none))).set_var
          "test_var" real_3_14) .nil = (real_3_14, false)
      ∧ (⟨.BLACKBOARD_VAR, .nil, "test_var", .NIL⟩ : BBParam).get_value (some 1)
        (Blackboard.mk [] none) (.str "default_value") = (.str "default_value", true))
    ∧ ((⟨.BLACKBOARD_VAR, .nil, "test_var", .NIL⟩ : BBParam).get_value (some 1)
        ((Blackboard.mk [] none).set_var "test_var" (.int 123)) (.str "default_value")
          = (.int 123, false))
    ∧ ((⟨.BLACKBOARD_VAR, .nil, "test_var", .NIL⟩ : BBParam).get_value (some 1)
        (Blackboard.mk [] none) (.str "default_value") = (.str "default_value", true)) :=
  ⟨by decide,
    (blackboard_var_resolution ⟨.BLACKBOARD_VAR, .nil, "test_var", .NIL⟩ (some 1)
      (Blackboard.mk [] none) (.int 123) (.str "default_value") rfl).1 rfl,
    (blackboard_var_resolution ⟨.BLACKBOARD_VAR, .nil, "test_var", .NIL⟩ (some 1)
      (Blackboard.mk [] none) (.int 123) (.str "default_value") rfl).2.2 (by decide)⟩

/-! ## The debugger view rebuilds the tree (C26) -/

theorem RecordTree.induct_children {P : RecordTree → Prop}
    (h : ∀ r cs, (∀ c ∈ cs, P c) → P (.node r cs)) : ∀ t, P t := by
  intro t
  refine @RecordTree.rec P (fun cs => ∀ c ∈ cs, P c) ?_ ?_ ?_ t
  · intro r cs ih; exact h r cs ih
  · intro c hc; cases hc
  · intro c cs ih1 ih2 x hx
    rcases List.mem_cons.mp hx with rfl | hx
    · exact ih1
    · exact ih2 x hx

/-- One turn of the loop when the front of the stack is `holder`, which still expects
`n + 1` children. -/
theorem step_on_pending (create_item : List TreeItem → Option Nat → Option Nat)
    (hcreate : ∀ items p, create_item items (some p) = some p)
    (items : List TreeItem) (holder : Nat) (n : Nat)
    (s : List (Nat × Int)) (r : BehaviorTreeData.TaskData) (k : Nat)
    (hk : r.num_children = (k : Int)) :
    BehaviorTreeView.update_tree_step create_item
        ⟨items, (holder, ((n + 1 : Nat) : Int)) :: s⟩ r
      = ⟨items ++ [item_of (some holder) r],
          pending items.length k ++ (pending holder n ++ s)⟩ := by
  unfold BehaviorTreeView.update_tree_step
  have h1 : ((n + 1 : Nat) : Int) - 1 = (n : Int) := by push_cast; ring
  simp only [h1, hcreate, item_of, pending, hk]
  by_cases hn : n = 0
  · subst hn
    by_cases hr : k = 0
    · simp [hr]
    · have hr2 : ¬ ((k : Int) = 0) := by exact_mod_cast hr
      simp [hr, hr2]
  · have hn2 : ¬ ((n : Int) = 0) := by exact_mod_cast hn
    by_cases hr : k = 0
    · simp [hr, hn, hn2]
    · have hr2 : ¬ ((k : Int) = 0) := by exact_mod_cast hr
      simp [hr, hr2, hn, hn2]

theorem size_pos (t : RecordTree) : 0 < t.size := by
  cases t with
  | node r cs => simp [RecordTree.size]

theorem length_items (t : RecordTree) :
    ∀ parent base, (t.items parent base).length = t.size := by
  induction t using RecordTree.induct_children with
  | h r cs ih =>
    intro parent base
    simp only [RecordTree.items, RecordTree.size, List.length_cons]
    have hcs : ∀ holder b, (RecordTree.items_children holder b cs).length
        = RecordTree.size_children cs := by
      induction cs with
      | nil => intro holder b; rfl
      | cons c cs ihc =>
        intro holder b
        simp only [RecordTree.items_children, RecordTree.size_children, List.length_append]
        rw [ih c (List.mem_cons_self _ _), ihc (fun x hx => ih x (List.mem_cons_of_mem _ hx))]
    rw [hcs]
    omega

theorem pending_succ (holder n : Nat) (s : List (Nat × Int)) :
    pending holder (n + 1) ++ s = (holder, ((n + 1 : Nat) : Int)) :: s := by
  simp [pending]

/-- The loop over the flattenings of the children `cs` of the item `top`, given what it
does on each of them. -/
theorem update_tree_children (create_item : List TreeItem → Option Nat → Option Nat)
    (cs : List RecordTree)
    (ih : ∀ c ∈ cs, ∀ (items : List TreeItem) (holder n : Nat) (s : List (Nat × Int)),
      c.flatten.foldl (BehaviorTreeView.update_tree_step create_item)
          ⟨items, (holder, ((n + 1 : Nat) : Int)) :: s⟩
        = ⟨items ++ c.items (some holder) items.length, pending holder n ++ s⟩) :
    ∀ (its : List TreeItem) (top : Nat) (s2 : List (Nat × Int)),
      (RecordTree.flatten_children cs).foldl (BehaviorTreeView.update_tree_step create_item)
          ⟨its, pending top cs.length ++ s2⟩
        = ⟨its ++ RecordTree.items_children top its.length cs, s2⟩ := by
  induction cs with
  | nil =>
    intro its top s2
    simp [RecordTree.flatten_children, RecordTree.items_children, pending]
  | cons c cs ihc =>
    intro its top s2
    simp only [RecordTree.flatten_children, RecordTree.items_children, List.foldl_append,
      List.length_cons, pending_succ]
    rw [ih c (List.mem_cons_self _ _) its top cs.length s2,
      ihc (fun x hx => ih x (List.mem_cons_of_mem _ hx)), List.length_append, length_items,
      List.append_assoc]

/-- The loop of `update_tree` over the flattening of a tree whose top is a child of the
item `holder`, which still expects `n + 1` children: the items of the tree are appended,
attached as the tree says, and the stack is back to what it was, one child less being
expected of `holder`. -/
theorem update_tree_subtree (create_item : List TreeItem → Option Nat → Option Nat)
    (hcreate : ∀ items p, create_item items (some p) = some p) (t : RecordTree) :
    ∀ (items : List TreeItem) (holder n : Nat) (s : List (Nat × Int)),
      t.flatten.foldl (BehaviorTreeView.update_tree_step create_item)
          ⟨items, (holder, ((n + 1 : Nat) : Int)) :: s⟩
        = ⟨items ++ t.items (some holder) items.length, pending holder n ++ s⟩ := by
  induction t using RecordTree.induct_children with
  | h r cs ih =>
    intro items holder n s
    simp only [RecordTree.flatten, List.foldl_cons, RecordTree.items]
    rw [step_on_pending create_item hcreate items holder n s _ cs.length rfl,
      update_tree_children create_item cs ih]
    simp [item_of]

theorem update_tree_flatten (create_item : List TreeItem → Option Nat → Option Nat)
    (hcreate : ∀ items p, create_item items (some p) = some p)
    (hroot : create_item [] none = none) (t : RecordTree) :
    BehaviorTreeView.update_tree create_item t.flatten = ⟨t.items none 0, []⟩ := by
  cases t with
  | node r cs =>
    have hstep : BehaviorTreeView.update_tree_step create_item ⟨[], []⟩
        { r with num_children := (cs.length : Int) }
        = ⟨[item_of none r], pending 0 cs.length ++ []⟩ := by
      unfold BehaviorTreeView.update_tree_step
      by_cases hk : cs.length = 0
      · simp [hk, pending, item_of, hroot]
      · have hk2 : ¬ ((cs.length : Int) = 0) := by exact_mod_cast hk
        simp [hk, hk2, pending, item_of, hroot]
    unfold BehaviorTreeView.update_tree
    simp only [RecordTree.flatten, List.foldl_cons, RecordTree.items]
    rw [hstep, update_tree_children create_item cs
      (fun c _ => update_tree_subtree create_item hcreate c)]
    simp

theorem items_labels (t : RecordTree) :
    ∀ parent base, (t.items parent base).map (fun it => (it.metadata, it.text))
      = t.flatten.map (fun r => (r.id, r.name)) := by
  induction t using RecordTree.induct_children with
  | h r cs ih =>
    intro parent base
    have hcs : ∀ holder b,
        (RecordTree.items_children holder b cs).map (fun it => (it.metadata, it.text))
          = (RecordTree.flatten_children cs).map (fun r => (r.id, r.name)) := by
      induction cs with
      | nil => intro holder b; rfl
      | cons c cs ihc =>
        intro holder b
        simp only [RecordTree.items_children, RecordTree.flatten_children, List.map_append]
        rw [ih c (List.mem_cons_self _ _), ihc (fun x hx => ih x (List.mem_cons_of_mem _ hx))]
    simp only [RecordTree.items, RecordTree.flatten, List.map_cons, hcs, item_of]


/-! ### The shown tree is the flattened tree -/

theorem items_head (t : RecordTree) (parent : Option Nat) (base : Nat) (it : TreeItem)
    (h : (t.items parent base)[0]? = some it) : it.parent = parent := by
  cases t with
  | node r cs =>
    simp only [RecordTree.items, List.getElem?_cons_zero, Option.some.injEq] at h
    rw [← h]
    rfl

theorem items_children_parent (cs : List RecordTree)
    (ih : ∀ c ∈ cs, ∀ (parent : Option Nat) (base m : Nat) (it : TreeItem),
      (c.items parent base)[m]? = some it → 0 < m →
        ∃ q, it.parent = some q ∧ base ≤ q ∧ q < base + c.size) :
    ∀ (holder base m : Nat) (it : TreeItem),
      (RecordTree.items_children holder base cs)[m]? = some it →
        ∃ q, it.parent = some q
          ∧ (q = holder ∨ (base ≤ q ∧ q < base + RecordTree.size_children cs)) := by
  induction cs with
  | nil =>
    intro holder base m it h
    simp [RecordTree.items_children] at h
  | cons c cs ihc =>
    intro holder base m it h
    simp only [RecordTree.items_children] at h
    simp only [RecordTree.size_children]
    by_cases hm : m < (c.items (some holder) base).length
    · rw [List.getElem?_append_left hm] at h
      by_cases h0 : m = 0
      · subst h0
        exact ⟨holder, items_head c _ _ it h, Or.inl rfl⟩
      · obtain ⟨q, hq, h1, h2⟩ := ih c (List.mem_cons_self _ _) _ _ m it h (by omega)
        exact ⟨q, hq, Or.inr ⟨h1, by omega⟩⟩
    · rw [List.getElem?_append_right (by omega)] at h
      obtain ⟨q, hq, hcase⟩ :=
        ihc (fun x hx => ih x (List.mem_cons_of_mem _ hx)) holder _ _ it h
      refine ⟨q, hq, ?_⟩
      rcases hcase with h1 | ⟨h1, h2⟩
      · exact Or.inl h1
      · exact Or.inr ⟨by omega, by omega⟩

/-- Every item of a tree but the top is attached to an item of the tree. -/
theorem items_parent (t : RecordTree) :
    ∀ (parent : Option Nat) (base m : Nat) (it : TreeItem),
      (t.items parent base)[m]? = some it → 0 < m →
        ∃ q, it.parent = some q ∧ base ≤ q ∧ q < base + t.size := by
  induction t using RecordTree.induct_children with
  | h r cs ih =>
    intro parent base m it h hm
    obtain ⟨k, rfl⟩ : ∃ k, m = k + 1 := ⟨m - 1, by omega⟩
    simp only [RecordTree.items, List.getElem?_cons_succ] at h
    obtain ⟨q, hq, hcase⟩ := items_children_parent cs ih base (base + 1) k it h
    refine ⟨q, hq, ?_⟩
    simp only [RecordTree.size]
    rcases hcase with h1 | ⟨h1, h2⟩
    · subst h1
      exact ⟨le_refl _, by omega⟩
    · exact ⟨by omega, by omega⟩

theorem length_items_children (holder base : Nat) (cs : List RecordTree) :
    (RecordTree.items_children holder base cs).length = RecordTree.size_children cs := by
  induction cs generalizing base with
  | nil => rfl
  | cons c cs ih =>
    simp only [RecordTree.items_children, RecordTree.size_children, List.length_append,
      length_items, ih]

/-- The tops of the children are attached to the holder. -/
theorem roots_attached (cs : List RecordTree) :
    ∀ (holder base j : Nat), j ∈ RecordTree.roots base cs →
      base ≤ j ∧ j < base + RecordTree.size_children cs
      ∧ ∃ it, (RecordTree.items_children holder base cs)[j - base]? = some it
          ∧ it.parent = some holder := by
  induction cs with
  | nil =>
    intro holder base j hj
    simp [RecordTree.roots] at hj
  | cons c cs ih =>
    intro holder base j hj
    simp only [RecordTree.roots, List.mem_cons] at hj
    simp only [RecordTree.size_children, RecordTree.items_children]
    have hpos := size_pos c
    rcases hj with rfl | hj
    · refine ⟨le_refl _, by omega, ?_⟩
      rw [Nat.sub_self, List.getElem?_append_left (by rw [length_items]; exact hpos)]
      cases c with
      | node r cs2 => exact ⟨item_of (some holder) r, by simp [RecordTree.items], rfl⟩
    · obtain ⟨h1, h2, it, hit, hp⟩ := ih holder (base + c.size) j hj
      refine ⟨by omega, by omega, it, ?_, hp⟩
      rw [List.getElem?_append_right (by rw [length_items]; omega), length_items]
      have : j - base - c.size = j - (base + c.size) := by omega
      rw [this]
      exact hit

/-- An item among those of the children that is attached to the holder is the top of a
child. -/
theorem attached_is_root (cs : List RecordTree) :
    ∀ (holder base m : Nat) (it : TreeItem), holder < base →
      (RecordTree.items_children holder base cs)[m]? = some it →
      it.parent = some holder → base + m ∈ RecordTree.roots base cs := by
  induction cs with
  | nil =>
    intro holder base m it _ h
    simp [RecordTree.items_children] at h
  | cons c cs ih =>
    intro holder base m it hlt h hp
    simp only [RecordTree.items_children] at h
    simp only [RecordTree.roots, List.mem_cons]
    by_cases hm : m < (c.items (some holder) base).length
    · rw [List.getElem?_append_left hm] at h
      by_cases h0 : m = 0
      · exact Or.inl (by omega)
      · obtain ⟨q, hq, h1, _⟩ := items_parent c _ _ m it h (by omega)
        rw [hp] at hq
        cases hq
        omega
    · rw [List.getElem?_append_right (by omega), length_items] at h
      rw [length_items] at hm
      have := ih holder (base + c.size) (m - c.size) it (by omega) h hp
      have e : base + c.size + (m - c.size) = base + m := by omega
      rw [e] at this
      exact Or.inr this

theorem roots_sorted (cs : List RecordTree) :
    ∀ base, (RecordTree.roots base cs).Sorted (· < ·) := by
  induction cs with
  | nil => intro base; exact List.sorted_nil
  | cons c cs ih =>
    intro base
    simp only [RecordTree.roots, List.sorted_cons]
    refine ⟨?_, ih _⟩
    intro j hj
    have := (roots_attached cs 0 (base + c.size) j hj).1
    have hpos := size_pos c
    omega

theorem filter_range_eq (n : Nat) (p : Nat → Bool) (l : List Nat)
    (hs : l.Sorted (· < ·)) (hmem : ∀ j, j ∈ l ↔ j < n ∧ p j = true) :
    (List.range n).filter p = l := by
  apply List.eq_of_perm_of_sorted (r := (· < ·)) _ _ hs
  · apply (List.perm_ext_iff_of_nodup ((List.nodup_range n).filter p) hs.nodup).mpr
    intro j
    rw [List.mem_filter, List.mem_range, hmem]
  · exact (List.pairwise_lt_range n).filter p

theorem shown_children (cs : List RecordTree)
    (ih : ∀ c ∈ cs, ∀ (l : List TreeItem) (parent : Option Nat) (base fuel : Nat),
      (∀ m, m < c.size → l[base + m]? = (c.items parent base)[m]?) →
      (∀ j it q, l[j]? = some it → it.parent = some q → base ≤ q → q < base + c.size →
        base ≤ j ∧ j < base + c.size) →
      (∀ q, parent = some q → q < base) → c.size ≤ fuel →
      Tree.shown l fuel base = c.shape) :
    ∀ (l : List TreeItem) (holder base fuel : Nat),
      (∀ m, m < RecordTree.size_children cs →
        l[base + m]? = (RecordTree.items_children holder base cs)[m]?) →
      (∀ j it q, l[j]? = some it → it.parent = some q → base ≤ q →
        q < base + RecordTree.size_children cs →
        base ≤ j ∧ j < base + RecordTree.size_children cs) →
      holder < base → RecordTree.size_children cs ≤ fuel →
      (RecordTree.roots base cs).map (Tree.shown l fuel) = RecordTree.shape_children cs := by
  induction cs with
  | nil => intro l holder base fuel _ _ _ _; rfl
  | cons c cs ihc =>
    intro l holder base fuel hP hO hlt hfuel
    simp only [RecordTree.size_children] at hP hO hfuel
    simp only [RecordTree.items_children] at hP
    simp only [RecordTree.roots, RecordTree.shape_children, List.map_cons]
    have hlen : (c.items (some holder) base).length = c.size := length_items c _ _
    have hP1 : ∀ m, m < c.size → l[base + m]? = (c.items (some holder) base)[m]? := by
      intro m hm
      rw [hP m (by omega), List.getElem?_append_left (by omega)]
    have hP2 : ∀ m, m < RecordTree.size_children cs →
        l[base + c.size + m]? = (RecordTree.items_children holder (base + c.size) cs)[m]? := by
      intro m hm
      have := hP (c.size + m) (by omega)
      rw [List.getElem?_append_right (by omega), hlen] at this
      have e1 : base + (c.size + m) = base + c.size + m := by omega
      have e2 : c.size + m - c.size = m := by omega
      rw [e1, e2] at this
      exact this
    congr 1
    · refine ih c (List.mem_cons_self _ _) l (some holder) base fuel hP1 ?_ ?_ (by omega)
      · intro j it q hj hp h1 h2
        obtain ⟨h3, h4⟩ := hO j it q hj hp h1 (by omega)
        refine ⟨h3, ?_⟩
        by_contra hge
        have hm : j - base - c.size < RecordTree.size_children cs := by omega
        have h5 := hP2 (j - base - c.size) hm
        have e : base + c.size + (j - base - c.size) = j := by omega
        rw [e, hj] at h5
        obtain ⟨q2, hq2, hcase⟩ := items_children_parent cs (fun x _ => items_parent x)
          holder (base + c.size) _ it h5.symm
        rw [hp] at hq2
        cases hq2
        rcases hcase with h6 | ⟨h6, _⟩ <;> omega
      · intro q hq
        cases hq
        exact hlt
    · refine ihc (fun x hx => ih x (List.mem_cons_of_mem _ hx)) l holder (base + c.size) fuel
        hP2 ?_ (by omega) (by omega)
      intro j it q hj hp h1 h2
      obtain ⟨h3, h4⟩ := hO j it q hj hp (by omega) (by omega)
      refine ⟨?_, by omega⟩
      by_contra hlt2
      have hm : j - base < c.size := by omega
      have h5 := hP1 (j - base) hm
      have e : base + (j - base) = j := by omega
      rw [e, hj] at h5
      by_cases h0 : j - base = 0
      · rw [h0] at h5
        have := items_head c _ _ it h5.symm
        rw [hp] at this
        cases this
        omega
      · obtain ⟨q2, hq2, h6, h7⟩ := items_parent c _ _ _ it h5.symm (by omega)
        rw [hp] at hq2
        cases hq2
        omega

/-- What the `Tree` shows from the item of the top of a tree down is the tree, when the
items of the tree sit in the `Tree` from `base` on and no other item is attached to
one of them. -/
theorem shown_subtree (t : RecordTree) :
    ∀ (l : List TreeItem) (parent : Option Nat) (base fuel : Nat),
      (∀ m, m < t.size → l[base + m]? = (t.items parent base)[m]?) →
      (∀ j it q, l[j]? = some it → it.parent = some q → base ≤ q → q < base + t.size →
        base ≤ j ∧ j < base + t.size) →
      (∀ q, parent = some q → q < base) → t.size ≤ fuel →
      Tree.shown l fuel base = t.shape := by
  induction t using RecordTree.induct_children with
  | h r cs ih =>
    intro l parent base fuel hP hO hpar hfuel
    simp only [RecordTree.size] at hP hO hfuel
    obtain ⟨f, rfl⟩ : ∃ f, fuel = f + 1 := ⟨fuel - 1, by omega⟩
    have h0 : l[base]? = some (item_of parent r) := by
      have := hP 0 (by omega)
      simpa [RecordTree.items] using this
    have hP2 : ∀ m, m < RecordTree.size_children cs →
        l[base + 1 + m]? = (RecordTree.items_children base (base + 1) cs)[m]? := by
      intro m hm
      have := hP (m + 1) (by omega)
      simp only [RecordTree.items, List.getElem?_cons_succ] at this
      have e : base + (m + 1) = base + 1 + m := by omega
      rw [e] at this
      exact this
    have hkids : Tree.children_of l base = RecordTree.roots (base + 1) cs := by
      unfold Tree.children_of
      apply filter_range_eq _ _ _ (roots_sorted cs _)
      intro j
      constructor
      · intro hj
        obtain ⟨h1, h2, it, hit, hp⟩ := roots_attached cs base (base + 1) j hj
        have h3 := hP2 (j - (base + 1)) (by omega)
        have e : base + 1 + (j - (base + 1)) = j := by omega
        rw [e, hit] at h3
        have hlen : j < l.length := by
          by_contra hge
          rw [List.getElem?_eq_none (by omega)] at h3
          cases h3
        refine ⟨hlen, ?_⟩
        simp [h3, hp]
      · rintro ⟨_, hdec⟩
        simp only [decide_eq_true_eq] at hdec
        cases hj : l[j]? with
        | none => rw [hj] at hdec; cases hdec
        | some it =>
          rw [hj] at hdec
          simp only [Option.map_some', Option.some.injEq] at hdec
          obtain ⟨h1, h2⟩ := hO j it base hj hdec (le_refl _) (by omega)
          by_cases hjb : j = base
          · subst hjb
            rw [h0] at hj
            cases hj
            have := hpar j hdec
            omega
          · have h3 := hP2 (j - (base + 1)) (by omega)
            have e : base + 1 + (j - (base + 1)) = j := by omega
            rw [e, hj] at h3
            have := attached_is_root cs base (base + 1) _ it (by omega) h3.symm hdec
            rw [e] at this
            exact this
    simp only [Tree.shown, h0, hkids, RecordTree.shape, item_of]
    congr 1
    refine shown_children cs ih l base (base + 1) f hP2 ?_ (by omega) (by omega)
    intro j it q hj hp h1 h2
    obtain ⟨h3, h4⟩ := hO j it q hj hp (by omega) (by omega)
    refine ⟨?_, by omega⟩
    by_contra hlt
    have hjb : j = base := by omega
    subst hjb
    rw [h0] at hj
    cases hj
    have := hpar q hp
    omega


/-- C26: on the pre-order flattening of any tree of records, each record carrying the
number of its direct children, `update_tree` creates one item per record, in list order
(the metadata and texts of the items are the ids and names of the records, in order),
attaches the first to nothing (it is the top-level item) and every other to the item
created for the record that holds it as a child; the `Tree` then shows the tree that was
flattened, same shape and same order of children; and the stack `parents` is empty at the
end.  This holds for every engine `create_item` that attaches an item under the parent it
is given and makes the item created in an empty `Tree` the root. -/
theorem update_tree_rebuilds (create_item : List TreeItem → Option Nat → Option Nat)
    (hcreate : ∀ items p, create_item items (some p) = some p)
    (hroot : create_item [] none = none) (t : RecordTree) :
    (BehaviorTreeView.update_tree create_item t.flatten).items = t.items none 0
    ∧ (BehaviorTreeView.update_tree create_item t.flatten).items.length = t.flatten.length
    ∧ (BehaviorTreeView.update_tree create_item t.flatten).items.map
        (fun it => (it.metadata, it.text)) = t.flatten.map (fun r => (r.id, r.name))
    ∧ ((BehaviorTreeView.update_tree create_item t.flatten).items[0]?).map
        (fun it => it.parent) = some none
    ∧ (∀ fuel, t.size ≤ fuel →
        Tree.shown (BehaviorTreeView.update_tree create_item t.flatten).items fuel 0
          = t.shape)
    ∧ (BehaviorTreeView.update_tree create_item t.flatten).parents = [] := by
  rw [update_tree_flatten create_item hcreate hroot]
  have hlab := items_labels t none 0
  refine ⟨rfl, ?_, hlab, ?_, ?_, rfl⟩
  · have := congrArg List.length hlab
    simpa using this
  · cases t with
    | node r cs => simp [RecordTree.items, item_of]
  · intro fuel hfuel
    refine shown_subtree t (t.items none 0) none 0 fuel (fun m _ => by simp) ?_
      (fun q hq => by cases hq) hfuel
    intro j it q hj _ _ _
    have hlen : j < (t.items none 0).length := by
      by_contra hge
      rw [List.getElem?_eq_none (by omega)] at hj
      cases hj
    rw [length_items] at hlen
    omega

/-- C26 on the records of "root" over "a" (over "a1") and "b", with the engine
`Tree.create_item`: four items, "a" and "b" attached to item 0, "a1" to item 1, the stack
empty, and the `Tree` shows the tree. -/
theorem update_tree_rebuilds_witness :
    (BehaviorTreeView.update_tree Tree.create_item sample_records.flatten
      = ⟨[⟨none, 100, "root", false, some RUNNING⟩, ⟨some 0, 101, "a", false, some SUCCESS⟩,
          ⟨some 1, 102, "a1", false, some SUCCESS⟩, ⟨some 0, 103, "b", false, some RUNNING⟩],
          []⟩
      ∧ Tree.children_of
          (BehaviorTreeView.update_tree Tree.create_item sample_records.flatten).items 0
        = [1, 3])
    ∧ (BehaviorTreeView.update_tree Tree.create_item sample_records.flatten).items
        = sample_records.items none 0
    ∧ Tree.shown (BehaviorTreeView.update_tree Tree.create_item sample_records.flatten).items
        4 0 = sample_records.shape
    ∧ (BehaviorTreeView.update_tree Tree.create_item sample_records.flatten).parents = [] :=
  ⟨by decide,
    (update_tree_rebuilds Tree.create_item (fun _ _ => rfl) rfl sample_records).1,
    (update_tree_rebuilds Tree.create_item (fun _ _ => rfl) rfl sample_records).2.2.2.2.1 4
      (by decide),
    (update_tree_rebuilds Tree.create_item (fun _ _ => rfl) rfl sample_records).2.2.2.2.2⟩

end LimboAI
